import Mathlib

/-!
Verification of the `geospace` 2D geometry library (`src/geometry.ts`).

The TypeScript source is shallowly embedded over exact rational arithmetic
(`ℚ`).  JavaScript numbers are IEEE doubles; we idealize them as exact
rationals, and we abstract the two transcendental float routines the code
uses — `Math.sqrt` (as a parameter `msqrt : ℚ → ℚ`, with the properties a
claim needs stated as hypotheses) and `Math.cos`/`Math.sin`/`Math.PI` (as
parameters `mcos`, `msin`, `mpi`, used only by polygon-contains-circle
sampling).  The `GeometryEngine` class takes its point-to-point distance
function as a constructor argument in the source, so the engine embedding
is likewise parametrized by `dist : Pt → Pt → ℚ`.

Division in the source is JavaScript division.  Every division in the
embedded code paths is guarded by the source itself (a branch on the
denominator being at least EPSILON away from zero) except one, in
`rayCircleIntersection`, where the guard is reconstructed explicitly and
documented at the definition.
-/

set_option allowUnsafeReducibility true in
attribute [semireducible] Rat.add Rat.mul Rat.sub Rat.inv Rat.ofScientific

namespace Geospace

/-- `EPSILON = 1e-10`, the global tolerance (geometry.ts line 19). -/
def EPS : ℚ := 1 / 10000000000

/-- A 2D point: `interface Point { x, y }`. -/
structure Pt where
  x : ℚ
  y : ℚ
deriving DecidableEq, Repr

/-- A line segment: `interface LineSegment { start, end }` (`a` is `start`, `b` is `end`). -/
structure Seg where
  a : Pt
  b : Pt
deriving DecidableEq, Repr

/-- A circle: `interface Circle { center, radius }`. -/
structure Circ where
  center : Pt
  radius : ℚ
deriving DecidableEq, Repr

/-- A polygon: `interface Polygon { exterior, holes? }`.  The optional
`holes` field is embedded as a list; an absent field and an empty list are
observationally identical in the source (`if (poly.holes)` guards a loop). -/
structure Poly where
  exterior : List Pt
  holes : List (List Pt)
deriving DecidableEq, Repr

/-- An axis-aligned bounding box: `interface BoundingBox`. -/
structure BBox where
  minX : ℚ
  minY : ℚ
  maxX : ℚ
  maxY : ℚ
deriving DecidableEq, Repr

/-- A ray: `interface Ray { origin, direction }`. -/
structure Ray where
  origin : Pt
  direction : Pt
deriving DecidableEq, Repr

/-- The geometry union used by the predicate engine
(`type Geometry = Point2D | LineSegment2D | Circle2D | Polygon2D | ...`).
`MultiPoint2D` is omitted: none of the embedded operations
(`intersects`/`contains`/`raycast`) has a branch for it (they throw or
return null), and no claim mentions it. -/
inductive Geom where
  | point (p : Pt)
  | seg (s : Seg)
  | circle (c : Circ)
  | poly (p : Poly)
deriving DecidableEq, Repr

/-- `bboxIntersects(a, b)` (geometry.ts 1285-1292): box overlap with EPSILON slack. -/
def bboxIntersects (a b : BBox) : Bool :=
  a.minX ≤ b.maxX + EPS && a.maxX ≥ b.minX - EPS &&
  a.minY ≤ b.maxY + EPS && a.maxY ≥ b.minY - EPS

/-- `bboxArea(bbox)` (geometry.ts 1297-1301). -/
def bboxArea (b : BBox) : ℚ :=
  max 0 (b.maxX - b.minX) * max 0 (b.maxY - b.minY)

/-- `unionBBox(a, b)` (geometry.ts 1306-1313). -/
def unionBBox (a b : BBox) : BBox :=
  ⟨min a.minX b.minX, min a.minY b.minY, max a.maxX b.maxX, max a.maxY b.maxY⟩

/-- `bboxEnlargement(bbox, addition)` (geometry.ts 1318-1321). -/
def bboxEnlargement (b addition : BBox) : ℚ :=
  bboxArea (unionBBox b addition) - bboxArea b

/-- Specification-side predicate (not from the source): `inner` is
contained in `outer`, componentwise. -/
def bboxSub (inner outer : BBox) : Bool :=
  outer.minX ≤ inner.minX && outer.minY ≤ inner.minY &&
  inner.maxX ≤ outer.maxX && inner.maxY ≤ outer.maxY

/-- Specification-side predicate (not from the source): a box is
well-formed (`minX ≤ maxX`, `minY ≤ maxY`). -/
def wfBBox (b : BBox) : Bool :=
  b.minX ≤ b.maxX && b.minY ≤ b.maxY

/-- `computePolygonBBox(poly)` (geometry.ts 1110-1122): fold over the
exterior ring starting from infinities.  For a nonempty ring the
infinities are absorbed; the embedding folds from the first vertex (the
source result is identical for every ring with at least one vertex, the
only case reachable through validated polygons). -/
def computePolygonBBox (p : Poly) : BBox :=
  match p.exterior with
  | [] => ⟨0, 0, 0, 0⟩
  | v :: vs =>
    vs.foldl (fun acc w =>
      ⟨min acc.minX w.x, min acc.minY w.y, max acc.maxX w.x, max acc.maxY w.y⟩)
      ⟨v.x, v.y, v.x, v.y⟩

/-- Bounding box of a segment, as computed inline at several places in the
source (e.g. geometry.ts 794-800). -/
def segBBox (s : Seg) : BBox :=
  ⟨min s.a.x s.b.x, min s.a.y s.b.y, max s.a.x s.b.x, max s.a.y s.b.y⟩

/-- Bounding box of a circle (geometry.ts 801-807). -/
def circBBox (c : Circ) : BBox :=
  ⟨c.center.x - c.radius, c.center.y - c.radius,
   c.center.x + c.radius, c.center.y + c.radius⟩

/-- `getBBox(geom)` (geometry.ts 253-289) restricted to the embedded
geometry union; every class carries `getBoundingBox`, so the method branch
is taken and agrees with the per-shape formulas. -/
def getBBoxG : Geom → BBox
  | .point p => ⟨p.x, p.y, p.x, p.y⟩
  | .seg s => segBBox s
  | .circle c => circBBox c
  | .poly p => computePolygonBBox p

/-- `euclideanDistance(a, b)` (geometry.ts 1276-1280), with `Math.sqrt`
abstracted as `msqrt`. -/
def euclid (msqrt : ℚ → ℚ) (a b : Pt) : ℚ :=
  msqrt ((a.x - b.x) * (a.x - b.x) + (a.y - b.y) * (a.y - b.y))

/-- `collinear(p, q, r)` (geometry.ts 1236-1239). -/
def collinear (p q r : Pt) : Bool :=
  |p.x * (q.y - r.y) + q.x * (r.y - p.y) + r.x * (p.y - q.y)| < EPS

/-- `collinearOverlap(a, b)` (geometry.ts 1207-1231). -/
def collinearOverlap (s t : Seg) : Bool :=
  collinear s.a s.b t.a && bboxIntersects (segBBox s) (segBBox t)

/-- `segmentsIntersect(a, b)` (geometry.ts 1186-1202). -/
def segmentsIntersect (s t : Seg) : Bool :=
  let det := (s.b.x - s.a.x) * (t.b.y - t.a.y) - (s.b.y - s.a.y) * (t.b.x - t.a.x)
  if |det| < EPS then
    collinearOverlap s t
  else
    let tt := ((t.a.x - s.a.x) * (t.b.y - t.a.y) - (t.a.y - s.a.y) * (t.b.x - t.a.x)) / det
    let u := ((t.a.x - s.a.x) * (s.b.y - s.a.y) - (t.a.y - s.a.y) * (s.b.x - s.a.x)) / det
    tt ≥ -EPS && tt ≤ 1 + EPS && u ≥ -EPS && u ≤ 1 + EPS

/-- `pointOnSegment(p, seg)` (geometry.ts 1244-1249); uses the
module-level `euclideanDistance`, hence `msqrt`. -/
def pointOnSegment (msqrt : ℚ → ℚ) (p : Pt) (s : Seg) : Bool :=
  |euclid msqrt p s.a + euclid msqrt p s.b - euclid msqrt s.a s.b| < EPS

/-- `pointsEqual(a, b)` (geometry.ts 1254-1256). -/
def pointsEqual (p q : Pt) : Bool :=
  |p.x - q.x| < EPS && |p.y - q.y| < EPS

/-- `nearestPointOnSegment(p, seg)` (geometry.ts 1261-1271). -/
def nearestPointOnSegment (p : Pt) (s : Seg) : Pt :=
  let dx := s.b.x - s.a.x
  let dy := s.b.y - s.a.y
  let lengthSq := dx * dx + dy * dy
  if lengthSq < EPS then s.a
  else
    let t := ((p.x - s.a.x) * dx + (p.y - s.a.y) * dy) / lengthSq
    let t2 := max 0 (min 1 t)
    ⟨s.a.x + t2 * dx, s.a.y + t2 * dy⟩

/-- One step of the even-odd ray-casting parity test over a ring
(geometry.ts 1140-1149 and 1156-1165): the loop body for vertex pair
`(vi, vj)` at query point `p`. -/
def parityStep (p vi vj : Pt) : Bool :=
  (decide (vi.y > p.y) != decide (vj.y > p.y)) &&
  p.x < (vj.x - vi.x) * (p.y - vi.y) / (vj.y - vi.y + EPS) + vi.x

/-- Parity (even-odd crossing) of a ring at `p`: the source loop
`for (i = 0, j = n-1; i < n; j = i++)`. -/
def ringParity (p : Pt) (ring : List Pt) : Bool :=
  (List.range ring.length).foldl
    (fun inside i =>
      let j := if i = 0 then ring.length - 1 else i - 1
      if parityStep p (ring.getD i ⟨0, 0⟩) (ring.getD j ⟨0, 0⟩) then !inside else inside)
    false

/-- `pointInPolygon(p, poly)` (geometry.ts 1127-1170): bounding-box
pre-check, exterior parity, then reclassification by holes. -/
def pointInPolygon (p : Pt) (poly : Poly) : Bool :=
  let bbox := computePolygonBBox poly
  if p.x < bbox.minX - EPS || p.x > bbox.maxX + EPS ||
     p.y < bbox.minY - EPS || p.y > bbox.maxY + EPS then
    false
  else if !ringParity p poly.exterior then
    false
  else
    !poly.holes.any (fun hole => ringParity p hole)

/-- The edge list of a ring: edge `i` joins vertex `i` to vertex
`(i+1) % n`, exactly as every edge loop in the source builds it. -/
def ringEdges (ring : List Pt) : List Seg :=
  (List.range ring.length).map
    (fun i => ⟨ring.getD i ⟨0, 0⟩, ring.getD ((i + 1) % ring.length) ⟨0, 0⟩⟩)

/-- `onPolygonBoundary(p, poly)` (geometry.ts 1171-1181). -/
def onPolygonBoundary (msqrt : ℚ → ℚ) (p : Pt) (poly : Poly) : Bool :=
  (ringEdges poly.exterior).any (fun e => pointOnSegment msqrt p e)

/-- `GeometryEngine.pointToCircleDistance(p, c)` (geometry.ts 699-702);
`dist` is the engine's constructor-supplied `distanceFunc`. -/
def pointToCircleDistance (dist : Pt → Pt → ℚ) (p : Pt) (c : Circ) : ℚ :=
  let d := dist p c.center
  if d ≤ c.radius + EPS then 0 else d - c.radius

/-- The bounding box `intersects` computes for each operand
(geometry.ts 789-834); identical to `getBBoxG` on the embedded union. -/
def intersectsBBoxOf : Geom → BBox := getBBoxG

/-- `GeometryEngine.intersects(a, b)` (geometry.ts 787-931): bounding-box
quick rejection followed by the per-pair predicate dispatch.  Type-guard
dispatch (`isPoint`…`isPolygon`) becomes an exhaustive match on the tagged
union.  The `fuel` argument is a structural-recursion device for the two
argument-swapping branches; the swapped call never swaps again, so
`intersectsE = intersectsFuel 2` reproduces the source exactly. -/
def intersectsFuel (dist : Pt → Pt → ℚ) (msqrt : ℚ → ℚ) :
    ℕ → Geom → Geom → Bool
  | 0, _, _ => false
  | fuel + 1, g1, g2 =>
  if !bboxIntersects (intersectsBBoxOf g1) (intersectsBBoxOf g2) then false
  else
    match g1, g2 with
    | .point p, .point q => dist p q < EPS
    | .point p, .seg s => pointOnSegment msqrt p s
    | .point p, .circle c => dist p c.center ≤ c.radius + EPS
    | .point p, .poly poly => pointInPolygon p poly
    | .seg s, .point q => pointOnSegment msqrt q s
    | .seg s, .seg t => segmentsIntersect s t
    | .seg s, .circle c => pointToCircleDistance dist (nearestPointOnSegment c.center s) c < EPS
    | .seg s, .poly poly =>
      pointInPolygon s.a poly || pointInPolygon s.b poly ||
        (ringEdges poly.exterior).any (fun e => segmentsIntersect s e)
    | .circle c, .point q => dist q c.center ≤ c.radius + EPS
    | .circle c, .seg s => pointToCircleDistance dist (nearestPointOnSegment c.center s) c < EPS
    | .circle c, .circle c2 => dist c.center c2.center ≤ c.radius + c2.radius + EPS
    | .circle c, .poly poly =>
      pointInPolygon c.center poly ||
        (ringEdges poly.exterior).any
          (fun e => pointToCircleDistance dist (nearestPointOnSegment c.center e) c < EPS)
    | .poly poly, .point q => pointInPolygon q poly
    | .poly poly, .seg s => intersectsFuel dist msqrt fuel (.seg s) (.poly poly)
    | .poly poly, .circle c => intersectsFuel dist msqrt fuel (.circle c) (.poly poly)
    | .poly poly, .poly poly2 =>
      poly.exterior.any (fun v => pointInPolygon v poly2) ||
      poly2.exterior.any (fun v => pointInPolygon v poly) ||
      (ringEdges poly.exterior).any (fun e1 =>
        (ringEdges poly2.exterior).any (fun e2 => segmentsIntersect e1 e2))

/-- `GeometryEngine.intersects(a, b)`; see `intersectsFuel`. -/
def intersectsE (dist : Pt → Pt → ℚ) (msqrt : ℚ → ℚ) (g1 g2 : Geom) : Bool :=
  intersectsFuel dist msqrt 2 g1 g2

/-- The 16 circumference sample points used by polygon-contains-circle
(geometry.ts 992-1000), with `Math.cos`/`Math.sin`/`Math.PI` abstracted as
`mcos`/`msin`/`mpi`. -/
def circleSample (mcos msin : ℚ → ℚ) (mpi : ℚ) (c : Circ) (i : ℕ) : Pt :=
  let angle := 2 * mpi * (i : ℚ) / 16
  ⟨c.center.x + c.radius * mcos angle, c.center.y + c.radius * msin angle⟩

/-- `GeometryEngine.contains(container, contained)` (geometry.ts 932-1007).
The fall-through for unsupported containers returns `false` as the source
does.  The `fuel` argument is a structural-recursion device for the
branches that re-enter with a contained point (circle-segment and
circle-polygon); that inner call never recurses again, so
`containsE = containsFuel 2` reproduces the source exactly. -/
def containsFuel (dist : Pt → Pt → ℚ) (msqrt : ℚ → ℚ) (mcos msin : ℚ → ℚ) (mpi : ℚ) :
    ℕ → Geom → Geom → Bool
  | 0, _, _ => false
  | fuel + 1, container, contained =>
  match container, contained with
  | .circle c, .point p => dist c.center p ≤ c.radius - EPS
  | .circle c, .seg s =>
    containsFuel dist msqrt mcos msin mpi fuel (.circle c) (.point s.a) &&
    containsFuel dist msqrt mcos msin mpi fuel (.circle c) (.point s.b)
  | .circle c, .circle c2 => dist c.center c2.center + c2.radius ≤ c.radius - EPS
  | .circle c, .poly poly =>
    poly.exterior.all
      (fun v => containsFuel dist msqrt mcos msin mpi fuel (.circle c) (.point v))
  | .poly poly, .point p => pointInPolygon p poly
  | .poly poly, .seg s =>
    if !(pointInPolygon s.a poly || onPolygonBoundary msqrt s.a poly) ||
       !(pointInPolygon s.b poly || onPolygonBoundary msqrt s.b poly) then false
    else
      (ringEdges poly.exterior).all (fun e =>
        if segmentsIntersect s e then
          !(!pointsEqual s.a e.a && !pointsEqual s.a e.b &&
            !pointsEqual s.b e.a && !pointsEqual s.b e.b)
        else true)
  | .poly poly, .circle c =>
    (List.range 16).all (fun i => pointInPolygon (circleSample mcos msin mpi c i) poly)
  | .poly poly, .poly poly2 =>
    poly2.exterior.all (fun v => pointInPolygon v poly)
  | _, _ => false

/-- `GeometryEngine.contains(container, contained)`; see `containsFuel`. -/
def containsE (dist : Pt → Pt → ℚ) (msqrt : ℚ → ℚ) (mcos msin : ℚ → ℚ) (mpi : ℚ)
    (container contained : Geom) : Bool :=
  containsFuel dist msqrt mcos msin mpi 2 container contained

/-- `raySegmentIntersection(ray, seg)` (geometry.ts 1808-1832). -/
def raySegmentIntersection (ray : Ray) (s : Seg) : Option Pt :=
  let rdx := ray.direction.x
  let rdy := ray.direction.y
  let sdx := s.b.x - s.a.x
  let sdy := s.b.y - s.a.y
  let den := rdx * sdy - rdy * sdx
  if |den| < EPS then none
  else
    let t := ((s.a.x - ray.origin.x) * sdy - (s.a.y - ray.origin.y) * sdx) / den
    let u := ((s.a.x - ray.origin.x) * rdy - (s.a.y - ray.origin.y) * rdx) / den
    if t ≥ 0 && u ≥ 0 && u ≤ 1 then
      some ⟨ray.origin.x + t * rdx, ray.origin.y + t * rdy⟩
    else none

/-- `rayCircleIntersection(ray, circle)` (geometry.ts 1842-1870).
When `a = dx²+dy² = 0` (over ℚ this forces `dx = dy = 0`, hence `b = 0`
and `discriminant = 0`), the source computes `t1 = t2 = 0/0 = NaN` (since
`Math.sqrt(0) = 0` exactly in IEEE), all three `t ≥ 0` tests are false,
and it returns null; that case is encoded by the explicit `a = 0` branch.
Otherwise `2a ≠ 0` and the divisions are exact. -/
def rayCircleIntersection (msqrt : ℚ → ℚ) (ray : Ray) (c : Circ) : Option Pt :=
  let ox := ray.origin.x
  let oy := ray.origin.y
  let dx := ray.direction.x
  let dy := ray.direction.y
  let cx := c.center.x
  let cy := c.center.y
  let a := dx * dx + dy * dy
  let b := 2 * (dx * (ox - cx) + dy * (oy - cy))
  let cc := (ox - cx) * (ox - cx) + (oy - cy) * (oy - cy) - c.radius * c.radius
  let disc := b * b - 4 * a * cc
  if disc < 0 then none
  else
    let sq := msqrt disc
    if a = 0 then none
    else
      let t1 := (-b - sq) / (2 * a)
      let t2 := (-b + sq) / (2 * a)
      if t1 ≥ 0 && t2 ≥ 0 then some ⟨ox + min t1 t2 * dx, oy + min t1 t2 * dy⟩
      else if t1 ≥ 0 then some ⟨ox + t1 * dx, oy + t1 * dy⟩
      else if t2 ≥ 0 then some ⟨ox + t2 * dx, oy + t2 * dy⟩
      else none

/-- `rayPolygonIntersection(ray, poly)` (geometry.ts 1880-1898): fold over
the exterior edges keeping the hit with the strictly smallest
`Math.sqrt`-distance from the origin (first hit wins ties). -/
def rayPolygonIntersection (msqrt : ℚ → ℚ) (ray : Ray) (poly : Poly) : Option Pt :=
  let best := (ringEdges poly.exterior).foldl
    (fun closest e =>
      match raySegmentIntersection ray e with
      | none => closest
      | some inter =>
        let t := msqrt ((inter.x - ray.origin.x) * (inter.x - ray.origin.x) +
                        (inter.y - ray.origin.y) * (inter.y - ray.origin.y))
        match closest with
        | none => some (inter, t)
        | some (_, ct) => if t < ct then some (inter, t) else closest)
    none
  best.map Prod.fst

/-- `GeometryEngine.raycast(origin, direction, geometry)` (geometry.ts
1054-1085), returning the hit point and its `distanceFunc` distance.  The
polygon case includes the source's fallback: on a miss with
`direction.x > EPSILON`, it intersects the ray with the vertical line
through the polygon's bounding-box left edge. -/
def raycastE (dist : Pt → Pt → ℚ) (msqrt : ℚ → ℚ) (origin direction : Pt)
    (g : Geom) : Option (Pt × ℚ) :=
  let ray : Ray := ⟨origin, direction⟩
  let intersection : Option Pt :=
    match g with
    | .point _ => none
    | .seg s => raySegmentIntersection ray s
    | .circle c => rayCircleIntersection msqrt ray c
    | .poly poly =>
      match rayPolygonIntersection msqrt ray poly with
      | some i => some i
      | none =>
        if direction.x > EPS then
          let bbox := getBBoxG (.poly poly)
          let t := (bbox.minX - origin.x) / direction.x
          if t ≥ 0 then some ⟨origin.x + t * direction.x, origin.y + t * direction.y⟩
          else none
        else none
  intersection.map (fun i => (i, dist origin i))

/-- The `Circle2D` constructor (geometry.ts 380-385): rejects
`radius ≤ 0`. -/
def mkCircle2D (center : Pt) (radius : ℚ) : Except String Circ :=
  if radius ≤ 0 then .error "Circle radius must be positive"
  else .ok ⟨center, radius⟩

/-- The `Polygon2D` constructor (geometry.ts 478-494): rejects an exterior
ring with fewer than 3 vertices, then any hole with fewer than 3 vertices
(the source throws at the first offending hole; existence of one is
equivalent). -/
def mkPolygon2D (exterior : List Pt) (holes : List (List Pt)) : Except String Poly :=
  if exterior.length < 3 then .error "A polygon must have at least 3 vertices"
  else if holes.any (fun h => h.length < 3) then
    .error "A polygon hole must have at least 3 vertices"
  else .ok ⟨exterior, holes⟩

/-- `Node.invalidateBBox` (geometry.ts 1423-1428) acting on the chain of
cached boxes from the invalidated node (index 0) up to the root (last
element); `none` is a null/dirty cache.  Returns the updated chain and the
trace of chain indices whose `_bbox` field the call assigns: the source
sets `this._bbox = null` and recurses to the parent unconditionally. -/
def invalidateBBox : List (Option BBox) → List (Option BBox) × List ℕ
  | [] => ([], [])
  | _ :: rest =>
    let r := invalidateBBox rest
    (none :: r.1, 0 :: r.2.map (· + 1))

/-!  ## The R-tree (geometry.ts 1391-1799)

Mutation is embedded by explicit state passing: a tree is its root node,
and every operation returns the updated tree.  Parent pointers disappear
(the recursion carries the path); cached bounding boxes are represented by
recomputation: in the source every read of a node's `bbox` getter happens
after `invalidateBBox` has nulled the caches on the whole mutated path, so
a cached read always equals `computeBBox` over the node's current entries.
The boxes stored inside `Entry` records are genuine state and are kept as
data. -/

/-- `SpatialItem` (geometry.ts 319-324): `id` stands for JavaScript object
identity (the source compares items with `===`; distinct objects get
distinct ids), `geomBBox` is `item.geometry?.getBoundingBox()` (`none`
when no geometry is attached), `ownBBox` is `item.getBoundingBox()`. -/
structure SItem where
  id : ℕ
  geomBBox : Option BBox
  ownBBox : BBox
deriving DecidableEq, Repr

/-- The box `insert`/`bulkLoad` store for an item (geometry.ts 1455-1456,
1736): `(item as any).geometry?.getBoundingBox() || item.getBoundingBox()`.
A box object is always truthy, so the fallback fires exactly when the
geometry is absent. -/
def itemInsertBBox (x : SItem) : BBox := x.geomBBox.getD x.ownBBox

/-- `Node<T>` (geometry.ts 1398-1429): a leaf holds item entries, an
internal node holds child entries; each entry is `(bbox, payload)`. -/
inductive RNode where
  | leaf (entries : List (BBox × SItem))
  | inner (entries : List (BBox × RNode))
deriving Repr

/-- The entry boxes of a node, in order. -/
def nodeEntryBoxes : RNode → List BBox
  | .leaf es => es.map Prod.fst
  | .inner es => es.map Prod.fst

/-- `Node.computeBBox` (geometry.ts 1407-1416): `⟨0,0,0,0⟩` on an empty
node, else the union of the entry boxes folded from the first. -/
def computeBBox (n : RNode) : BBox :=
  match nodeEntryBoxes n with
  | [] => ⟨0, 0, 0, 0⟩
  | b :: bs => bs.foldl unionBBox b

mutual
/-- `RTree._search` (geometry.ts 1663-1673): collect the items of leaf
entries whose box overlaps the query, descending only into overlapping
child entries, in entry order. -/
def searchNode (q : BBox) : RNode → List SItem
  | .leaf es => (es.filter (fun e => bboxIntersects e.1 q)).map Prod.snd
  | .inner es => searchEntries q es

/-- `_search` over a list of child entries. -/
def searchEntries (q : BBox) : List (BBox × RNode) → List SItem
  | [] => []
  | (b, c) :: rest =>
    (if bboxIntersects b q then searchNode q c else []) ++ searchEntries q rest
end

mutual
/-- `RTree.findItem` (geometry.ts 1592-1616) as a success test: identity
search, pruned by `bboxIntersects(entry.bbox, item.getBoundingBox())` at
internal entries.  (The path the source accumulates is only used to read
its last element, which is the node the search started from; see
`removeT`.) -/
def findItemB (x : SItem) : RNode → Bool
  | .leaf es => es.any (fun e => e.2.id == x.id)
  | .inner es => findItemEntries x es

/-- `findItem` over a list of child entries. -/
def findItemEntries (x : SItem) : List (BBox × RNode) → Bool
  | [] => false
  | (b, c) :: rest =>
    (bboxIntersects b x.ownBBox && findItemB x c) || findItemEntries x rest
end

/-- `calcEntriesBBox(entries)` (geometry.ts 1437-1442):
`entries.reduce((acc, e) => union(acc, e.bbox), entries[0].bbox)` — the
fold starts from the first box and runs over the whole list (re-unioning
the first box, which is idempotent).  The source throws on `[]` (reading
`entries[0]`); it is only ever called on nonempty groups. -/
def calcEntriesBBox {α : Type} (es : List (BBox × α)) : BBox :=
  match es with
  | [] => ⟨0, 0, 0, 0⟩
  | e :: _ => es.foldl (fun acc x => unionBBox acc x.1) e.1

/-- Seed selection of `quadraticSplit` (geometry.ts 1518-1534): the
row-major pair scan keeping the pair of strictly highest wasted area,
starting from `highestWaste = -Infinity` and seeds `(0, 0)`. -/
def qsSeeds {α : Type} (es : List (BBox × α)) : ℕ × ℕ :=
  let pairs := (List.range es.length).flatMap
    (fun i => ((List.range es.length).filter (fun j => i < j)).map (fun j => (i, j)))
  let best := pairs.foldl
    (fun acc (p : ℕ × ℕ) =>
      let bi := ((es.get? p.1).map Prod.fst).getD ⟨0, 0, 0, 0⟩
      let bj := ((es.get? p.2).map Prod.fst).getD ⟨0, 0, 0, 0⟩
      let d := bboxArea (unionBBox bi bj) - bboxArea bi - bboxArea bj
      match acc with
      | none => some (d, p)
      | some (hw, _) => if d > hw then some (d, p) else acc)
    none
  (best.map Prod.snd).getD (0, 0)

/-- The inner pick of the distribution loop (geometry.ts 1549-1564):
among the remaining entries, the index of strictly largest
`|enlargement1 - enlargement2|` (first wins ties, and the first is always
accepted against the initial `diff = -Infinity`), together with the chosen
group — 1 if `enlargement1 < enlargement2`, else 2. -/
def qsPick {α : Type} (bbox1 bbox2 : BBox) (rem : List (BBox × α)) : ℕ × ℕ :=
  let best := (List.range rem.length).foldl
    (fun acc i =>
      let eb := ((rem.get? i).map Prod.fst).getD ⟨0, 0, 0, 0⟩
      let e1 := bboxEnlargement bbox1 eb
      let e2 := bboxEnlargement bbox2 eb
      let d := |e1 - e2|
      match acc with
      | none => some (d, i, if e1 < e2 then (1 : ℕ) else 2)
      | some (diff, _, _) =>
        if d > diff then some (d, i, if e1 < e2 then (1 : ℕ) else 2) else acc)
    none
  (best.map Prod.snd).getD (0, 0)

/-- The `while (remaining.length)` distribution loop of `quadraticSplit`
(geometry.ts 1540-1571).  `fuel` is a structural-recursion device: each
iteration removes exactly one remaining entry, so `fuel = rem.length`
makes the definition total and equal to the source loop. -/
def qsDistribute {α : Type} (minE : ℕ) :
    ℕ → List (BBox × α) → List (BBox × α) → List (BBox × α) →
    List (BBox × α) × List (BBox × α)
  | _, g1, g2, [] => (g1, g2)
  | 0, g1, g2, _ => (g1, g2)
  | fuel + 1, g1, g2, rem =>
    if g1.length + rem.length = minE then (g1 ++ rem, g2)
    else if g2.length + rem.length = minE then (g1, g2 ++ rem)
    else
      let pick := qsPick (calcEntriesBBox g1) (calcEntriesBBox g2) rem
      match rem.get? pick.1 with
      | none => (g1, g2)
      | some chosen =>
        let rem2 := rem.eraseIdx pick.1
        if pick.2 = 1 then qsDistribute minE fuel (g1 ++ [chosen]) g2 rem2
        else qsDistribute minE fuel g1 (g2 ++ [chosen]) rem2

/-- `RTree.quadraticSplit(entries)` (geometry.ts 1517-1573).  The source
is only called on an overflowing node (at least `maxEntries + 1 ≥ 3`
entries), so both seed indices are in range; the out-of-range fallback is
unreachable. -/
def quadraticSplit {α : Type} (minE : ℕ) (es : List (BBox × α)) :
    List (BBox × α) × List (BBox × α) :=
  let s := qsSeeds es
  match es.get? s.1, es.get? s.2 with
  | some e1, some e2 =>
    let remaining := ((es.enum.filter (fun p => p.1 ≠ s.1 && p.1 ≠ s.2)).map Prod.snd)
    qsDistribute minE remaining.length [e1] [e2] remaining
  | _, _ => (es, [])

mutual
/-- Weight of a node: one per node plus one per entry, transitively; an
upper bound on the height, used as recursion fuel and as the termination
measure of best-first search. -/
def nodeWeight : RNode → ℕ
  | .leaf es => 1 + es.length
  | .inner es => 1 + nodeWeightL es

/-- Weight of a child-entry list. -/
def nodeWeightL : List (BBox × RNode) → ℕ
  | [] => 0
  | (_, c) :: rest => nodeWeight c + nodeWeightL rest
end

/-- Subtree choice of `_insert` at an internal node (geometry.ts
1465-1477): least enlargement, ties within EPSILON broken by smaller
current area (the tie branch does not update the remembered best
enlargement, exactly as the source).  `none` only on an entry-less node
(`bestChild` stays null and the source inserts nowhere). -/
def chooseSubtree (ebox : BBox) (es : List (BBox × RNode)) : Option (Fin es.length) :=
  ((List.finRange es.length).foldl
    (fun acc i =>
      let ce := es.get i
      let enl := bboxEnlargement ce.1 ebox
      match acc with
      | none => some (i, enl)
      | some (bi, be) =>
        if enl < be then some (i, enl)
        else if |enl - be| < EPS then
          (if bboxArea ce.1 < bboxArea (es.get bi).1 then some (i, be) else acc)
        else acc)
    none).map Prod.fst

/-- `RTree._insert(entry, node)` (geometry.ts 1460-1486) together with
`split` (1487-1516) at non-root nodes.  Returns the updated node and, when
the node overflowed and split, the new sibling node; the caller appends
the sibling entry `(computeBBox sibling, sibling)` to the parent — in the
source the split pushes that entry into the parent before the parent
updates `bestChild.bbox` and runs its own overflow check, which yields the
same final entry list.  The root-split case (fresh root with the two
groups as children) is handled by `insertT`.  `fuel` is a
structural-recursion device: the recursion descends one tree level per
step, so any fuel at least the height (e.g. `nodeWeight`) reproduces the
source. -/
def insertNode (M minE : ℕ) (e : BBox × SItem) : ℕ → RNode → RNode × Option RNode
  | _, .leaf es =>
    let es2 := es ++ [e]
    if es2.length > M then
      let g := quadraticSplit minE es2
      (.leaf g.1, some (.leaf g.2))
    else (.leaf es2, none)
  | 0, .inner es => (.inner es, none)
  | fuel + 1, .inner es =>
    match chooseSubtree e.1 es with
    | none => (.inner es, none)
    | some i =>
      let ce := es.get i
      let r := insertNode M minE e fuel ce.2
      let es2 := es.set i (unionBBox ce.1 e.1, r.1)
      let es3 := match r.2 with
        | none => es2
        | some sib => es2 ++ [(computeBBox sib, sib)]
      if es3.length > M then
        let g := quadraticSplit minE es3
        (.inner g.1, some (.inner g.2))
      else (.inner es3, none)

/-- `minEntries = Math.max(2, Math.ceil(maxEntries * 0.4))`
(geometry.ts 1451): over ℕ, `ceil(2m/5) = (2m+4)/5`. -/
def minEntriesOf (m : ℕ) : ℕ := max 2 ((2 * m + 4) / 5)

/-- The R-tree state: configuration plus root. -/
structure RTreeSt where
  maxEntries : ℕ
  root : RNode

/-- The `RTree` constructor (geometry.ts 1449-1453): an empty leaf root. -/
def emptyTree (m : ℕ) : RTreeSt := ⟨m, .leaf []⟩

/-- `RTree.clear()` (geometry.ts 1723-1725). -/
def clearT (t : RTreeSt) : RTreeSt := { t with root := .leaf [] }

/-- `RTree.insert(item)` (geometry.ts 1454-1459) plus the root-split case
of `split` (1490-1504): on overflow of the root, a new internal root whose
two child entries carry the groups' computed boxes. -/
def insertT (t : RTreeSt) (x : SItem) : RTreeSt :=
  let e := (itemInsertBBox x, x)
  match insertNode t.maxEntries (minEntriesOf t.maxEntries) e (nodeWeight t.root) t.root with
  | (n, none) => { t with root := n }
  | (n1, some n2) =>
    { t with root := .inner [(computeBBox n1, n1), (computeBBox n2, n2)] }

/-- Splice of the first entry holding `x` (by identity) out of a leaf's
entry list: `findIndex(e => e.item === item)` + `splice(idx, 1)`
(geometry.ts 1579-1581). -/
def eraseFirstItem (es : List (BBox × SItem)) (x : SItem) : List (BBox × SItem) :=
  match es with
  | [] => []
  | e :: rest => if e.2.id = x.id then rest else e :: eraseFirstItem rest x

/-- `RTree.remove(item)` (geometry.ts 1574-1591).

The source sets `leafNode = path[path.length - 1].node`; `findItem` pushes
the leaf first and each ancestor afterwards, so the LAST path element is
the node the search started from — the root.  Hence:
* root is a leaf holding the item: `entryIndex ≥ 0`, the entry is spliced
  out.  `condenseTree(root)` then runs on a parentless node: its single
  loop iteration takes the else-branch (no parent entry to refresh) and
  sets `n = null`, changing nothing; the root-collapse check
  `root.entries.length === 1 && !root.leaf` is false for a leaf root.
* root is internal: its entries have `item === undefined`, `findIndex`
  returns `-1` and the method returns `false` with no mutation, even
  though `findItem` located the item in a deeper leaf. -/
def removeT (t : RTreeSt) (x : SItem) : RTreeSt × Bool :=
  if !findItemB x t.root then (t, false)
  else
    match t.root with
    | .inner _ => (t, false)
    | .leaf es =>
      if es.any (fun e => e.2.id == x.id) then
        ({ t with root := .leaf (eraseFirstItem es x) }, true)
      else (t, false)

/-- `RTree.search(bbox)` (geometry.ts 1658-1662). -/
def searchT (t : RTreeSt) (q : BBox) : List SItem := searchNode q t.root

/-- Ceiling division over ℕ. -/
def ceilDiv (n m : ℕ) : ℕ := (n + m - 1) / m

/-- `Math.ceil(Math.sqrt(x))` for the slice count: the least `s` with
`s * s ≥ m`.  For the source's `ceil(sqrt(n / M))` note that
`ceil(sqrt(q)) = ceil(sqrt(ceil(q)))` for rational `q ≥ 0` (integer
squares are never strictly between `q` and `ceil(q)`), so the embedding
computes `ceilSqrt (ceilDiv n M)`. -/
def ceilSqrt (m : ℕ) : ℕ :=
  (((List.range (m + 1)).filter (fun s => m ≤ s * s)).head?).getD m

/-- Stable insertion of `x` into a sorted list: `x` goes before the first
element `y` with `¬ le y x`. -/
def insertSorted {α : Type} (le : α → α → Bool) (x : α) : List α → List α
  | [] => [x]
  | y :: ys => if le y x then y :: insertSorted le x ys else x :: y :: ys

/-- Stable sort by a boolean comparator.  JavaScript's `Array.sort` with a
numeric-difference comparator is a stable sort by the induced `≤`, and the
output of a stable sort is uniquely determined by the comparator, so this
is observationally the source's sort. -/
def stableSortBy {α : Type} (le : α → α → Bool) : List α → List α
  | [] => []
  | x :: xs => insertSorted le x (stableSortBy le xs)

/-- `slice.slice(i*M, (i+1)*M)` packing: split a list into chunks of `M`
(the last may be short); `numGroups = ceil(len / M)` chunks. -/
def chunksOf {α : Type} (M : ℕ) : ℕ → List α → List (List α)
  | _, [] => []
  | 0, l => [l]
  | fuel + 1, l => l.take M :: chunksOf M fuel (l.drop M)

/-- The contiguous slices `entries.slice(i*size, (i+1)*size)` for
`i = 0 … S-1` (geometry.ts 1742-1746). -/
def slicesOf {α : Type} (S size : ℕ) (l : List α) : List (List α) :=
  (List.range S).map (fun i => ((l.drop (i * size)).take size))

/-- One leaf-level packing pass of `bulkLoad` (geometry.ts 1740-1758):
sort by box min-x, slice, sort each slice by box min-y, chunk into leaf
nodes of up to `M` entries. -/
def bulkLeafNodes (M : ℕ) (entries : List (BBox × SItem)) : List RNode :=
  let S := ceilSqrt (ceilDiv entries.length M)
  let sorted := stableSortBy (fun a b => a.1.minX ≤ b.1.minX) entries
  let sliceSize := ceilDiv sorted.length S
  (slicesOf S sliceSize sorted).flatMap
    (fun sl =>
      let sl2 := stableSortBy (fun a b => a.1.minY ≤ b.1.minY) sl
      (chunksOf M sl2.length sl2).map (fun c => RNode.leaf c))

/-- One upper-level packing pass of `bulkLoad` (geometry.ts 1761-1781):
sort the nodes by cached-box min-x, slice, sort each slice by min-y, chunk
into internal parents whose entries carry the children's computed boxes. -/
def bulkLevelUp (M : ℕ) (ns : List RNode) : List RNode :=
  let S := ceilSqrt (ceilDiv ns.length M)
  let sorted := stableSortBy (fun a b => (computeBBox a).minX ≤ (computeBBox b).minX) ns
  let sliceSize := ceilDiv sorted.length S
  (slicesOf S sliceSize sorted).flatMap
    (fun sl =>
      let sl2 := stableSortBy (fun a b => (computeBBox a).minY ≤ (computeBBox b).minY) sl
      (chunksOf M sl2.length sl2).map
        (fun grp => RNode.inner (grp.map (fun c => (computeBBox c, c)))))

/-- The `while (levelNodes.length > 1)` loop of `bulkLoad`.  `fuel` is a
structural-recursion device; with `maxEntries ≥ 2` each pass strictly
shrinks the level (proved where used), so `fuel = ns.length` reproduces
the source loop. -/
def buildLevels (M : ℕ) : ℕ → List RNode → RNode
  | _, [] => .leaf []
  | _, [n] => n
  | 0, n :: _ => n
  | fuel + 1, ns => buildLevels M fuel (bulkLevelUp M ns)

/-- `RTree.bulkLoad(items)` (geometry.ts 1729-1785). -/
def bulkLoadT (t : RTreeSt) (items : List SItem) : RTreeSt :=
  match items with
  | [] => clearT t
  | _ =>
    let entries := items.map (fun x => (itemInsertBBox x, x))
    let leaves := bulkLeafNodes t.maxEntries entries
    { t with root := buildLevels t.maxEntries leaves.length leaves }

/-!  ### The priority queue (geometry.ts 1326-1383)

The heap array is a list of `(priority, item)` pairs — the source stores
`{ priority, item }` records. -/

/-- The priority at index `i` (0 when out of range; reads in the source
are always in range). -/
def heapGetP {α : Type} (l : List (ℚ × α)) (i : ℕ) : ℚ :=
  ((l.get? i).map Prod.fst).getD 0

/-- `PriorityQueue.bubbleUp(n)` (geometry.ts 1345-1355): swap with the
parent `(n+1)/2 - 1` while the element's priority is below the parent's.
The source keeps `element` fixed across iterations; after each swap the
element sits at the parent index, so re-reading it there is identical.
`fuel` is a structural-recursion device: the index strictly decreases, so
`fuel = n` (the starting index) reproduces the source loop. -/
def bubbleUp {α : Type} : ℕ → List (ℚ × α) → ℕ → List (ℚ × α)
  | _, l, 0 => l
  | 0, l, _ + 1 => l
  | fuel + 1, l, n + 1 =>
    let pn := (n + 2) / 2 - 1
    match l.get? (n + 1), l.get? pn with
    | some e, some parent =>
      if e.1 ≥ parent.1 then l
      else bubbleUp fuel ((l.set pn e).set (n + 1) parent) pn
    | _, _ => l

/-- `PriorityQueue.push(item, priority)` (geometry.ts 1328-1331). -/
def hpush {α : Type} (l : List (ℚ × α)) (item : α) (p : ℚ) : List (ℚ × α) :=
  bubbleUp l.length (l ++ [(p, item)]) l.length

/-- `PriorityQueue.sinkDown(n)` (geometry.ts 1356-1382).  `fuel` is a
structural-recursion device: the index strictly increases below the fixed
length each iteration, so `fuel = l.length` reproduces the source loop. -/
def sinkDown {α : Type} : ℕ → List (ℚ × α) → ℕ → List (ℚ × α)
  | 0, l, _ => l
  | fuel + 1, l, n =>
    match l.get? n with
    | none => l
    | some element =>
      let c2 := (n + 1) * 2
      let c1 := c2 - 1
      let sw1 : Option ℕ :=
        if c1 < l.length then (if heapGetP l c1 < element.1 then some c1 else none)
        else none
      let sw2 : Option ℕ :=
        if c2 < l.length then
          (match sw1 with
           | none => if heapGetP l c2 < element.1 then some c2 else none
           | some _ => if heapGetP l c2 < heapGetP l c1 then some c2 else sw1)
        else sw1
      match sw2 with
      | none => l
      | some s =>
        sinkDown fuel ((l.set n ((l.get? s).getD element)).set s element) s

/-- `PriorityQueue.pop()` (geometry.ts 1332-1341): return the root pair;
remove the last element, move it to the root and sink it down (unless the
heap became empty).  The source returns only `.item`; the pair is returned
here so the popped priority can be reasoned about. -/
def hpop {α : Type} : List (ℚ × α) → Option ((ℚ × α) × List (ℚ × α))
  | [] => none
  | top :: rest =>
    let l := top :: rest
    let endE := l.getLast (by simp)
    let l2 := l.dropLast
    match l2 with
    | [] => some (top, [])
    | _ :: _ => some (top, sinkDown l2.length (l2.set 0 endE) 0)

/-- `pointToBBoxDistance(p, bbox)` (geometry.ts 1791-1799), MINDIST with
`Math.sqrt` abstracted. -/
def pointToBBoxDistance (msqrt : ℚ → ℚ) (p : Pt) (b : BBox) : ℚ :=
  let dx := if p.x < b.minX then b.minX - p.x else if p.x > b.maxX then p.x - b.maxX else 0
  let dy := if p.y < b.minY then b.minY - p.y else if p.y > b.maxY then p.y - b.maxY else 0
  msqrt (dx * dx + dy * dy)

/-- Squared MINDIST (specification-side, no square root): the comparison
scale used to state distance ordering exactly. -/
def distToBoxSq (p : Pt) (b : BBox) : ℚ :=
  let dx := if p.x < b.minX then b.minX - p.x else if p.x > b.maxX then p.x - b.maxX else 0
  let dy := if p.y < b.minY then b.minY - p.y else if p.y > b.maxY then p.y - b.maxY else 0
  dx * dx + dy * dy

/-- The tagged queue entries of `nearest` (geometry.ts 1679-1681). -/
inductive PQE where
  | node (n : RNode) (priority : ℚ)
  | item (x : SItem) (bbox : BBox) (priority : ℚ)

/-- Weight of a queue entry. -/
def pqeWeight : PQE → ℕ
  | .node n _ => nodeWeight n
  | .item _ _ _ => 1

/-- Total weight of a heap of queue entries. -/
def heapWeight (pq : List (ℚ × PQE)) : ℕ := (pq.map (fun e => pqeWeight e.2)).sum

/-- The push loop over a popped node's entries (geometry.ts 1696-1716):
leaf entries are pushed as items, child entries as nodes, each keyed by
its own MINDIST, in entry order. -/
def pushEntries (msqrt : ℚ → ℚ) (p : Pt) (pq : List (ℚ × PQE)) (n : RNode) :
    List (ℚ × PQE) :=
  match n with
  | .leaf es =>
    es.foldl (fun acc e =>
      let d := pointToBBoxDistance msqrt p e.1
      hpush acc (.item e.2 e.1 d) d) pq
  | .inner es =>
    es.foldl (fun acc e =>
      let d := pointToBBoxDistance msqrt p e.1
      hpush acc (.node e.2 d) d) pq

/-- The `while (pq.size() && result.length < k)` loop of `nearest`
(geometry.ts 1694-1720).  `fuel` is a structural-recursion device: every
iteration pops, and a pop strictly decreases `heapWeight` (children weigh
less than their node), so `fuel = heapWeight pq` reproduces the source
loop. -/
def nearestLoop (msqrt : ℚ → ℚ) (p : Pt) (k : ℕ) :
    ℕ → List (ℚ × PQE) → List SItem → List SItem
  | 0, _, result => result
  | fuel + 1, pq, result =>
    if result.length ≥ k then result
    else
      match hpop pq with
      | none => result
      | some ((_, .node n _), pq2) => nearestLoop msqrt p k fuel (pushEntries msqrt p pq2 n) result
      | some ((_, .item x _ _), pq2) => nearestLoop msqrt p k fuel pq2 (result ++ [x])

/-- `RTree.nearest(point, k)` (geometry.ts 1677-1722). -/
def nearestT (msqrt : ℚ → ℚ) (t : RTreeSt) (p : Pt) (k : ℕ) : List SItem :=
  let rootP := pointToBBoxDistance msqrt p (computeBBox t.root)
  let pq0 := hpush ([] : List (ℚ × PQE)) (.node t.root rootP) rootP
  nearestLoop msqrt p k (heapWeight pq0) pq0 []

/-!  ### Specification-side tree invariants (not from the source)

`nodeOK` is the structural well-formedness that every tree reachable
through the public operations satisfies: every leaf entry stores exactly
the item's insertion box and that box is well-formed; every internal entry
covers all the entry boxes of its child, children are nonempty, and entry
boxes are well-formed.  The root may be an empty leaf. -/

/-- Is the node's entry list nonempty? -/
def nodeNonempty : RNode → Bool
  | .leaf es => !es.isEmpty
  | .inner es => !es.isEmpty

mutual
/-- Structural invariant of a node (see section comment). -/
def nodeOK : RNode → Bool
  | .leaf es => es.all (fun e => e.1 == itemInsertBBox e.2 && wfBBox e.1)
  | .inner es => !es.isEmpty && entriesOK es

/-- Structural invariant of a child-entry list. -/
def entriesOK : List (BBox × RNode) → Bool
  | [] => true
  | (b, c) :: rest =>
    wfBBox b && (nodeEntryBoxes c).all (fun bb => bboxSub bb b) &&
    nodeNonempty c && nodeOK c && entriesOK rest
end

/-- Tree invariant: sane fan-out configuration and a well-formed root. -/
def treeOK (t : RTreeSt) : Bool := 2 ≤ t.maxEntries && nodeOK t.root

mutual
/-- All leaf entries of a node, in traversal order. -/
def leafEntries : RNode → List (BBox × SItem)
  | .leaf es => es
  | .inner es => leafEntriesL es

/-- Leaf entries below a child-entry list. -/
def leafEntriesL : List (BBox × RNode) → List (BBox × SItem)
  | [] => []
  | (_, c) :: rest => leafEntries c ++ leafEntriesL rest
end

/-- The items stored in a node, in traversal order. -/
def itemsOf (n : RNode) : List SItem := (leafEntries n).map Prod.snd

/-- The number of items stored in a node. -/
def countItems (n : RNode) : ℕ := (itemsOf n).length

/-!  ## Concrete instruments for witnesses and counterexamples

Concrete stand-ins for the abstracted float routines, used only to
instantiate claims at specific inputs. -/

/-- Newton iteration for the integer square root, with fuel (structural,
so the kernel can evaluate it). -/
def natSqrtFuel : ℕ → ℕ → ℕ → ℕ
  | 0, _, x => x
  | fuel + 1, n, x =>
    let y := (x + n / x) / 2
    if y < x then natSqrtFuel fuel n y else x

/-- Integer square root (rounded down). -/
def natSqrtS (n : ℕ) : ℕ := if n ≤ 1 then n else natSqrtFuel n n (n / 2 + 1)

/-- A concrete rational stand-in for `Math.sqrt`:
`⌊sqrt(num·den)⌋ / den`, which is nonnegative everywhere and exact on
rationals that are squares of rationals. -/
def ratSqrtApprox (q : ℚ) : ℚ :=
  if q ≤ 0 then 0 else (natSqrtS (q.num.toNat * q.den) : ℚ) / (q.den : ℚ)

/-- A concrete stand-in for the engine's `distanceFunc`: the Chebyshev
distance, which satisfies all distance hypotheses the claims use. -/
def chebDist (p q : Pt) : ℚ := max |p.x - q.x| |p.y - q.y|

/-- Concrete item with a point geometry at `(v, v)`. -/
def ptItem (idv : ℕ) (v : ℚ) : SItem := ⟨idv, some ⟨v, v, v, v⟩, ⟨v, v, v, v⟩⟩

/-- A tree with `maxEntries = 2` after inserting three distinct items —
the third insert overflows the root leaf and splits it, so the root is
internal. -/
def splitTree3 : RTreeSt :=
  insertT (insertT (insertT (emptyTree 2) (ptItem 1 1)) (ptItem 2 2)) (ptItem 3 3)

/-- Specification-side: the `Math.sqrt` distance from `origin` to `pt`
that `rayPolygonIntersection` ranks hits by. -/
def rayDistD (msqrt : ℚ → ℚ) (origin pt : Pt) : ℚ :=
  msqrt ((pt.x - origin.x) * (pt.x - origin.x) + (pt.y - origin.y) * (pt.y - origin.y))

/-- Specification-side: the best-so-far characterization of the
closest-hit fold of `rayPolygonIntersection` after the edges of `S` have
been processed. -/
def rayFoldInv (msqrt : ℚ → ℚ) (origin direction : Pt) (S : List Seg)
    (acc : Option (Pt × ℚ)) : Prop :=
  (acc = none ∧ ∀ e ∈ S, raySegmentIntersection ⟨origin, direction⟩ e = none) ∨
  (∃ pt, acc = some (pt, rayDistD msqrt origin pt) ∧
     (∃ e ∈ S, raySegmentIntersection ⟨origin, direction⟩ e = some pt) ∧
     ∀ e' ∈ S, ∀ pt', raySegmentIntersection ⟨origin, direction⟩ e' = some pt' →
       rayDistD msqrt origin pt ≤ rayDistD msqrt origin pt')

/-- The unit square scaled by 10, used to exhibit the raycast polygon
fallback. -/
def cexPoly : Poly := ⟨[⟨0, 0⟩, ⟨10, 0⟩, ⟨10, 10⟩, ⟨0, 10⟩], []⟩

/-- Width parameter of the boundary-sag rectangle: chosen so that
`sqrt(aC² + (1/10000)²) = aC + 4·10⁻¹¹` exactly over ℚ. -/
def aC : ℚ := 200 - 1 / 80000000000

/-- The probe point just above the rectangle's top edge. -/
def ceP : Pt := ⟨0, 1 / 10000⟩

/-- A wide, flat rectangle whose top edge sags (in the ε-tolerant
`pointOnSegment` sense) below `ceP`. -/
def cePoly : Poly := ⟨[⟨-aC, -1⟩, ⟨aC, -1⟩, ⟨aC, 0⟩, ⟨-aC, 0⟩], []⟩

/-- The degenerate segment sitting at `ceP`. -/
def ceSeg : Seg := ⟨ceP, ceP⟩

/-- A square annulus: outer ring `±100`, hole `±1`. -/
def donut : Poly :=
  ⟨[⟨-100, -100⟩, ⟨100, -100⟩, ⟨100, 100⟩, ⟨-100, 100⟩],
   [[⟨-1, -1⟩, ⟨1, -1⟩, ⟨1, 1⟩, ⟨-1, 1⟩]]⟩

/-- A crude rational cosine table at the 16 sample angles `2πi/16`. -/
def cosT : List ℚ :=
  [1, 92/100, 71/100, 38/100, 0, -38/100, -71/100, -92/100,
   -1, -92/100, -71/100, -38/100, 0, 38/100, 71/100, 92/100]

/-- A concrete rational stand-in for `Math.PI`. -/
def mpiV : ℚ := 3141592653589793 / 1000000000000000

/-- Concrete stand-in for `Math.cos`, defined at the 16 sample angles. -/
def mcosT (q : ℚ) : ℚ :=
  ((List.range 16).findSome?
    (fun (i : ℕ) => if q = 2 * mpiV * (i : ℚ) / 16 then some (cosT.getD i 0) else none)).getD 0

/-- Concrete stand-in for `Math.sin`, defined at the 16 sample angles
(`sin θ = cos (θ − 3π/2)`, realized as a table rotation). -/
def msinT (q : ℚ) : ℚ :=
  ((List.range 16).findSome?
    (fun (i : ℕ) =>
      if q = 2 * mpiV * (i : ℚ) / 16 then some (cosT.getD ((i + 12) % 16) 0) else none)).getD 0

/-- Specification-side: the parent index in the binary-heap layout,
`Math.floor((n + 1) / 2) - 1` (geometry.ts 1347). -/
def parentIdx (i : ℕ) : ℕ := (i + 1) / 2 - 1

/-- Specification-side: the min-heap ordering of the priority array. -/
def heapProp {α : Type} (l : List (ℚ × α)) : Prop :=
  ∀ i, 1 ≤ i → i < l.length → heapGetP l (parentIdx i) ≤ heapGetP l i

/-- Specification-side: a heap except possibly on the edge into `j`; the
value at `j` still sits below `j`'s children (the `bubbleUp` loop
invariant). -/
def almostHeapUp {α : Type} (l : List (ℚ × α)) (j : ℕ) : Prop :=
  (∀ i, 1 ≤ i → i < l.length → i ≠ j → heapGetP l (parentIdx i) ≤ heapGetP l i) ∧
  (1 ≤ j → ∀ c, c < l.length → parentIdx c = j →
    heapGetP l (parentIdx j) ≤ heapGetP l c)

/-- Specification-side: a heap except possibly on the edges out of `n`;
the value above `n` still bounds `n`'s children (the `sinkDown` loop
invariant). -/
def almostHeapDown {α : Type} (l : List (ℚ × α)) (n : ℕ) : Prop :=
  (∀ i, 1 ≤ i → i < l.length → parentIdx i ≠ n →
    heapGetP l (parentIdx i) ≤ heapGetP l i) ∧
  (1 ≤ n → ∀ c, c < l.length → parentIdx c = n →
    heapGetP l (parentIdx n) ≤ heapGetP l c)

/-- Specification-side: the number of stored items a queue entry accounts
for. -/
def pqeItems : PQE → ℕ
  | .node n _ => countItems n
  | .item _ _ _ => 1

/-- Specification-side: the number of stored items accounted in the
queue. -/
def qItems (pq : List (ℚ × PQE)) : ℕ := (pq.map (fun e => pqeItems e.2)).sum

/-- Specification-side: validity of a `nearest` queue entry at query
point `p`: the stored priority is the entry's own MINDIST key, and for a
node entry that key bounds the MINDIST of every entry box of the node. -/
def pqeOK (msqrt : ℚ → ℚ) (p : Pt) : ℚ × PQE → Prop
  | (pr, .node n d) => pr = d ∧ nodeOK n = true ∧
      ∀ bb ∈ nodeEntryBoxes n, d ≤ pointToBBoxDistance msqrt p bb
  | (pr, .item x bbox d) => pr = d ∧ d = pointToBBoxDistance msqrt p bbox ∧
      bbox = itemInsertBBox x

/-- A bulk-loaded tree over nine diagonal point items with
`maxEntries = 4`: two levels, used to instantiate the search and nearest
claims. -/
def bl9 : RTreeSt :=
  bulkLoadT (emptyTree 4)
    ((List.range 9).map (fun i => ⟨i, some ⟨(i : ℚ), i, i, i⟩, ⟨(i : ℚ), i, i, i⟩⟩))

/-!  # Lemmas and claim theorems -/

theorem nodeWeight_pos : ∀ n : RNode, 0 < nodeWeight n
  | .leaf _ => by simp [nodeWeight]
  | .inner _ => by simp [nodeWeight]

theorem nodeWeightL_of_mem {es : List (BBox × RNode)} {b : BBox} {c : RNode}
    (h : (b, c) ∈ es) : nodeWeight c ≤ nodeWeightL es := by
  induction es with
  | nil => cases h
  | cons e rest ih =>
    obtain ⟨eb, ec⟩ := e
    rw [nodeWeightL]
    rcases List.mem_cons.mp h with h1 | h1
    · cases h1
      omega
    · have := ih h1
      omega

/-- Induction principle for the nested tree type. -/
theorem RNode.indOn {P : RNode → Prop}
    (hleaf : ∀ es, P (.leaf es))
    (hinner : ∀ es, (∀ b c, (b, c) ∈ es → P c) → P (.inner es)) :
    ∀ n, P n := by
  intro n
  generalize hw : nodeWeight n = w
  induction w using Nat.strong_induction_on generalizing n with
  | _ w ih =>
    cases n with
    | leaf es => exact hleaf es
    | inner es =>
      apply hinner
      intro b c hm
      apply ih (nodeWeight c) ?_ c rfl
      subst hw
      have h1 := nodeWeightL_of_mem hm
      rw [nodeWeight]
      omega

theorem itemsOf_leaf (es : List (BBox × SItem)) :
    itemsOf (.leaf es) = es.map Prod.snd := rfl

theorem itemsOf_inner_nil : itemsOf (.inner []) = [] := rfl

theorem itemsOf_inner_cons (b : BBox) (c : RNode) (rest : List (BBox × RNode)) :
    itemsOf (.inner ((b, c) :: rest)) = itemsOf c ++ itemsOf (.inner rest) := by
  simp [itemsOf, leafEntries, leafEntriesL]

/-- An item whose id occurs nowhere in the tree is never found by
`findItem`. -/
theorem findItemB_of_absent (x : SItem) :
    ∀ n : RNode, (∀ y ∈ itemsOf n, y.id ≠ x.id) → findItemB x n = false := by
  apply RNode.indOn
  · intro es h
    rw [findItemB]
    rw [List.any_eq_false]
    intro e he
    have := h e.2 (by rw [itemsOf_leaf]; exact List.mem_map_of_mem Prod.snd he)
    simp [this]
  · intro es ih h
    rw [findItemB]
    induction es with
    | nil => rfl
    | cons e rest ihl =>
      obtain ⟨b, c⟩ := e
      rw [findItemEntries]
      have hc : findItemB x c = false := by
        apply ih b c (List.mem_cons_self _ _)
        intro y hy
        apply h
        rw [itemsOf_inner_cons]
        exact List.mem_append_left _ hy
      have hrest : findItemEntries x rest = false := by
        apply ihl
        · intro b2 c2 hm
          exact ih b2 c2 (List.mem_cons_of_mem _ hm)
        · intro y hy
          apply h
          rw [itemsOf_inner_cons]
          exact List.mem_append_right _ hy
      simp [hc, hrest]

/-- C7.  Constructing a circle with `radius ≤ 0`, or a polygon whose
exterior ring or any hole has fewer than 3 vertices, fails with an error
from the constructor; any successfully constructed value satisfies the
invariants, so no invalid value is observable. -/
theorem claim_constructor_validation (center : Pt) (r : ℚ)
    (exterior : List Pt) (holes : List (List Pt)) :
    (r ≤ 0 → mkCircle2D center r = .error "Circle radius must be positive") ∧
    (∀ c, mkCircle2D center r = .ok c → 0 < c.radius ∧ c = ⟨center, r⟩) ∧
    (exterior.length < 3 →
      mkPolygon2D exterior holes = .error "A polygon must have at least 3 vertices") ∧
    ((∃ h0 ∈ holes, h0.length < 3) →
      mkPolygon2D exterior holes = .error "A polygon must have at least 3 vertices" ∨
      mkPolygon2D exterior holes = .error "A polygon hole must have at least 3 vertices") ∧
    (∀ p, mkPolygon2D exterior holes = .ok p →
      3 ≤ p.exterior.length ∧ (∀ h0 ∈ p.holes, 3 ≤ h0.length) ∧ p = ⟨exterior, holes⟩) := by
  refine ⟨?_, ?_, ?_, ?_, ?_⟩
  · intro h
    simp [mkCircle2D, h]
  · intro c hc
    rw [mkCircle2D] at hc
    by_cases h : r ≤ 0
    · simp [h] at hc
    · simp [h] at hc
      refine ⟨?_, hc.symm⟩
      rw [← hc]
      exact not_le.mp h
  · intro h
    simp [mkPolygon2D, h]
  · intro h
    rw [mkPolygon2D]
    by_cases h1 : exterior.length < 3
    · left
      simp [h1]
    · right
      have h2 : holes.any (fun h0 => h0.length < 3) = true := by
        rw [List.any_eq_true]
        obtain ⟨h0, hm, hl⟩ := h
        exact ⟨h0, hm, by simpa using hl⟩
      simp [h1, h2]
  · intro p hp
    rw [mkPolygon2D] at hp
    by_cases h1 : exterior.length < 3
    · simp [h1] at hp
    · by_cases h2 : holes.any (fun h0 => h0.length < 3) = true
      · simp [h1, h2] at hp
      · simp [h1, h2] at hp
        rw [← hp]
        refine ⟨by simp; omega, ?_, rfl⟩
        intro h0 hm
        simp only at hm
        simp at h2
        have := h2 h0 hm
        omega

/-- Closed instance of C7 obtained from `claim_constructor_validation`. -/
theorem claim_constructor_validation_witness :
    mkCircle2D ⟨0, 0⟩ 0 = .error "Circle radius must be positive" ∧
    mkPolygon2D [⟨0, 0⟩, ⟨1, 0⟩] [] = .error "A polygon must have at least 3 vertices" ∧
    (mkPolygon2D [⟨0, 0⟩, ⟨1, 0⟩, ⟨1, 1⟩] [[⟨0, 0⟩]] =
       .error "A polygon must have at least 3 vertices" ∨
     mkPolygon2D [⟨0, 0⟩, ⟨1, 0⟩, ⟨1, 1⟩] [[⟨0, 0⟩]] =
       .error "A polygon hole must have at least 3 vertices") :=
  ⟨(claim_constructor_validation ⟨0, 0⟩ 0 [] []).1 (by norm_num),
   ((claim_constructor_validation ⟨0, 0⟩ 0 [⟨0, 0⟩, ⟨1, 0⟩] []).2.2).1 (by decide),
   ((claim_constructor_validation ⟨0, 0⟩ 0 [⟨0, 0⟩, ⟨1, 0⟩, ⟨1, 1⟩] [[⟨0, 0⟩]]).2.2).2.1
     ⟨[⟨0, 0⟩], by decide, by decide⟩⟩

/-- C4 counterexample.  In the chain `[clean, dirty, clean]` (index 0 the
invalidated node, index 2 its grandparent), index 1 is already dirty, yet
the write trace of `invalidateBBox` is `[0, 1, 2]`: the walk does not stop
at the already-dirty ancestor, and the node above it (index 2) is written,
contradicting the claim. -/
theorem claim_invalidate_counterexample :
    ([some ⟨0, 0, 0, 0⟩, none, some ⟨1, 1, 1, 1⟩] : List (Option BBox)).get? 1 =
      some none ∧
    (invalidateBBox [some ⟨0, 0, 0, 0⟩, none, some ⟨1, 1, 1, 1⟩]).2 = [0, 1, 2] ∧
    2 ∈ (invalidateBBox [some ⟨0, 0, 0, 0⟩, none, some ⟨1, 1, 1, 1⟩]).2 := by
  refine ⟨rfl, rfl, by decide⟩

/-- C4 amended.  `invalidateBBox` marks the node and every ancestor dirty
and writes every level of the chain unconditionally — the upward walk does
not short-circuit at an already-dirty ancestor (the resulting cache state
is nonetheless the same, since the write is `null` either way). -/
theorem claim_invalidate_marks_all (chain : List (Option BBox)) :
    invalidateBBox chain = (chain.map (fun _ => none), List.range chain.length) := by
  induction chain with
  | nil => rfl
  | cons a rest ih =>
    rw [invalidateBBox, ih]
    simp [List.range_succ_eq_map, Nat.succ_eq_add_one]

theorem raySegment_zero_direction (origin : Pt) (s : Seg) :
    raySegmentIntersection ⟨origin, ⟨0, 0⟩⟩ s = none := by
  rw [raySegmentIntersection]
  norm_num [EPS]

theorem rayCircle_zero_direction (msqrt : ℚ → ℚ) (origin : Pt) (c : Circ) :
    rayCircleIntersection msqrt ⟨origin, ⟨0, 0⟩⟩ c = none := by
  rw [rayCircleIntersection]
  norm_num

theorem rayPolygon_zero_direction (msqrt : ℚ → ℚ) (origin : Pt) (poly : Poly) :
    rayPolygonIntersection msqrt ⟨origin, ⟨0, 0⟩⟩ poly = none := by
  rw [rayPolygonIntersection]
  have h : ∀ edges : List Seg,
      edges.foldl
        (fun closest e =>
          match raySegmentIntersection ⟨origin, ⟨0, 0⟩⟩ e with
          | none => closest
          | some inter =>
            let t := msqrt ((inter.x - origin.x) * (inter.x - origin.x) +
                            (inter.y - origin.y) * (inter.y - origin.y))
            match closest with
            | none => some (inter, t)
            | some (_, ct) => if t < ct then some (inter, t) else closest)
        none = none := by
    intro edges
    induction edges with
    | nil => rfl
    | cons e rest ih =>
      rw [List.foldl_cons, raySegment_zero_direction]
      exact ih
  rw [h]
  rfl

/-- C9.  A zero direction vector yields no intersections: `raycast`
returns null for segments, circles and polygons, and the two module-level
helpers return null for a zero-direction ray. -/
theorem claim_raycast_zero_direction (dist : Pt → Pt → ℚ) (msqrt : ℚ → ℚ)
    (origin : Pt) (s : Seg) (c : Circ) (poly : Poly) :
    raySegmentIntersection ⟨origin, ⟨0, 0⟩⟩ s = none ∧
    rayCircleIntersection msqrt ⟨origin, ⟨0, 0⟩⟩ c = none ∧
    raycastE dist msqrt origin ⟨0, 0⟩ (.seg s) = none ∧
    raycastE dist msqrt origin ⟨0, 0⟩ (.circle c) = none ∧
    raycastE dist msqrt origin ⟨0, 0⟩ (.poly poly) = none := by
  refine ⟨raySegment_zero_direction origin s, rayCircle_zero_direction msqrt origin c, ?_, ?_, ?_⟩
  · rw [raycastE, raySegment_zero_direction]
    rfl
  · rw [raycastE, rayCircle_zero_direction]
    rfl
  · rw [raycastE, rayPolygon_zero_direction]
    norm_num [EPS]

/-- C1 (the code defect).  With `maxEntries = 2`, three inserted items
split the root, and `remove` then fails: `findItem` locates the item, but
`remove` reads the leaf from the wrong end of the path (the root), finds
no item entry there, and returns `false` without mutating; a covering
search still returns all three items.  (On a single-leaf tree remove works,
which is why the repository's tests, which remove among ≤ 9 items, pass.) -/
theorem claim_remove_fails_on_split_tree :
    treeOK splitTree3 = true ∧
    (∀ x ∈ itemsOf splitTree3.root, bboxSub (itemInsertBBox x) ⟨0, 0, 4, 4⟩ = true) ∧
    findItemB (ptItem 1 1) splitTree3.root = true ∧
    removeT splitTree3 (ptItem 1 1) = (splitTree3, false) ∧
    (searchT splitTree3 ⟨0, 0, 4, 4⟩).map SItem.id = [1, 2, 3] ∧
    (searchT (removeT splitTree3 (ptItem 1 1)).1 ⟨0, 0, 4, 4⟩).map SItem.id = [1, 2, 3] := by
  refine ⟨by decide, by decide, by decide, rfl, by decide, by decide⟩

/-- C8.  `remove` of an item not present in the tree returns `false` and
leaves the tree untouched (and raises nothing — the embedded operation is
total); on an empty tree, `search` returns `[]` for every box and
`nearest` returns `[]` for every point and `k`. -/
theorem claim_absent_and_empty_safe (t : RTreeSt) (x : SItem) (m k : ℕ)
    (q : BBox) (p : Pt) (msqrt : ℚ → ℚ)
    (habsent : ∀ y ∈ itemsOf t.root, y.id ≠ x.id) :
    removeT t x = (t, false) ∧
    searchT (emptyTree m) q = [] ∧
    nearestT msqrt (emptyTree m) p k = [] := by
  refine ⟨?_, rfl, ?_⟩
  · rw [removeT, findItemB_of_absent x t.root habsent]
    rfl
  · rw [nearestT]
    cases k with
    | zero => rfl
    | succ k0 =>
      simp only [hpush, heapWeight, bubbleUp, nearestLoop, hpop, pushEntries,
        pqeWeight, nodeWeight, emptyTree, computeBBox, nodeEntryBoxes]
      rfl

/-- Closed instance of C8 obtained from `claim_absent_and_empty_safe`. -/
theorem claim_absent_and_empty_safe_witness :
    removeT splitTree3 (ptItem 7 5) = (splitTree3, false) ∧
    searchT (emptyTree 9) ⟨0, 0, 10, 10⟩ = [] ∧
    nearestT ratSqrtApprox (emptyTree 9) ⟨0, 0⟩ 5 = [] := by
  have h := claim_absent_and_empty_safe splitTree3 (ptItem 7 5) 9 5 ⟨0, 0, 10, 10⟩
    ⟨0, 0⟩ ratSqrtApprox (by decide)
  exact ⟨h.1, h.2.1, h.2.2⟩

/-!  ### Permutation bookkeeping for the split and bulk-load machinery -/

theorem perm_cons_eraseIdx {α : Type} {l : List α} {i : ℕ} {c : α}
    (h : l.get? i = some c) : l.Perm (c :: l.eraseIdx i) := by
  obtain ⟨hi, hc⟩ := List.get?_eq_some.mp h
  rw [List.eraseIdx_eq_take_drop_succ]
  have hdec : l = l.take i ++ c :: l.drop (i + 1) := by
    conv_lhs => rw [← List.take_append_drop i l]
    congr 1
    rw [List.drop_eq_getElem_cons hi]
    simp [← hc, List.get_eq_getElem]
  conv_lhs => rw [hdec]
  exact List.perm_middle

theorem filter_enumFrom_false {α : Type} (f : ℕ × α → Bool) :
    ∀ (l : List α) (k : ℕ), (∀ p : ℕ × α, k ≤ p.1 → f p = false) →
      (List.enumFrom k l).filter f = [] := by
  intro l
  induction l with
  | nil => intro k _; rfl
  | cons x xs ih =>
    intro k h
    rw [List.enumFrom_cons, List.filter_cons]
    rw [h (k, x) le_rfl]
    exact ih (k + 1) (fun p hp => h p (by omega))

theorem filter_enumFrom_single {α : Type} (extra : ℕ) :
    ∀ (l : List α) (k j : ℕ), k ≤ j → extra < k →
      ∀ c, l.get? (j - k) = some c →
      ((List.enumFrom k l).filter (fun p => p.1 = extra || p.1 = j)).map Prod.snd
        = [c] := by
  intro l
  induction l with
  | nil => intro k j _ _ c hc; simp at hc
  | cons x xs ih =>
    intro k j hkj hx c hc
    rw [List.enumFrom_cons, List.filter_cons]
    by_cases hkjeq : k = j
    · subst hkjeq
      simp only [Nat.sub_self, List.get?_cons_zero, Option.some.injEq] at hc
      subst hc
      have h1 : (decide (k = extra) || decide (k = k)) = true := by simp
      rw [h1]
      simp only [eq_self_iff_true, if_true, List.map_cons]
      rw [filter_enumFrom_false (fun p => decide (p.1 = extra) || decide (p.1 = k)) xs (k + 1)
        (fun p hp => by
          simp only [Bool.or_eq_false_iff, decide_eq_false_iff_not]
          omega)]
      rfl
    · have hlt : k < j := lt_of_le_of_ne hkj hkjeq
      have h1 : (decide (k = extra) || decide (k = j)) = false := by
        simp only [Bool.or_eq_false_iff, decide_eq_false_iff_not]
        omega
      rw [h1]
      have hidx : j - k = (j - (k + 1)) + 1 := by omega
      rw [hidx, List.get?_cons_succ] at hc
      exact ih (k + 1) j (by omega) (by omega) c hc

theorem filter_enumFrom_pair {α : Type} :
    ∀ (l : List α) (k i j : ℕ), k ≤ i → i < j →
      ∀ c1 c2, l.get? (i - k) = some c1 → l.get? (j - k) = some c2 →
      ((List.enumFrom k l).filter (fun p => p.1 = i || p.1 = j)).map Prod.snd
        = [c1, c2] := by
  intro l
  induction l with
  | nil => intro k i j _ _ c1 c2 hc1 _; simp at hc1
  | cons x xs ih =>
    intro k i j hki hij c1 c2 hc1 hc2
    rw [List.enumFrom_cons, List.filter_cons]
    by_cases hkieq : k = i
    · subst hkieq
      simp only [Nat.sub_self, List.get?_cons_zero, Option.some.injEq] at hc1
      subst hc1
      have h1 : (decide (k = k) || decide (k = j)) = true := by simp
      rw [h1]
      have hidx : j - k = (j - (k + 1)) + 1 := by omega
      rw [hidx, List.get?_cons_succ] at hc2
      simp only [eq_self_iff_true, if_true, List.map_cons]
      rw [filter_enumFrom_single k xs (k + 1) j (by omega) (by omega) c2 hc2]
    · have hlt : k < i := lt_of_le_of_ne hki hkieq
      have h1 : (decide (k = i) || decide (k = j)) = false := by
        simp only [Bool.or_eq_false_iff, decide_eq_false_iff_not]
        omega
      rw [h1]
      have hidx1 : i - k = (i - (k + 1)) + 1 := by omega
      have hidx2 : j - k = (j - (k + 1)) + 1 := by omega
      rw [hidx1, List.get?_cons_succ] at hc1
      rw [hidx2, List.get?_cons_succ] at hc2
      exact ih (k + 1) i j (by omega) hij c1 c2 hc1 hc2

/-- Soundness of best-so-far folds: a fold whose step always produces a
`some` satisfying `P` from admissible inputs ends in a `some` satisfying
`P`, provided it starts in one or the list is nonempty. -/
theorem foldl_pick {β γ : Type} (step : Option β → γ → Option β)
    (P : β → Prop) (R : γ → Prop)
    (hnone : ∀ x, R x → ∃ b, step none x = some b ∧ P b)
    (hsome : ∀ b x, P b → R x → ∃ b2, step (some b) x = some b2 ∧ P b2) :
    ∀ (l : List γ) (acc : Option β), (∀ x ∈ l, R x) →
      ((∃ b, acc = some b ∧ P b) ∨ (acc = none ∧ l ≠ [])) →
      ∃ b, l.foldl step acc = some b ∧ P b := by
  intro l
  induction l with
  | nil =>
    intro acc _ hstart
    rcases hstart with h | ⟨_, h⟩
    · exact h
    · exact absurd rfl h
  | cons x xs ih =>
    intro acc hR hstart
    rw [List.foldl_cons]
    have hstep : ∃ b, step acc x = some b ∧ P b := by
      rcases hstart with ⟨b, hb, hPb⟩ | ⟨hb, _⟩
      · subst hb
        exact hsome b x hPb (hR x (List.mem_cons_self x xs))
      · subst hb
        exact hnone x (hR x (List.mem_cons_self x xs))
    obtain ⟨b, hb, hPb⟩ := hstep
    apply ih (step acc x) (fun y hy => hR y (List.mem_cons_of_mem x hy))
    exact Or.inl ⟨b, hb, hPb⟩

/-- The quadratic-split seed scan of a node with at least two entries
returns two in-range indices, the first strictly below the second. -/
theorem qsSeeds_lt {α : Type} (es : List (BBox × α)) (h2 : 2 ≤ es.length) :
    (qsSeeds es).1 < (qsSeeds es).2 ∧ (qsSeeds es).2 < es.length := by
  rw [qsSeeds]
  have hpick := foldl_pick
    (fun acc (p : ℕ × ℕ) =>
      let bi := ((es.get? p.1).map Prod.fst).getD ⟨0, 0, 0, 0⟩
      let bj := ((es.get? p.2).map Prod.fst).getD ⟨0, 0, 0, 0⟩
      let d := bboxArea (unionBBox bi bj) - bboxArea bi - bboxArea bj
      match acc with
      | none => some (d, p)
      | some (hw, _) => if d > hw then some (d, p) else acc)
    (fun b => b.2.1 < b.2.2 ∧ b.2.2 < es.length)
    (fun x => x.1 < x.2 ∧ x.2 < es.length)
    (fun x hx => ⟨(_, x), rfl, hx⟩)
    (fun b x hPb hx => by
      obtain ⟨w, q⟩ := b
      dsimp only
      by_cases hd : (bboxArea (unionBBox (((es.get? x.1).map Prod.fst).getD ⟨0, 0, 0, 0⟩)
            (((es.get? x.2).map Prod.fst).getD ⟨0, 0, 0, 0⟩)) -
          bboxArea (((es.get? x.1).map Prod.fst).getD ⟨0, 0, 0, 0⟩) -
          bboxArea (((es.get? x.2).map Prod.fst).getD ⟨0, 0, 0, 0⟩)) > w
      · exact ⟨_, by rw [if_pos hd], hx⟩
      · exact ⟨(w, q), by rw [if_neg hd], hPb⟩)
    ((List.range es.length).flatMap
      (fun i => ((List.range es.length).filter (fun j => i < j)).map (fun j => (i, j))))
    none
    (by
      intro p hp
      rw [List.mem_flatMap] at hp
      obtain ⟨i, _, hp2⟩ := hp
      rw [List.mem_map] at hp2
      obtain ⟨j, hj, hpj⟩ := hp2
      rw [List.mem_filter, List.mem_range] at hj
      subst hpj
      exact ⟨by simpa using hj.2, hj.1⟩)
    (Or.inr ⟨rfl, by
      apply @List.ne_nil_of_mem _ ((0 : ℕ), (1 : ℕ)) _
      rw [List.mem_flatMap]
      refine ⟨0, by rw [List.mem_range]; omega, ?_⟩
      rw [List.mem_map]
      exact ⟨1, by rw [List.mem_filter, List.mem_range]; exact ⟨by omega, by simp⟩, rfl⟩⟩)
  obtain ⟨b, hb, hPb⟩ := hpick
  rw [hb]
  simpa using hPb

/-- The distribution pick returns an in-range index on a nonempty
remainder. -/
theorem qsPick_lt {α : Type} (b1 b2 : BBox) (rem : List (BBox × α))
    (h : rem ≠ []) : (qsPick b1 b2 rem).1 < rem.length := by
  rw [qsPick]
  have hpick := foldl_pick
    (fun acc (i : ℕ) =>
      let eb := ((rem.get? i).map Prod.fst).getD ⟨0, 0, 0, 0⟩
      let e1 := bboxEnlargement b1 eb
      let e2 := bboxEnlargement b2 eb
      let d := |e1 - e2|
      match acc with
      | none => some (d, i, if e1 < e2 then (1 : ℕ) else 2)
      | some (diff, _, _) =>
        if d > diff then some (d, i, if e1 < e2 then (1 : ℕ) else 2) else acc)
    (fun b => b.2.1 < rem.length)
    (fun i => i < rem.length)
    (fun i hi => ⟨_, rfl, hi⟩)
    (fun b i hPb hi => by
      obtain ⟨w, q⟩ := b
      dsimp only
      by_cases hd : |bboxEnlargement b1 (((rem.get? i).map Prod.fst).getD ⟨0, 0, 0, 0⟩) -
          bboxEnlargement b2 (((rem.get? i).map Prod.fst).getD ⟨0, 0, 0, 0⟩)| > w
      · exact ⟨_, by rw [if_pos hd], hi⟩
      · exact ⟨(w, q), by rw [if_neg hd], hPb⟩)
    (List.range rem.length) none
    (fun i hi => List.mem_range.mp hi)
    (Or.inr ⟨rfl, by
      apply @List.ne_nil_of_mem _ (0 : ℕ) _
      rw [List.mem_range]
      cases rem with
      | nil => exact absurd rfl h
      | cons r rs => simp⟩)
  obtain ⟨b, hb, hPb⟩ := hpick
  rw [hb]
  simpa using hPb

theorem perm_shuffle1 {α : Type} (g1 g2 rem2 : List α) (c : α) :
    ((g1 ++ [c]) ++ (g2 ++ rem2)).Perm (g1 ++ (g2 ++ (c :: rem2))) := by
  rw [List.append_assoc]
  apply List.Perm.append_left
  have h1 := (@List.perm_middle _ c g2 rem2).symm
  simpa using h1

/-- Distribution preserves the entry multiset. -/
theorem qsDistribute_perm {α : Type} (minE : ℕ) :
    ∀ (fuel : ℕ) (g1 g2 rem : List (BBox × α)), rem.length ≤ fuel →
      ((qsDistribute minE fuel g1 g2 rem).1 ++
        (qsDistribute minE fuel g1 g2 rem).2).Perm (g1 ++ g2 ++ rem) := by
  intro fuel
  induction fuel with
  | zero =>
    intro g1 g2 rem h
    have hrem : rem = [] := List.length_eq_zero.mp (by omega)
    subst hrem
    simp [qsDistribute]
  | succ fuel ih =>
    intro g1 g2 rem h
    cases rem with
    | nil => simp [qsDistribute]
    | cons r rs =>
      simp only [qsDistribute]
      by_cases h1 : g1.length + (r :: rs).length = minE
      · rw [if_pos h1]
        dsimp only
        have e1 : (g1 ++ (r :: rs)) ++ g2 = g1 ++ ((r :: rs) ++ g2) := by
          rw [List.append_assoc]
        have e2 : (g1 ++ g2) ++ (r :: rs) = g1 ++ (g2 ++ (r :: rs)) := by
          rw [List.append_assoc]
        rw [e1, e2]
        exact List.Perm.append_left g1 List.perm_append_comm
      · rw [if_neg h1]
        by_cases h2 : g2.length + (r :: rs).length = minE
        · rw [if_pos h2]
          dsimp only
          have e2 : (g1 ++ g2) ++ (r :: rs) = g1 ++ (g2 ++ (r :: rs)) := by
            rw [List.append_assoc]
          rw [e2]
        · rw [if_neg h2]
          have hlt := qsPick_lt (calcEntriesBBox g1) (calcEntriesBBox g2) (r :: rs)
            (by simp)
          have hc := List.get?_eq_get hlt
          rw [hc]
          dsimp only
          have hperm := perm_cons_eraseIdx hc
          have hlen : ((r :: rs).eraseIdx (qsPick (calcEntriesBBox g1)
              (calcEntriesBBox g2) (r :: rs)).1).length ≤ fuel := by
            rw [List.length_eraseIdx]
            simp only [hlt, if_true]
            simp only [List.length_cons] at h
            simp only [List.length_cons]
            omega
          have e2 : (g1 ++ g2) ++ (r :: rs) = g1 ++ (g2 ++ (r :: rs)) := by
            rw [List.append_assoc]
          by_cases hg : (qsPick (calcEntriesBBox g1) (calcEntriesBBox g2) (r :: rs)).2 = 1
          · rw [if_pos hg]
            apply (ih _ _ _ hlen).trans
            rw [e2]
            have e3 : (g1 ++ [(r :: rs).get ⟨_, hlt⟩]) ++ g2 ++
                ((r :: rs).eraseIdx (qsPick (calcEntriesBBox g1) (calcEntriesBBox g2)
                  (r :: rs)).1) =
                (g1 ++ [(r :: rs).get ⟨_, hlt⟩]) ++ (g2 ++
                ((r :: rs).eraseIdx (qsPick (calcEntriesBBox g1) (calcEntriesBBox g2)
                  (r :: rs)).1)) := by
              rw [List.append_assoc]
            rw [e3]
            apply (perm_shuffle1 g1 g2 _ _).trans
            exact List.Perm.append_left g1 (List.Perm.append_left g2 hperm.symm)
          · rw [if_neg hg]
            apply (ih _ _ _ hlen).trans
            rw [e2]
            have e3 : g1 ++ (g2 ++ [(r :: rs).get ⟨_, hlt⟩]) ++
                ((r :: rs).eraseIdx (qsPick (calcEntriesBBox g1) (calcEntriesBBox g2)
                  (r :: rs)).1) =
                g1 ++ (g2 ++ ((r :: rs).get ⟨_, hlt⟩ ::
                ((r :: rs).eraseIdx (qsPick (calcEntriesBBox g1) (calcEntriesBBox g2)
                  (r :: rs)).1))) := by
              rw [List.append_assoc, List.append_assoc]
              rfl
            rw [e3]
            exact List.Perm.append_left g1 (List.Perm.append_left g2 hperm.symm)

/-- The quadratic split of a node with at least two entries is a
permutation of its entries: group 1 followed by group 2 re-orders the
input, losing and duplicating nothing. -/
theorem quadraticSplit_perm {α : Type} (minE : ℕ) (es : List (BBox × α))
    (h2 : 2 ≤ es.length) :
    ((quadraticSplit minE es).1 ++ (quadraticSplit minE es).2).Perm es := by
  obtain ⟨hij, hj⟩ := qsSeeds_lt es h2
  have hi : (qsSeeds es).1 < es.length := by omega
  have hc1 := List.get?_eq_get hi
  have hc2 := List.get?_eq_get hj
  rw [quadraticSplit, hc1, hc2]
  dsimp only
  set i := (qsSeeds es).1
  set j := (qsSeeds es).2
  set e1 := es.get ⟨i, hi⟩
  set e2 := es.get ⟨j, hj⟩
  set remaining := (es.enum.filter (fun p => p.1 ≠ i && p.1 ≠ j)).map Prod.snd with hrem
  have hsplit := qsDistribute_perm minE remaining.length [e1] [e2] remaining le_rfl
  apply hsplit.trans
  have hkept : ((es.enum.filter (fun p => !(decide (p.1 ≠ i) && decide (p.1 ≠ j)))).map
      Prod.snd) = [e1, e2] := by
    have hcongr : es.enum.filter (fun p => !(decide (p.1 ≠ i) && decide (p.1 ≠ j))) =
        es.enum.filter (fun p => decide (p.1 = i) || decide (p.1 = j)) := by
      apply List.filter_congr
      intro p _
      by_cases hpi : p.1 = i <;> by_cases hpj : p.1 = j <;> simp [hpi, hpj]
    rw [hcongr]
    have := filter_enumFrom_pair es 0 i j (by omega) hij e1 e2
      (by simpa using hc1) (by simpa using hc2)
    simpa [List.enum] using this
  have hpart := List.filter_append_perm
    (fun p : ℕ × (BBox × α) => decide (p.1 ≠ i) && decide (p.1 ≠ j)) es.enum
  have hpart2 := hpart.map Prod.snd
  rw [List.map_append] at hpart2
  rw [hkept] at hpart2
  have henum : es.enum.map Prod.snd = es := by
    simpa [List.enum] using List.enumFrom_map_snd 0 es
  rw [henum] at hpart2
  have e4 : ([e1] ++ [e2] ++ remaining) = [e1, e2] ++ remaining := rfl
  rw [e4]
  exact List.perm_append_comm.trans hpart2

/-!  ### The raycast polygon fold (C3) -/

theorem rayFold_sound (msqrt : ℚ → ℚ) (origin direction : Pt) :
    ∀ (edges S : List Seg) (acc : Option (Pt × ℚ)),
      rayFoldInv msqrt origin direction S acc →
      rayFoldInv msqrt origin direction (S ++ edges)
        (edges.foldl
          (fun closest e =>
            match raySegmentIntersection ⟨origin, direction⟩ e with
            | none => closest
            | some inter =>
              let t := msqrt ((inter.x - origin.x) * (inter.x - origin.x) +
                              (inter.y - origin.y) * (inter.y - origin.y))
              match closest with
              | none => some (inter, t)
              | some (_, ct) => if t < ct then some (inter, t) else closest)
          acc) := by
  intro edges
  induction edges with
  | nil =>
    intro S acc h
    simpa using h
  | cons e rest ih =>
    intro S acc h
    rw [List.foldl_cons]
    have hstep : rayFoldInv msqrt origin direction (S ++ [e])
        ((fun closest e =>
            match raySegmentIntersection ⟨origin, direction⟩ e with
            | none => closest
            | some inter =>
              let t := msqrt ((inter.x - origin.x) * (inter.x - origin.x) +
                              (inter.y - origin.y) * (inter.y - origin.y))
              match closest with
              | none => some (inter, t)
              | some (_, ct) => if t < ct then some (inter, t) else closest) acc e) := by
      dsimp only
      cases hre : raySegmentIntersection ⟨origin, direction⟩ e with
      | none =>
        rcases h with ⟨ha, hall⟩ | ⟨pt, ha, hmem, hmin⟩
        · left
          refine ⟨ha, ?_⟩
          intro e' he'
          rcases List.mem_append.mp he' with h1 | h1
          · exact hall e' h1
          · rw [List.mem_singleton.mp h1]
            exact hre
        · right
          refine ⟨pt, ha, ?_, ?_⟩
          · obtain ⟨e0, he0, hh⟩ := hmem
            exact ⟨e0, List.mem_append_left _ he0, hh⟩
          · intro e' he' pt' hpt'
            rcases List.mem_append.mp he' with h1 | h1
            · exact hmin e' h1 pt' hpt'
            · rw [List.mem_singleton.mp h1] at hpt'
              rw [hre] at hpt'
              cases hpt'
      | some inter =>
        rcases h with ⟨ha, hall⟩ | ⟨pt, ha, hmem, hmin⟩
        · subst ha
          right
          refine ⟨inter, rfl, ⟨e, List.mem_append_right _ (List.mem_singleton_self e), hre⟩, ?_⟩
          intro e' he' pt' hpt'
          rcases List.mem_append.mp he' with h1 | h1
          · rw [hall e' h1] at hpt'
            cases hpt'
          · rw [List.mem_singleton.mp h1] at hpt'
            rw [hre] at hpt'
            rw [show pt' = inter from (Option.some.injEq _ _ ▸ hpt').symm]
        · subst ha
          dsimp only
          by_cases ht : msqrt ((inter.x - origin.x) * (inter.x - origin.x) +
              (inter.y - origin.y) * (inter.y - origin.y)) < rayDistD msqrt origin pt
          · rw [if_pos ht]
            right
            refine ⟨inter, rfl,
              ⟨e, List.mem_append_right _ (List.mem_singleton_self e), hre⟩, ?_⟩
            intro e' he' pt' hpt'
            rcases List.mem_append.mp he' with h1 | h1
            · exact le_of_lt (lt_of_lt_of_le ht (hmin e' h1 pt' hpt'))
            · rw [List.mem_singleton.mp h1] at hpt'
              rw [hre] at hpt'
              rw [show pt' = inter from (Option.some.injEq _ _ ▸ hpt').symm]
          · rw [if_neg ht]
            right
            refine ⟨pt, rfl, ?_, ?_⟩
            · obtain ⟨e0, he0, hh⟩ := hmem
              exact ⟨e0, List.mem_append_left _ he0, hh⟩
            · intro e' he' pt' hpt'
              rcases List.mem_append.mp he' with h1 | h1
              · exact hmin e' h1 pt' hpt'
              · rw [List.mem_singleton.mp h1] at hpt'
                rw [hre] at hpt'
                rw [show pt' = inter from (Option.some.injEq _ _ ▸ hpt').symm]
                exact not_lt.mp ht
    have hrec := ih (S ++ [e]) _ hstep
    rw [List.append_assoc, List.singleton_append] at hrec
    exact hrec

theorem rayPolygon_inv (msqrt : ℚ → ℚ) (origin direction : Pt) (poly : Poly) :
    rayFoldInv msqrt origin direction (ringEdges poly.exterior)
      ((rayPolygonIntersection msqrt ⟨origin, direction⟩ poly).elim none
        (fun pt => some (pt, rayDistD msqrt origin pt))) := by
  have h := rayFold_sound msqrt origin direction (ringEdges poly.exterior) [] none
    (Or.inl ⟨rfl, by intro e he; cases he⟩)
  rw [List.nil_append] at h
  rw [rayPolygonIntersection]
  rcases h with ⟨ha, hall⟩ | ⟨pt, ha, hmem, hmin⟩
  · rw [ha]
    exact Or.inl ⟨rfl, hall⟩
  · rw [ha]
    exact Or.inr ⟨pt, rfl, hmem, hmin⟩

/-- C3 (amended).  `rayPolygonIntersection` does test every exterior edge
and, when it reports a hit, returns an exterior-edge intersection point of
minimal `Math.sqrt`-distance from the ray origin — and it reports a hit
iff some exterior edge is hit.  However, `raycast` returns null on a
polygon miss only when `direction.x ≤ EPSILON` or the origin lies right of
the polygon's bounding box; when `direction.x > EPSILON` and
`origin.x ≤ bbox.minX`, the miss fallback fabricates a point on the
vertical line through the bounding box's left edge, which need not lie on
any edge of the polygon (so the original "returns null on a miss" is
false; `claim_raycast_polygon_counterexample` is a concrete instance). -/
theorem claim_raycast_polygon (dist : Pt → Pt → ℚ) (msqrt : ℚ → ℚ)
    (origin direction : Pt) (poly : Poly) :
    (rayPolygonIntersection msqrt ⟨origin, direction⟩ poly = none ↔
      ∀ e ∈ ringEdges poly.exterior, raySegmentIntersection ⟨origin, direction⟩ e = none) ∧
    (∀ pt, rayPolygonIntersection msqrt ⟨origin, direction⟩ poly = some pt →
      (∃ e ∈ ringEdges poly.exterior, raySegmentIntersection ⟨origin, direction⟩ e = some pt) ∧
      ∀ e' ∈ ringEdges poly.exterior, ∀ pt',
        raySegmentIntersection ⟨origin, direction⟩ e' = some pt' →
        rayDistD msqrt origin pt ≤ rayDistD msqrt origin pt') ∧
    (∀ pt, rayPolygonIntersection msqrt ⟨origin, direction⟩ poly = some pt →
      raycastE dist msqrt origin direction (.poly poly) = some (pt, dist origin pt)) ∧
    (rayPolygonIntersection msqrt ⟨origin, direction⟩ poly = none → EPS < direction.x →
      origin.x ≤ (computePolygonBBox poly).minX →
      ∃ q : Pt × ℚ, raycastE dist msqrt origin direction (.poly poly) = some q ∧
        q.1.x = (computePolygonBBox poly).minX ∧
        q.1.y = origin.y +
          ((computePolygonBBox poly).minX - origin.x) / direction.x * direction.y ∧
        q.2 = dist origin q.1) ∧
    (rayPolygonIntersection msqrt ⟨origin, direction⟩ poly = none → ¬ EPS < direction.x →
      raycastE dist msqrt origin direction (.poly poly) = none) ∧
    (rayPolygonIntersection msqrt ⟨origin, direction⟩ poly = none →
      (computePolygonBBox poly).minX < origin.x →
      raycastE dist msqrt origin direction (.poly poly) = none) := by
  have hinv := rayPolygon_inv msqrt origin direction poly
  refine ⟨?_, ?_, ?_, ?_, ?_, ?_⟩
  · constructor
    · intro h0
      rw [h0] at hinv
      rcases hinv with ⟨_, hall⟩ | ⟨pt, ha, _, _⟩
      · exact hall
      · cases ha
    · intro hall
      cases hres : rayPolygonIntersection msqrt ⟨origin, direction⟩ poly with
      | none => rfl
      | some pt =>
        rw [hres] at hinv
        rcases hinv with ⟨ha, _⟩ | ⟨pt2, _, ⟨e0, he0, hh⟩, _⟩
        · cases ha
        · rw [hall e0 he0] at hh
          cases hh
  · intro pt hres
    rw [hres] at hinv
    rcases hinv with ⟨ha, _⟩ | ⟨pt2, ha, hmem, hmin⟩
    · cases ha
    · have : pt2 = pt := by
        have := (Option.some.injEq _ _ ▸ ha)
        exact congrArg Prod.fst this.symm
      subst this
      exact ⟨hmem, hmin⟩
  · intro pt hres
    rw [raycastE, hres]
    rfl
  · intro hres hdx hox
    rw [raycastE, hres]
    dsimp only
    have hdx0 : 0 < direction.x := lt_trans (by norm_num [EPS]) hdx
    rw [if_pos hdx]
    have ht0 : ((getBBoxG (.poly poly)).minX - origin.x) / direction.x ≥ 0 :=
      div_nonneg (by
        rw [show getBBoxG (.poly poly) = computePolygonBBox poly from rfl]
        linarith) (le_of_lt hdx0)
    rw [if_pos ht0]
    refine ⟨_, rfl, ?_, ?_, rfl⟩
    · show origin.x + ((getBBoxG (.poly poly)).minX - origin.x) / direction.x * direction.x
          = (computePolygonBBox poly).minX
      rw [show getBBoxG (.poly poly) = computePolygonBBox poly from rfl]
      rw [div_mul_cancel₀ _ (ne_of_gt hdx0)]
      ring
    · show origin.y + ((getBBoxG (.poly poly)).minX - origin.x) / direction.x * direction.y
          = origin.y + ((computePolygonBBox poly).minX - origin.x) / direction.x * direction.y
      rw [show getBBoxG (.poly poly) = computePolygonBBox poly from rfl]
  · intro hres hdx
    rw [raycastE, hres]
    dsimp only
    rw [if_neg hdx]
    rfl
  · intro hres hlt
    rw [raycastE, hres]
    dsimp only
    by_cases hdx : EPS < direction.x
    · rw [if_pos hdx]
      have hdx0 : 0 < direction.x := lt_trans (by norm_num [EPS]) hdx
      have ht0 : ¬ ((getBBoxG (.poly poly)).minX - origin.x) / direction.x ≥ 0 := by
        rw [show getBBoxG (.poly poly) = computePolygonBBox poly from rfl]
        rw [not_le]
        apply div_neg_of_neg_of_pos (by linarith) hdx0
      rw [if_neg ht0]
      rfl
    · rw [if_neg hdx]
      rfl

/-- C3 counterexample.  From origin `(-5, 20)` looking along `(1, 0)`, no
exterior edge of the square `(0,0)–(10,10)` is hit (the ray passes above
it), yet `raycast` returns the fabricated point `(0, 20)` on the vertical
line through the box's left edge — not null, and on no edge. -/
theorem claim_raycast_polygon_counterexample :
    (∀ e ∈ ringEdges cexPoly.exterior,
      raySegmentIntersection ⟨⟨-5, 20⟩, ⟨1, 0⟩⟩ e = none) ∧
    raycastE chebDist ratSqrtApprox ⟨-5, 20⟩ ⟨1, 0⟩ (.poly cexPoly) =
      some (⟨0, 20⟩, 5) := by
  constructor
  · decide
  · decide

/-- Closed instance of C3 obtained from `claim_raycast_polygon`: a genuine
hit is returned with its engine distance. -/
theorem claim_raycast_polygon_witness :
    raycastE chebDist ratSqrtApprox ⟨-5, 5⟩ ⟨1, 0⟩ (.poly cexPoly) =
      some (⟨0, 5⟩, chebDist ⟨-5, 5⟩ ⟨0, 5⟩) :=
  (claim_raycast_polygon chebDist ratSqrtApprox ⟨-5, 5⟩ ⟨1, 0⟩ cexPoly).2.2.1
    ⟨0, 5⟩ (by decide)

/-!  ### Contains versus intersects (C6) -/

theorem cheb_sym (a b : Pt) : chebDist a b = chebDist b a := by
  rw [chebDist, chebDist, abs_sub_comm, abs_sub_comm a.y]

theorem cheb_coord (a b : Pt) : |a.x - b.x| ≤ chebDist a b ∧ |a.y - b.y| ≤ chebDist a b :=
  ⟨le_max_left _ _, le_max_right _ _⟩

theorem cheb_quasi (cp a b : Pt) (t : ℚ) (h0 : 0 ≤ t) (h1 : t ≤ 1) :
    chebDist cp ⟨a.x + t * (b.x - a.x), a.y + t * (b.y - a.y)⟩ ≤
      max (chebDist cp a) (chebDist cp b) := by
  have keyc : ∀ u v w : ℚ, |u - (v + t * (w - v))| ≤ max |u - v| |u - w| := by
    intro u v w
    have e : u - (v + t * (w - v)) = (1 - t) * (u - v) + t * (u - w) := by ring
    rw [e]
    apply (abs_add _ _).trans
    rw [abs_mul, abs_mul, abs_of_nonneg (by linarith : (0:ℚ) ≤ 1 - t), abs_of_nonneg h0]
    have hu : |u - v| ≤ max |u - v| |u - w| := le_max_left _ _
    have hv : |u - w| ≤ max |u - v| |u - w| := le_max_right _ _
    nlinarith [mul_nonneg (by linarith : (0:ℚ) ≤ 1 - t) (sub_nonneg.mpr hu),
      mul_nonneg h0 (sub_nonneg.mpr hv)]
  rw [chebDist]
  apply max_le
  · exact (keyc cp.x a.x b.x).trans
      (max_le_max (le_max_left _ _) (le_max_left _ _))
  · exact (keyc cp.y a.y b.y).trans
      (max_le_max (le_max_right _ _) (le_max_right _ _))

/-- Bounds of the fold computing a polygon's bounding box: the result
contains the start box and every folded vertex. -/
theorem polyFold_bounds :
    ∀ (vs : List Pt) (acc : BBox),
      (vs.foldl (fun acc w =>
        (⟨min acc.minX w.x, min acc.minY w.y, max acc.maxX w.x, max acc.maxY w.y⟩ : BBox))
        acc).minX ≤ acc.minX ∧
      acc.maxX ≤ (vs.foldl (fun acc w =>
        (⟨min acc.minX w.x, min acc.minY w.y, max acc.maxX w.x, max acc.maxY w.y⟩ : BBox))
        acc).maxX ∧
      (vs.foldl (fun acc w =>
        (⟨min acc.minX w.x, min acc.minY w.y, max acc.maxX w.x, max acc.maxY w.y⟩ : BBox))
        acc).minY ≤ acc.minY ∧
      acc.maxY ≤ (vs.foldl (fun acc w =>
        (⟨min acc.minX w.x, min acc.minY w.y, max acc.maxX w.x, max acc.maxY w.y⟩ : BBox))
        acc).maxY ∧
      ∀ w ∈ vs,
        (vs.foldl (fun acc w =>
          (⟨min acc.minX w.x, min acc.minY w.y, max acc.maxX w.x, max acc.maxY w.y⟩ : BBox))
          acc).minX ≤ w.x ∧
        w.x ≤ (vs.foldl (fun acc w =>
          (⟨min acc.minX w.x, min acc.minY w.y, max acc.maxX w.x, max acc.maxY w.y⟩ : BBox))
          acc).maxX ∧
        (vs.foldl (fun acc w =>
          (⟨min acc.minX w.x, min acc.minY w.y, max acc.maxX w.x, max acc.maxY w.y⟩ : BBox))
          acc).minY ≤ w.y ∧
        w.y ≤ (vs.foldl (fun acc w =>
          (⟨min acc.minX w.x, min acc.minY w.y, max acc.maxX w.x, max acc.maxY w.y⟩ : BBox))
          acc).maxY := by
  intro vs
  induction vs with
  | nil =>
    intro acc
    refine ⟨le_refl _, le_refl _, le_refl _, le_refl _, ?_⟩
    intro w hw
    cases hw
  | cons v rest ih =>
    intro acc
    rw [List.foldl_cons]
    obtain ⟨h1, h2, h3, h4, h5⟩ :=
      ih ⟨min acc.minX v.x, min acc.minY v.y, max acc.maxX v.x, max acc.maxY v.y⟩
    refine ⟨le_trans h1 (min_le_left _ _), le_trans (le_max_left _ _) h2,
      le_trans h3 (min_le_left _ _), le_trans (le_max_left _ _) h4, ?_⟩
    intro w hw
    rcases List.mem_cons.mp hw with hw1 | hw1
    · subst hw1
      exact ⟨le_trans h1 (min_le_right _ _), le_trans (le_max_right _ _) h2,
        le_trans h3 (min_le_right _ _), le_trans (le_max_right _ _) h4⟩
    · exact h5 w hw1

/-- The computed polygon bounding box contains every exterior vertex. -/
theorem computePolygonBBox_bounds (poly : Poly) :
    ∀ v ∈ poly.exterior,
      (computePolygonBBox poly).minX ≤ v.x ∧ v.x ≤ (computePolygonBBox poly).maxX ∧
      (computePolygonBBox poly).minY ≤ v.y ∧ v.y ≤ (computePolygonBBox poly).maxY := by
  intro v hv
  rw [computePolygonBBox]
  cases hext : poly.exterior with
  | nil =>
    rw [hext] at hv
    cases hv
  | cons v0 vs =>
    rw [hext] at hv
    obtain ⟨h1, h2, h3, h4, h5⟩ := polyFold_bounds vs ⟨v0.x, v0.y, v0.x, v0.y⟩
    rcases List.mem_cons.mp hv with hv1 | hv1
    · subst hv1
      exact ⟨h1, h2, h3, h4⟩
    · exact h5 v hv1

/-- `pointInPolygon p poly = true` forces `p` into the EPSILON window
around the polygon's bounding box (the function's own pre-check). -/
theorem pointInPolygon_window {p : Pt} {poly : Poly}
    (h : pointInPolygon p poly = true) :
    (computePolygonBBox poly).minX - EPS ≤ p.x ∧
    p.x ≤ (computePolygonBBox poly).maxX + EPS ∧
    (computePolygonBBox poly).minY - EPS ≤ p.y ∧
    p.y ≤ (computePolygonBBox poly).maxY + EPS := by
  rw [pointInPolygon] at h
  by_cases h1 : p.x < (computePolygonBBox poly).minX - EPS
  · simp [h1] at h
  · by_cases h2 : p.x > (computePolygonBBox poly).maxX + EPS
    · simp [h1, h2] at h
    · by_cases h3 : p.y < (computePolygonBBox poly).minY - EPS
      · simp [h1, h2, h3] at h
      · by_cases h4 : p.y > (computePolygonBBox poly).maxY + EPS
        · simp [h1, h2, h3, h4] at h
        · exact ⟨by linarith [not_lt.mp h1], by linarith [not_lt.mp h2],
            by linarith [not_lt.mp h3], by linarith [not_lt.mp h4]⟩

/-- C6 (amended).  With a symmetric distance function that dominates the
coordinate differences and is quasi-convex along segments (all satisfied
by the Chebyshev distance, and by the intended Euclidean distance),
`contains(shape, x) ⇒ intersects(shape, x)` holds when the container is a
circle (all four contained types) and when a polygon contains a point or a
polygon; the converse fails on a circle boundary point.  The implication
is FALSE as stated for the two remaining pairs, so the original claim is
corrected by the two concrete failures kept in the last conjuncts: a
polygon `contains` a degenerate segment hovering just above its top edge
(the EPSILON tolerance of `pointOnSegment` admits a quadratic sag, while
`intersects` uses a linear EPSILON box window), and the `donut` polygon
`contains` a circle ringed inside its hole (the 16 samples land in the
annulus) while `intersects` reports false (the circle neither meets the
exterior edges nor covers the polygon's center test point).  The sampled
trigonometric stand-ins land every sample inside the annulus, exactly as
the true cosine would. -/
theorem claim_contains_implies_intersects
    (dist : Pt → Pt → ℚ) (msqrt mcos msin : ℚ → ℚ) (mpi : ℚ)
    (Hsym : ∀ a b, dist a b = dist b a)
    (Hcoord : ∀ a b, |a.x - b.x| ≤ dist a b ∧ |a.y - b.y| ≤ dist a b)
    (Hquasi : ∀ cp a b, ∀ t : ℚ, 0 ≤ t → t ≤ 1 →
      dist cp ⟨a.x + t * (b.x - a.x), a.y + t * (b.y - a.y)⟩ ≤
        max (dist cp a) (dist cp b)) :
    (∀ c p, containsE dist msqrt mcos msin mpi (.circle c) (.point p) = true →
      intersectsE dist msqrt (.circle c) (.point p) = true) ∧
    (∀ c s, containsE dist msqrt mcos msin mpi (.circle c) (.seg s) = true →
      intersectsE dist msqrt (.circle c) (.seg s) = true) ∧
    (∀ c c2, 0 < c2.radius →
      containsE dist msqrt mcos msin mpi (.circle c) (.circle c2) = true →
      intersectsE dist msqrt (.circle c) (.circle c2) = true) ∧
    (∀ c poly, 3 ≤ poly.exterior.length →
      containsE dist msqrt mcos msin mpi (.circle c) (.poly poly) = true →
      intersectsE dist msqrt (.circle c) (.poly poly) = true) ∧
    (∀ poly p, containsE dist msqrt mcos msin mpi (.poly poly) (.point p) = true →
      intersectsE dist msqrt (.poly poly) (.point p) = true) ∧
    (∀ poly poly2, 3 ≤ poly2.exterior.length →
      containsE dist msqrt mcos msin mpi (.poly poly) (.poly poly2) = true →
      intersectsE dist msqrt (.poly poly) (.poly poly2) = true) ∧
    (containsE chebDist ratSqrtApprox mcosT msinT mpiV (.poly cePoly) (.seg ceSeg) = true ∧
     intersectsE chebDist ratSqrtApprox (.poly cePoly) (.seg ceSeg) = false) ∧
    (containsE chebDist ratSqrtApprox mcosT msinT mpiV
        (.poly donut) (.circle ⟨⟨0, 0⟩, 10⟩) = true ∧
     intersectsE chebDist ratSqrtApprox (.poly donut) (.circle ⟨⟨0, 0⟩, 10⟩) = false) ∧
    (intersectsE chebDist ratSqrtApprox (.circle ⟨⟨0, 0⟩, 5⟩) (.point ⟨5, 0⟩) = true ∧
     containsE chebDist ratSqrtApprox mcosT msinT mpiV
        (.circle ⟨⟨0, 0⟩, 5⟩) (.point ⟨5, 0⟩) = false) := by
  have hEPS : (0 : ℚ) < EPS := by norm_num [EPS]
  have hnear : ∀ (cp : Pt) (s : Seg) (bound : ℚ),
      dist cp s.a ≤ bound → dist cp s.b ≤ bound →
      dist cp (nearestPointOnSegment cp s) ≤ bound := by
    intro cp s bound ha hb
    rw [nearestPointOnSegment]
    dsimp only
    by_cases hdeg : (s.b.x - s.a.x) * (s.b.x - s.a.x) +
        (s.b.y - s.a.y) * (s.b.y - s.a.y) < EPS
    · rw [if_pos hdeg]
      exact ha
    · rw [if_neg hdeg]
      have h0 : (0 : ℚ) ≤ max 0 (min 1 (((cp.x - s.a.x) * (s.b.x - s.a.x) +
          (cp.y - s.a.y) * (s.b.y - s.a.y)) /
          ((s.b.x - s.a.x) * (s.b.x - s.a.x) + (s.b.y - s.a.y) * (s.b.y - s.a.y)))) :=
        le_max_left _ _
      have h1 : max 0 (min 1 (((cp.x - s.a.x) * (s.b.x - s.a.x) +
          (cp.y - s.a.y) * (s.b.y - s.a.y)) /
          ((s.b.x - s.a.x) * (s.b.x - s.a.x) + (s.b.y - s.a.y) * (s.b.y - s.a.y)))) ≤ 1 :=
        max_le (by norm_num) (min_le_left _ _)
      exact le_trans (Hquasi cp s.a s.b _ h0 h1) (max_le ha hb)
  have hptc : ∀ (cp : Pt) (c : Circ), dist cp c.center ≤ c.radius + EPS →
      pointToCircleDistance dist cp c < EPS := by
    intro cp c hle
    rw [pointToCircleDistance]
    rw [if_pos hle]
    exact hEPS
  refine ⟨?_, ?_, ?_, ?_, ?_, ?_, ⟨by decide, by decide⟩, ⟨by decide, by decide⟩,
    ⟨by decide, by decide⟩⟩
  · -- circle contains point
    intro c p h
    have hd : dist c.center p ≤ c.radius - EPS := by
      have h2 : decide (dist c.center p ≤ c.radius - EPS) = true := h
      exact of_decide_eq_true h2
    obtain ⟨hx, hy⟩ := Hcoord c.center p
    rw [abs_le] at hx hy
    have hbb : bboxIntersects (circBBox c) ⟨p.x, p.y, p.x, p.y⟩ = true := by
      simp only [bboxIntersects, circBBox, Bool.and_eq_true, decide_eq_true_eq]
      refine ⟨⟨⟨by linarith, by linarith⟩, by linarith⟩, by linarith⟩
    show (if !bboxIntersects (circBBox c) ⟨p.x, p.y, p.x, p.y⟩ then false
      else decide (dist p c.center ≤ c.radius + EPS)) = true
    rw [hbb]
    simp only [Bool.not_true, Bool.false_eq_true, if_false, decide_eq_true_eq]
    rw [Hsym]
    linarith
  · -- circle contains segment
    intro c s h
    have h2 : (decide (dist c.center s.a ≤ c.radius - EPS) &&
        decide (dist c.center s.b ≤ c.radius - EPS)) = true := h
    rw [Bool.and_eq_true] at h2
    have ha : dist c.center s.a ≤ c.radius - EPS := of_decide_eq_true h2.1
    have hb : dist c.center s.b ≤ c.radius - EPS := of_decide_eq_true h2.2
    obtain ⟨hax, hay⟩ := Hcoord c.center s.a
    obtain ⟨hbx, hby⟩ := Hcoord c.center s.b
    rw [abs_le] at hax hay hbx hby
    have hbb : bboxIntersects (circBBox c) (segBBox s) = true := by
      simp only [bboxIntersects, circBBox, segBBox, Bool.and_eq_true, decide_eq_true_eq]
      refine ⟨⟨⟨?_, ?_⟩, ?_⟩, ?_⟩
      · have := le_max_left s.a.x s.b.x
        linarith
      · have := min_le_left s.a.x s.b.x
        linarith
      · have := le_max_left s.a.y s.b.y
        linarith
      · have := min_le_left s.a.y s.b.y
        linarith
    show (if !bboxIntersects (circBBox c) (segBBox s) then false
      else decide (pointToCircleDistance dist (nearestPointOnSegment c.center s) c < EPS))
        = true
    rw [hbb]
    simp only [Bool.not_true, Bool.false_eq_true, if_false, decide_eq_true_eq]
    refine hptc _ c ?_
    rw [Hsym]
    have := hnear c.center s (c.radius - EPS) ha hb
    linarith
  · -- circle contains circle
    intro c c2 hr2 h
    have hd : dist c.center c2.center + c2.radius ≤ c.radius - EPS := by
      have h2 : decide (dist c.center c2.center + c2.radius ≤ c.radius - EPS) = true := h
      exact of_decide_eq_true h2
    obtain ⟨hx, hy⟩ := Hcoord c.center c2.center
    rw [abs_le] at hx hy
    have hbb : bboxIntersects (circBBox c) (circBBox c2) = true := by
      simp only [bboxIntersects, circBBox, Bool.and_eq_true, decide_eq_true_eq]
      refine ⟨⟨⟨by linarith, by linarith⟩, by linarith⟩, by linarith⟩
    show (if !bboxIntersects (circBBox c) (circBBox c2) then false
      else decide (dist c.center c2.center ≤ c.radius + c2.radius + EPS)) = true
    rw [hbb]
    simp only [Bool.not_true, Bool.false_eq_true, if_false, decide_eq_true_eq]
    linarith
  · -- circle contains polygon
    intro c poly hlen h
    have hall : ∀ v ∈ poly.exterior, dist c.center v ≤ c.radius - EPS := by
      have h2 : poly.exterior.all
          (fun v => decide (dist c.center v ≤ c.radius - EPS)) = true := h
      rw [List.all_eq_true] at h2
      intro v hv
      exact of_decide_eq_true (h2 v hv)
    obtain ⟨v0, hv0⟩ : ∃ v0, v0 ∈ poly.exterior := by
      cases hext : poly.exterior with
      | nil => rw [hext] at hlen; simp at hlen
      | cons a rest => exact ⟨a, List.mem_cons_self _ _⟩
    obtain ⟨hb1, hb2, hb3, hb4⟩ := computePolygonBBox_bounds poly v0 hv0
    obtain ⟨hx, hy⟩ := Hcoord c.center v0
    rw [abs_le] at hx hy
    have hd0 := hall v0 hv0
    have hbb : bboxIntersects (circBBox c) (computePolygonBBox poly) = true := by
      simp only [bboxIntersects, circBBox, Bool.and_eq_true, decide_eq_true_eq]
      refine ⟨⟨⟨by linarith, by linarith⟩, by linarith⟩, by linarith⟩
    have hlt : 0 < poly.exterior.length := by omega
    have hmem0 : poly.exterior.getD 0 ⟨0, 0⟩ ∈ poly.exterior := by
      rw [List.getD_eq_getElem _ _ hlt]
      exact List.getElem_mem _
    have hmem1 : poly.exterior.getD (1 % poly.exterior.length) ⟨0, 0⟩ ∈ poly.exterior := by
      have hlt1 : 1 % poly.exterior.length < poly.exterior.length :=
        Nat.mod_lt _ hlt
      rw [List.getD_eq_getElem _ _ hlt1]
      exact List.getElem_mem _
    have hedge : (⟨poly.exterior.getD 0 ⟨0, 0⟩,
        poly.exterior.getD ((0 + 1) % poly.exterior.length) ⟨0, 0⟩⟩ : Seg) ∈
        ringEdges poly.exterior := by
      rw [ringEdges]
      apply List.mem_map_of_mem
      rw [List.mem_range]
      exact hlt
    have hpred : pointToCircleDistance dist
        (nearestPointOnSegment c.center ⟨poly.exterior.getD 0 ⟨0, 0⟩,
          poly.exterior.getD ((0 + 1) % poly.exterior.length) ⟨0, 0⟩⟩) c < EPS := by
      apply hptc
      rw [Hsym]
      have hna := hall _ hmem0
      have hnb : dist c.center (poly.exterior.getD ((0 + 1) % poly.exterior.length)
          ⟨0, 0⟩) ≤ c.radius - EPS := by
        have : (0 + 1) % poly.exterior.length = 1 % poly.exterior.length := by norm_num
        rw [this]
        exact hall _ hmem1
      have := hnear c.center ⟨poly.exterior.getD 0 ⟨0, 0⟩,
        poly.exterior.getD ((0 + 1) % poly.exterior.length) ⟨0, 0⟩⟩
        (c.radius - EPS) hna hnb
      linarith
    show (if !bboxIntersects (circBBox c) (computePolygonBBox poly) then false
      else (pointInPolygon c.center poly ||
        (ringEdges poly.exterior).any
          (fun e => decide (pointToCircleDistance dist
            (nearestPointOnSegment c.center e) c < EPS)))) = true
    rw [hbb]
    simp only [Bool.not_true, Bool.false_eq_true, if_false, Bool.or_eq_true]
    right
    rw [List.any_eq_true]
    exact ⟨_, hedge, decide_eq_true hpred⟩
  · -- polygon contains point
    intro poly p h
    have hin : pointInPolygon p poly = true := h
    obtain ⟨h1, h2, h3, h4⟩ := pointInPolygon_window hin
    have hbb : bboxIntersects (computePolygonBBox poly) ⟨p.x, p.y, p.x, p.y⟩ = true := by
      simp only [bboxIntersects, Bool.and_eq_true, decide_eq_true_eq]
      refine ⟨⟨⟨by linarith, by linarith⟩, by linarith⟩, by linarith⟩
    show (if !bboxIntersects (computePolygonBBox poly) ⟨p.x, p.y, p.x, p.y⟩ then false
      else pointInPolygon p poly) = true
    rw [hbb]
    simp only [Bool.not_true, Bool.false_eq_true, if_false]
    exact hin
  · -- polygon contains polygon
    intro poly poly2 hlen h
    have hall : ∀ v ∈ poly2.exterior, pointInPolygon v poly = true := by
      have h2 : poly2.exterior.all (fun v => pointInPolygon v poly) = true := h
      rw [List.all_eq_true] at h2
      exact h2
    obtain ⟨v0, hv0⟩ : ∃ v0, v0 ∈ poly2.exterior := by
      cases hext : poly2.exterior with
      | nil => rw [hext] at hlen; simp at hlen
      | cons a rest => exact ⟨a, List.mem_cons_self _ _⟩
    obtain ⟨h1, h2, h3, h4⟩ := pointInPolygon_window (hall v0 hv0)
    obtain ⟨hb1, hb2, hb3, hb4⟩ := computePolygonBBox_bounds poly2 v0 hv0
    have hbb : bboxIntersects (computePolygonBBox poly) (computePolygonBBox poly2)
        = true := by
      simp only [bboxIntersects, Bool.and_eq_true, decide_eq_true_eq]
      refine ⟨⟨⟨by linarith, by linarith⟩, by linarith⟩, by linarith⟩
    show (if !bboxIntersects (computePolygonBBox poly) (computePolygonBBox poly2)
        then false
      else (poly.exterior.any (fun v => pointInPolygon v poly2) ||
        poly2.exterior.any (fun v => pointInPolygon v poly) ||
        (ringEdges poly.exterior).any (fun e1 =>
          (ringEdges poly2.exterior).any (fun e2 => segmentsIntersect e1 e2)))) = true
    rw [hbb]
    simp only [Bool.not_true, Bool.false_eq_true, if_false, Bool.or_eq_true]
    left
    right
    rw [List.any_eq_true]
    exact ⟨v0, hv0, hall v0 hv0⟩

/-- C6 counterexample.  The rectangle `cePoly` `contains` the degenerate
segment `ceSeg` hovering `10⁻⁴` above its top edge (the EPSILON slack of
`pointOnSegment` tolerates a quadratic sag: with half-width
`aC ≈ 200`, `sqrt(aC² + 10⁻⁸) - aC = 4·10⁻¹¹ < EPSILON`, and every square
root involved is exactly rational, so `ratSqrtApprox` computes the true
square roots here), yet `intersects` is false: the bounding-box windows
only tolerate a linear `10⁻¹⁰` gap.  This refutes
`contains ⇒ intersects` as stated. -/
theorem claim_contains_implies_intersects_counterexample :
    containsE chebDist ratSqrtApprox mcosT msinT mpiV (.poly cePoly) (.seg ceSeg) = true ∧
    intersectsE chebDist ratSqrtApprox (.poly cePoly) (.seg ceSeg) = false := by
  constructor
  · decide
  · decide

/-- Closed instance of C6 obtained from `claim_contains_implies_intersects`
at the Chebyshev distance: a circle containing a point intersects it. -/
theorem claim_contains_implies_intersects_witness :
    containsE chebDist ratSqrtApprox mcosT msinT mpiV
      (.circle ⟨⟨0, 0⟩, 5⟩) (.point ⟨1, 1⟩) = true ∧
    intersectsE chebDist ratSqrtApprox (.circle ⟨⟨0, 0⟩, 5⟩) (.point ⟨1, 1⟩) = true :=
  ⟨by decide,
   (claim_contains_implies_intersects chebDist ratSqrtApprox mcosT msinT mpiV
      cheb_sym cheb_coord cheb_quasi).1 ⟨⟨0, 0⟩, 5⟩ ⟨1, 1⟩ (by decide)⟩

/-!  ### Structural lemmas about the R-tree invariants -/

theorem leafEntriesL_append (l1 l2 : List (BBox × RNode)) :
    leafEntriesL (l1 ++ l2) = leafEntriesL l1 ++ leafEntriesL l2 := by
  induction l1 with
  | nil => simp [leafEntriesL]
  | cons e rest ih =>
    obtain ⟨b, c⟩ := e
    rw [List.cons_append, leafEntriesL, leafEntriesL, ih, List.append_assoc]

theorem leafEntriesL_eq_flatten (l : List (BBox × RNode)) :
    leafEntriesL l = (l.map (fun e => leafEntries e.2)).flatten := by
  induction l with
  | nil => rfl
  | cons e rest ih =>
    obtain ⟨b, c⟩ := e
    rw [leafEntriesL, ih, List.map_cons, List.flatten_cons]

theorem leafEntriesL_perm {l1 l2 : List (BBox × RNode)} (h : l1.Perm l2) :
    (leafEntriesL l1).Perm (leafEntriesL l2) := by
  rw [leafEntriesL_eq_flatten, leafEntriesL_eq_flatten]
  exact (h.map _).flatten

theorem mem_leafEntriesL {e : BBox × SItem} :
    ∀ {l : List (BBox × RNode)}, e ∈ leafEntriesL l → ∃ p ∈ l, e ∈ leafEntries p.2 := by
  intro l
  induction l with
  | nil => intro h; cases h
  | cons p rest ih =>
    obtain ⟨b, c⟩ := p
    intro h
    rw [leafEntriesL] at h
    rcases List.mem_append.mp h with h1 | h1
    · exact ⟨(b, c), List.mem_cons_self _ _, h1⟩
    · obtain ⟨p2, hp2, he⟩ := ih h1
      exact ⟨p2, List.mem_cons_of_mem _ hp2, he⟩

theorem bboxSub_refl (b : BBox) : bboxSub b b = true := by
  simp [bboxSub]

theorem bboxSub_trans {a b c : BBox} (h1 : bboxSub a b = true)
    (h2 : bboxSub b c = true) : bboxSub a c = true := by
  simp only [bboxSub, Bool.and_eq_true, decide_eq_true_eq] at h1 h2 ⊢
  exact ⟨⟨⟨by linarith [h1.1.1.1, h2.1.1.1], by linarith [h1.1.1.2, h2.1.1.2]⟩,
    by linarith [h1.1.2, h2.1.2]⟩, by linarith [h1.2, h2.2]⟩

theorem bboxIntersects_mono {a b q : BBox} (hsub : bboxSub a b = true)
    (h : bboxIntersects a q = true) : bboxIntersects b q = true := by
  simp only [bboxSub, Bool.and_eq_true, decide_eq_true_eq] at hsub
  simp only [bboxIntersects, Bool.and_eq_true, decide_eq_true_eq] at h ⊢
  exact ⟨⟨⟨by linarith [h.1.1.1, hsub.1.1.1], by linarith [h.1.1.2, hsub.1.2]⟩,
    by linarith [h.1.2, hsub.1.1.2]⟩, by linarith [h.2, hsub.2]⟩

theorem bboxIntersects_of_sub_wf {a q : BBox} (hsub : bboxSub a q = true)
    (hwf : wfBBox a = true) : bboxIntersects a q = true := by
  simp only [bboxSub, Bool.and_eq_true, decide_eq_true_eq] at hsub
  simp only [wfBBox, Bool.and_eq_true, decide_eq_true_eq] at hwf
  have hEPS : (0 : ℚ) < EPS := by norm_num [EPS]
  simp only [bboxIntersects, Bool.and_eq_true, decide_eq_true_eq]
  exact ⟨⟨⟨by linarith [hsub.1.1.1, hsub.2, hwf.1], by linarith [hsub.1.1.1, hsub.2, hwf.1]⟩,
    by linarith [hsub.1.1.2, hsub.1.2, hwf.2]⟩, by linarith [hsub.1.1.2, hsub.1.2, hwf.2]⟩

theorem foldl_union_sub :
    ∀ (bs : List BBox) (acc : BBox),
      bboxSub acc (bs.foldl unionBBox acc) = true ∧
      ∀ x ∈ bs, bboxSub x (bs.foldl unionBBox acc) = true := by
  intro bs
  induction bs with
  | nil =>
    intro acc
    exact ⟨bboxSub_refl acc, fun x hx => absurd hx (List.not_mem_nil x)⟩
  | cons b rest ih =>
    intro acc
    rw [List.foldl_cons]
    obtain ⟨h1, h2⟩ := ih (unionBBox acc b)
    have hacc : bboxSub acc (unionBBox acc b) = true := by
      simp only [bboxSub, unionBBox, Bool.and_eq_true, decide_eq_true_eq]
      exact ⟨⟨⟨min_le_left _ _, min_le_left _ _⟩, le_max_left _ _⟩, le_max_left _ _⟩
    have hb : bboxSub b (unionBBox acc b) = true := by
      simp only [bboxSub, unionBBox, Bool.and_eq_true, decide_eq_true_eq]
      exact ⟨⟨⟨min_le_right _ _, min_le_right _ _⟩, le_max_right _ _⟩, le_max_right _ _⟩
    refine ⟨bboxSub_trans hacc h1, ?_⟩
    intro x hx
    rcases List.mem_cons.mp hx with hx1 | hx1
    · subst hx1
      exact bboxSub_trans hb h1
    · exact h2 x hx1

theorem foldl_union_wf :
    ∀ (bs : List BBox) (acc : BBox), wfBBox acc = true →
      wfBBox (bs.foldl unionBBox acc) = true := by
  intro bs
  induction bs with
  | nil => intro acc h; exact h
  | cons b rest ih =>
    intro acc h
    rw [List.foldl_cons]
    apply ih
    simp only [wfBBox, unionBBox, Bool.and_eq_true, decide_eq_true_eq] at h ⊢
    constructor
    · exact le_trans (min_le_left _ _) (le_trans h.1 (le_max_left _ _))
    · exact le_trans (min_le_left _ _) (le_trans h.2 (le_max_left _ _))

theorem computeBBox_covers (n : RNode) :
    ∀ bb ∈ nodeEntryBoxes n, bboxSub bb (computeBBox n) = true := by
  intro bb hbb
  rw [computeBBox]
  cases hb : nodeEntryBoxes n with
  | nil => rw [hb] at hbb; cases hbb
  | cons b bs =>
    rw [hb] at hbb
    obtain ⟨h1, h2⟩ := foldl_union_sub bs b
    rcases List.mem_cons.mp hbb with hx | hx
    · subst hx; exact h1
    · exact h2 bb hx

theorem entriesOK_mem :
    ∀ {es : List (BBox × RNode)} {b : BBox} {c : RNode},
      entriesOK es = true → (b, c) ∈ es →
      wfBBox b = true ∧ (∀ bb ∈ nodeEntryBoxes c, bboxSub bb b = true) ∧
      nodeNonempty c = true ∧ nodeOK c = true := by
  intro es
  induction es with
  | nil => intro b c _ hm; cases hm
  | cons e rest ih =>
    intro b c h hm
    obtain ⟨eb, ec⟩ := e
    rw [entriesOK] at h
    simp only [Bool.and_eq_true] at h
    rcases List.mem_cons.mp hm with h1 | h1
    · obtain ⟨hb, hc⟩ := Prod.mk.injEq .. ▸ h1
      subst hb; subst hc
      refine ⟨h.1.1.1.1, ?_, h.1.1.2, h.1.2⟩
      intro bb hbb
      have := h.1.1.1.2
      rw [List.all_eq_true] at this
      exact this bb hbb
    · exact ih h.2 h1

theorem nodeOK_boxes_wf :
    ∀ n : RNode, nodeOK n = true → ∀ bb ∈ nodeEntryBoxes n, wfBBox bb = true := by
  intro n
  cases n with
  | leaf es =>
    intro h bb hbb
    rw [nodeOK] at h
    rw [List.all_eq_true] at h
    rw [nodeEntryBoxes] at hbb
    obtain ⟨e, he, hbe⟩ := List.mem_map.mp hbb
    have := h e he
    simp only [Bool.and_eq_true] at this
    rw [← hbe]
    exact this.2
  | inner es =>
    intro h bb hbb
    rw [nodeOK] at h
    simp only [Bool.and_eq_true] at h
    rw [nodeEntryBoxes] at hbb
    obtain ⟨e, he, hbe⟩ := List.mem_map.mp hbb
    obtain ⟨eb, ec⟩ := e
    have := entriesOK_mem h.2 he
    rw [← hbe]
    exact this.1

theorem computeBBox_wf {n : RNode} (hok : nodeOK n = true)
    (hne : nodeNonempty n = true) : wfBBox (computeBBox n) = true := by
  rw [computeBBox]
  cases hb : nodeEntryBoxes n with
  | nil =>
    exfalso
    cases n with
    | leaf es =>
      rw [nodeEntryBoxes] at hb
      rw [nodeNonempty] at hne
      rw [List.map_eq_nil] at hb
      subst hb
      simp at hne
    | inner es =>
      rw [nodeEntryBoxes] at hb
      rw [nodeNonempty] at hne
      rw [List.map_eq_nil] at hb
      subst hb
      simp at hne
  | cons b bs =>
    apply foldl_union_wf
    apply nodeOK_boxes_wf n hok
    rw [hb]
    exact List.mem_cons_self _ _

theorem leafEntries_boxes_sub :
    ∀ n : RNode, nodeOK n = true →
      ∀ e ∈ leafEntries n, ∃ bb ∈ nodeEntryBoxes n, bboxSub e.1 bb = true := by
  apply RNode.indOn
  · intro es _ e he
    rw [leafEntries] at he
    refine ⟨e.1, ?_, bboxSub_refl _⟩
    rw [nodeEntryBoxes]
    exact List.mem_map_of_mem _ he
  · intro es ih h e he
    rw [nodeOK] at h
    simp only [Bool.and_eq_true] at h
    rw [leafEntries] at he
    obtain ⟨p, hp, hep⟩ := mem_leafEntriesL he
    obtain ⟨pb, pc⟩ := p
    obtain ⟨hwf, hsub, hne, hok⟩ := entriesOK_mem h.2 hp
    obtain ⟨bb, hbb, hesub⟩ := ih pb pc hp hok e hep
    refine ⟨pb, ?_, bboxSub_trans hesub (hsub bb hbb)⟩
    rw [nodeEntryBoxes]
    exact List.mem_map_of_mem _ hp

theorem leafEntries_ne_nil :
    ∀ n : RNode, nodeOK n = true → nodeNonempty n = true → leafEntries n ≠ [] := by
  apply RNode.indOn
  · intro es _ hne
    rw [leafEntries]
    rw [nodeNonempty] at hne
    simp only [Bool.not_eq_true'] at hne
    exact List.ne_nil_of_length_pos (by
      have := List.isEmpty_eq_false_iff_exists_mem.mp hne
      obtain ⟨x, hx⟩ := this
      exact List.length_pos_of_mem hx)
  · intro es ih h hne
    rw [nodeOK] at h
    simp only [Bool.and_eq_true] at h
    rw [nodeNonempty] at hne
    simp only [Bool.not_eq_true'] at hne
    obtain ⟨e, he⟩ := List.isEmpty_eq_false_iff_exists_mem.mp hne
    obtain ⟨eb, ec⟩ := e
    obtain ⟨hwf, hsub, hcne, hcok⟩ := entriesOK_mem h.2 he
    rw [leafEntries]
    have hcne2 := ih eb ec he hcok hcne
    intro hcon
    apply hcne2
    cases hl : leafEntries ec with
    | nil => rfl
    | cons a rest =>
      exfalso
      have : a ∈ leafEntriesL es := by
        rw [leafEntriesL_eq_flatten]
        rw [List.mem_flatten]
        refine ⟨leafEntries ec, ?_, by rw [hl]; exact List.mem_cons_self _ _⟩
        exact List.mem_map_of_mem _ he
      rw [hcon] at this
      cases this

theorem nodeOK_leaf_entries :
    ∀ n : RNode, nodeOK n = true →
      ∀ e ∈ leafEntries n, e.1 = itemInsertBBox e.2 ∧ wfBBox e.1 = true := by
  apply RNode.indOn
  · intro es h e he
    rw [nodeOK] at h
    rw [List.all_eq_true] at h
    rw [leafEntries] at he
    have := h e he
    simp only [Bool.and_eq_true, beq_iff_eq] at this
    exact this
  · intro es ih h e he
    rw [nodeOK] at h
    simp only [Bool.and_eq_true] at h
    rw [leafEntries] at he
    obtain ⟨p, hp, hep⟩ := mem_leafEntriesL he
    obtain ⟨pb, pc⟩ := p
    obtain ⟨hwf, hsub, hne, hok⟩ := entriesOK_mem h.2 hp
    exact ih pb pc hp hok e hep

/-!  ### Insertion preserves the stored entries (C10, C1 support) -/

theorem chooseSubtree_isSome (ebox : BBox) (es : List (BBox × RNode))
    (h : es ≠ []) : ∃ i, chooseSubtree ebox es = some i := by
  rw [chooseSubtree]
  have hpick := foldl_pick
    (fun (acc : Option (Fin es.length × ℚ)) (i : Fin es.length) =>
      let ce := es.get i
      let enl := bboxEnlargement ce.1 ebox
      match acc with
      | none => some (i, enl)
      | some (bi, be) =>
        if enl < be then some (i, enl)
        else if |enl - be| < EPS then
          (if bboxArea ce.1 < bboxArea (es.get bi).1 then some (i, be) else acc)
        else acc)
    (fun _ => True) (fun _ => True)
    (fun i _ => ⟨_, rfl, trivial⟩)
    (fun b i _ _ => by
      obtain ⟨bi, be⟩ := b
      dsimp only
      by_cases h1 : bboxEnlargement (es.get i).1 ebox < be
      · exact ⟨_, by rw [if_pos h1], trivial⟩
      · by_cases h2 : |bboxEnlargement (es.get i).1 ebox - be| < EPS
        · by_cases h3 : bboxArea (es.get i).1 < bboxArea (es.get bi).1
          · exact ⟨_, by rw [if_neg h1, if_pos h2, if_pos h3], trivial⟩
          · exact ⟨_, by rw [if_neg h1, if_pos h2, if_neg h3], trivial⟩
        · exact ⟨_, by rw [if_neg h1, if_neg h2], trivial⟩)
    (List.finRange es.length) none
    (fun _ _ => trivial)
    (Or.inr ⟨rfl, by
      apply List.ne_nil_of_length_pos
      rw [List.length_finRange]
      exact List.length_pos.mpr h⟩)
  obtain ⟨b, hb, _⟩ := hpick
  rw [hb]
  exact ⟨b.1, rfl⟩

theorem insertNode_leaf_perm (M minE : ℕ) (hM : 2 ≤ M) (e : BBox × SItem)
    (fuel : ℕ) (es : List (BBox × SItem)) :
    (leafEntries (insertNode M minE e fuel (.leaf es)).1 ++
      (((insertNode M minE e fuel (.leaf es)).2.map leafEntries).getD [])).Perm
      (e :: leafEntries (.leaf es)) := by
  rw [insertNode]
  dsimp only
  by_cases hov : (es ++ [e]).length > M
  · rw [if_pos hov]
    simp only [leafEntries, Option.map_some', Option.getD_some]
    have hsp := quadraticSplit_perm minE (es ++ [e]) (by
      rw [List.length_append, List.length_singleton] at hov ⊢
      omega)
    exact hsp.trans (List.perm_append_singleton e es)
  · rw [if_neg hov]
    simp only [leafEntries, Option.map_none', Option.getD_none, List.append_nil]
    exact List.perm_append_singleton e es

theorem insertNode_perm (M minE : ℕ) (hM : 2 ≤ M) (e : BBox × SItem) :
    ∀ (fuel : ℕ) (n : RNode), nodeOK n = true → nodeWeight n ≤ fuel →
      (leafEntries (insertNode M minE e fuel n).1 ++
        (((insertNode M minE e fuel n).2.map leafEntries).getD [])).Perm
        (e :: leafEntries n) := by
  intro fuel
  induction fuel with
  | zero =>
    intro n hok hw
    cases n with
    | leaf es => exact insertNode_leaf_perm M minE hM e 0 es
    | inner es =>
      exfalso
      rw [nodeWeight] at hw
      omega
  | succ fuel ih =>
    intro n hok hw
    cases n with
    | leaf es => exact insertNode_leaf_perm M minE hM e (fuel + 1) es
    | inner es =>
      have hok2 := hok
      rw [nodeOK] at hok2
      simp only [Bool.and_eq_true, Bool.not_eq_true'] at hok2
      have hne : es ≠ [] := by
        intro hcon
        subst hcon
        simp at hok2
      obtain ⟨i, hch⟩ := chooseSubtree_isSome e.1 es hne
      rw [insertNode, hch]
      dsimp only
      obtain ⟨cb, cc, hce⟩ : ∃ cb cc, es.get i = (cb, cc) :=
        ⟨(es.get i).1, (es.get i).2, rfl⟩
      rw [hce]
      dsimp only
      have hmem : (cb, cc) ∈ es := by
        rw [← hce]
        exact List.get_mem es i.1 i.2
      obtain ⟨hwfb, hsubb, hcne, hcok⟩ := entriesOK_mem hok2.2 hmem
      have hwc : nodeWeight cc ≤ fuel := by
        have h1 := nodeWeightL_of_mem hmem
        rw [nodeWeight] at hw
        omega
      have hih := ih cc hcok hwc
      rcases hr : insertNode M minE e fuel cc with ⟨r1, r2⟩
      rw [hr] at hih
      dsimp only at hih ⊢
      have hidx : i.1 < es.length := i.2
      have hgetel : es[i.1] = (cb, cc) := by
        rw [← List.get_eq_getElem]
        exact hce
      have hdec : es = es.take i.1 ++ (cb, cc) :: es.drop (i.1 + 1) := by
        conv_lhs => rw [← List.take_append_drop i.1 es]
        congr 1
        rw [List.drop_eq_getElem_cons hidx, hgetel]
      have hsetdec : es.set i.1 (unionBBox cb e.1, r1) =
          es.take i.1 ++ (unionBBox cb e.1, r1) :: es.drop (i.1 + 1) := by
        rw [List.set_eq_take_append_cons_drop]
        rw [if_pos hidx]
      have key1 : leafEntriesL es =
          leafEntriesL (es.take i.1) ++
            (leafEntries cc ++ leafEntriesL (es.drop (i.1 + 1))) := by
        conv_lhs => rw [hdec]
        rw [leafEntriesL_append, leafEntriesL]
      have key2 : leafEntriesL (es.set i.1 (unionBBox cb e.1, r1)) =
          leafEntriesL (es.take i.1) ++
            (leafEntries r1 ++ leafEntriesL (es.drop (i.1 + 1))) := by
        rw [hsetdec, leafEntriesL_append, leafEntriesL]
      cases r2 with
      | none =>
        simp only [Option.map_none', Option.getD_none, List.append_nil] at hih
        have hkey : (leafEntriesL (es.set i.1 (unionBBox cb e.1, r1))).Perm
            (e :: leafEntriesL es) := by
          rw [key2, key1]
          have s1 : (leafEntries r1 ++ leafEntriesL (es.drop (i.1 + 1))).Perm
              ((e :: leafEntries cc) ++ leafEntriesL (es.drop (i.1 + 1))) :=
            hih.append_right _
          have s2 := List.Perm.append_left (leafEntriesL (es.take i.1)) s1
          rw [List.cons_append] at s2
          exact s2.trans List.perm_middle
        by_cases hov : (es.set (↑i) (unionBBox cb e.1, r1)).length > M
        · rw [if_pos hov]
          simp only [leafEntries, Option.map_some', Option.getD_some]
          have hsp := quadraticSplit_perm minE (es.set (↑i) (unionBBox cb e.1, r1)) (by
            rw [List.length_set] at hov ⊢
            omega)
          have hp2 := leafEntriesL_perm hsp
          rw [leafEntriesL_append] at hp2
          exact hp2.trans hkey
        · rw [if_neg hov]
          simp only [leafEntries, Option.map_none', Option.getD_none, List.append_nil]
          exact hkey
      | some sib =>
        simp only [Option.map_some', Option.getD_some] at hih
        have hkey : (leafEntriesL (es.set i.1 (unionBBox cb e.1, r1) ++
            [(computeBBox sib, sib)])).Perm (e :: leafEntriesL es) := by
          rw [leafEntriesL_append, key2, key1, leafEntriesL, leafEntriesL,
            List.append_nil]
          have s0 : (leafEntriesL (es.take i.1) ++
              (leafEntries r1 ++ leafEntriesL (es.drop (i.1 + 1)))) ++
              leafEntries sib
              = leafEntriesL (es.take i.1) ++
                (leafEntries r1 ++ (leafEntriesL (es.drop (i.1 + 1)) ++
                  leafEntries sib)) := by
            simp [List.append_assoc]
          rw [s0]
          have s1 : (leafEntriesL (es.drop (i.1 + 1)) ++ leafEntries sib).Perm
              (leafEntries sib ++ leafEntriesL (es.drop (i.1 + 1))) :=
            List.perm_append_comm
          have s23 : (leafEntries r1 ++ (leafEntriesL (es.drop (i.1 + 1)) ++
              leafEntries sib)).Perm
              ((e :: leafEntries cc) ++ leafEntriesL (es.drop (i.1 + 1))) := by
            apply (List.Perm.append_left (leafEntries r1) s1).trans
            rw [← List.append_assoc]
            exact hih.append_right _
          have s4 := List.Perm.append_left (leafEntriesL (es.take i.1)) s23
          rw [List.cons_append] at s4
          exact s4.trans List.perm_middle
        by_cases hov : (es.set (↑i) (unionBBox cb e.1, r1) ++
            [(computeBBox sib, sib)]).length > M
        · rw [if_pos hov]
          simp only [leafEntries, Option.map_some', Option.getD_some]
          have hsp := quadraticSplit_perm minE
            (es.set (↑i) (unionBBox cb e.1, r1) ++ [(computeBBox sib, sib)]) (by
              rw [List.length_append, List.length_set, List.length_singleton] at hov ⊢
              omega)
          have hp2 := leafEntriesL_perm hsp
          rw [leafEntriesL_append] at hp2
          exact hp2.trans hkey
        · rw [if_neg hov]
          simp only [leafEntries, Option.map_none', Option.getD_none, List.append_nil]
          exact hkey

theorem insertT_perm (t : RTreeSt) (x : SItem) (ht : treeOK t = true) :
    (leafEntries (insertT t x).root).Perm
      ((itemInsertBBox x, x) :: leafEntries t.root) := by
  rw [treeOK] at ht
  simp only [Bool.and_eq_true, decide_eq_true_eq] at ht
  have h := insertNode_perm t.maxEntries (minEntriesOf t.maxEntries) ht.1
    (itemInsertBBox x, x) (nodeWeight t.root) t.root ht.2 le_rfl
  rw [insertT]
  rcases hr : insertNode t.maxEntries (minEntriesOf t.maxEntries)
      (itemInsertBBox x, x) (nodeWeight t.root) t.root with ⟨n1, n2⟩
  rw [hr] at h
  cases n2 with
  | none =>
    simp only [Option.map_none', Option.getD_none, List.append_nil] at h
    dsimp only
    exact h
  | some nn =>
    simp only [Option.map_some', Option.getD_some] at h
    dsimp only
    simp only [leafEntries, leafEntriesL, List.append_nil]
    exact h

/-!  ### Bulk load preserves the stored entries (C10, C5 support) -/

theorem le_mul_self (m : ℕ) : m ≤ m * m := by
  cases m with
  | zero => simp
  | succ n => exact Nat.le_mul_of_pos_left _ (Nat.succ_pos n)

theorem insertSorted_perm {α : Type} (le : α → α → Bool) (x : α) :
    ∀ l : List α, (insertSorted le x l).Perm (x :: l) := by
  intro l
  induction l with
  | nil => exact List.Perm.refl _
  | cons y ys ih =>
    rw [insertSorted]
    by_cases h : le y x
    · rw [if_pos h]
      exact (ih.cons y).trans (List.Perm.swap x y ys)
    · rw [if_neg h]

theorem stableSortBy_perm {α : Type} (le : α → α → Bool) :
    ∀ l : List α, (stableSortBy le l).Perm l := by
  intro l
  induction l with
  | nil => exact List.Perm.refl _
  | cons x xs ih =>
    rw [stableSortBy]
    exact (insertSorted_perm le x _).trans (ih.cons x)

theorem chunksOf_flatten {α : Type} (M : ℕ) :
    ∀ (fuel : ℕ) (l : List α), (chunksOf M fuel l).flatten = l := by
  intro fuel
  induction fuel with
  | zero =>
    intro l
    cases l with
    | nil => rfl
    | cons x xs =>
      rw [chunksOf]
      · simp
      · simp
  | succ fuel ih =>
    intro l
    cases l with
    | nil => rfl
    | cons x xs =>
      rw [chunksOf]
      · rw [List.flatten_cons, ih, List.take_append_drop]
      · simp

theorem slicesOf_flatten {α : Type} :
    ∀ (S : ℕ) (size : ℕ) (l : List α),
      (slicesOf S size l).flatten = l.take (S * size) := by
  intro S
  induction S with
  | zero =>
    intro size l
    simp [slicesOf]
  | succ S ih =>
    intro size l
    rw [slicesOf, List.range_succ_eq_map, List.map_cons, List.flatten_cons, List.map_map]
    have hmap : (List.range S).map
        ((fun i => (List.take size (List.drop (i * size) l))) ∘ (· + 1)) =
        (List.range S).map (fun i => (List.take size (List.drop (i * size) (l.drop size)))) := by
      apply List.map_congr_left
      intro i _
      simp only [Function.comp]
      congr 1
      rw [List.drop_drop]
      congr 1
      ring
    rw [hmap]
    have ih2 := ih size (l.drop size)
    rw [slicesOf] at ih2
    rw [ih2]
    simp only [Nat.zero_mul, List.drop_zero]
    have harith : (S + 1) * size = size + S * size := by ring
    rw [harith, List.take_add]

theorem slicesOf_flatten_all {α : Type} (S size : ℕ) (l : List α)
    (h : l.length ≤ S * size) : (slicesOf S size l).flatten = l := by
  rw [slicesOf_flatten]
  exact List.take_of_length_le h

theorem ceilSqrt_spec (m : ℕ) : m ≤ ceilSqrt m * ceilSqrt m := by
  rw [ceilSqrt]
  cases hh : ((List.range (m + 1)).filter (fun s => decide (m ≤ s * s))).head? with
  | none =>
    simp only [Option.getD_none]
    exact le_mul_self m
  | some s =>
    simp only [Option.getD_some]
    have hs := List.mem_of_mem_head? hh
    exact of_decide_eq_true (List.mem_filter.mp hs).2

theorem ceilSqrt_le (m : ℕ) : ceilSqrt m ≤ m := by
  rw [ceilSqrt]
  cases hh : ((List.range (m + 1)).filter (fun s => decide (m ≤ s * s))).head? with
  | none =>
    simp only [Option.getD_none]
    exact le_refl m
  | some s =>
    simp only [Option.getD_some]
    have hs := List.mem_of_mem_head? hh
    have h2 := (List.mem_filter.mp hs).1
    rw [List.mem_range] at h2
    omega

theorem ceilSqrt_pos (m : ℕ) (h : 1 ≤ m) : 1 ≤ ceilSqrt m := by
  by_contra hc
  push_neg at hc
  have h0 : ceilSqrt m = 0 := by omega
  have hs := ceilSqrt_spec m
  rw [h0] at hs
  omega

theorem ceilDiv_pos (n m : ℕ) (hn : 1 ≤ n) (hm : 1 ≤ m) : 1 ≤ ceilDiv n m := by
  rw [ceilDiv]
  rw [Nat.le_div_iff_mul_le hm]
  omega

theorem le_mul_ceilDiv (n S : ℕ) (hS : 1 ≤ S) : n ≤ S * ceilDiv n S := by
  rw [ceilDiv]
  have hq := Nat.div_add_mod (n + S - 1) S
  have hr : (n + S - 1) % S < S := Nat.mod_lt _ (by omega)
  omega

theorem ceilDiv_le_half (n M : ℕ) (hM : 2 ≤ M) (hn : 1 ≤ n) :
    ceilDiv n M ≤ (n + 1) / 2 := by
  rw [ceilDiv]
  have he : n + M - 1 = (n - 1) + M := by omega
  rw [he, Nat.add_div_right _ (by omega : 0 < M)]
  have hd : (n - 1) / M ≤ (n - 1) / 2 := Nat.div_le_div_left hM (by omega)
  omega

theorem flatMap_entries_perm {α : Type} (f : α → List RNode)
    (g : α → List (BBox × SItem)) :
    ∀ l : List α, (∀ a ∈ l, (((f a).map leafEntries).flatten).Perm (g a)) →
      ((((l.flatMap f).map leafEntries).flatten)).Perm (l.flatMap g) := by
  intro l
  induction l with
  | nil => intro _; exact List.Perm.refl _
  | cons a rest ih =>
    intro h
    rw [List.flatMap_cons, List.flatMap_cons, List.map_append, List.flatten_append]
    exact (h a (List.mem_cons_self _ _)).append
      (ih fun b hb => h b (List.mem_cons_of_mem _ hb))

theorem flatten_map_flatten {α β : Type} (g : α → List β) :
    ∀ ll : List (List α),
      ((ll.map (fun grp => ((grp.map g).flatten))).flatten) =
        ((ll.flatten.map g).flatten) := by
  intro ll
  induction ll with
  | nil => rfl
  | cons grp rest ih =>
    rw [List.map_cons, List.flatten_cons, List.flatten_cons, List.map_append,
      List.flatten_append, ih]

theorem leafEntries_inner_boxes (grp : List RNode) :
    leafEntries (RNode.inner (grp.map (fun c => (computeBBox c, c)))) =
      ((grp.map leafEntries).flatten) := by
  rw [leafEntries, leafEntriesL_eq_flatten, List.map_map]
  congr 1

theorem bulkLeafNodes_entries_perm (M : ℕ) (hM : 2 ≤ M)
    (entries : List (BBox × SItem)) (hne : 1 ≤ entries.length) :
    (((bulkLeafNodes M entries).map leafEntries).flatten).Perm entries := by
  rw [bulkLeafNodes]
  have hsort := stableSortBy_perm (fun a b => decide (a.1.minX ≤ b.1.minX)) entries
  have hlen : (stableSortBy (fun a b => decide (a.1.minX ≤ b.1.minX)) entries).length
      = entries.length := hsort.length_eq
  have hS : 1 ≤ ceilSqrt (ceilDiv entries.length M) :=
    ceilSqrt_pos _ (ceilDiv_pos _ _ hne (by omega))
  have hflat : (slicesOf (ceilSqrt (ceilDiv entries.length M))
      (ceilDiv (stableSortBy (fun a b => decide (a.1.minX ≤ b.1.minX)) entries).length
        (ceilSqrt (ceilDiv entries.length M)))
      (stableSortBy (fun a b => decide (a.1.minX ≤ b.1.minX)) entries)).flatten
      = stableSortBy (fun a b => decide (a.1.minX ≤ b.1.minX)) entries := by
    apply slicesOf_flatten_all
    exact le_mul_ceilDiv _ _ hS
  have hper := flatMap_entries_perm
    (fun sl => (chunksOf M
      (stableSortBy (fun a b => decide (a.1.minY ≤ b.1.minY)) sl).length
      (stableSortBy (fun a b => decide (a.1.minY ≤ b.1.minY)) sl)).map
        (fun c => RNode.leaf c))
    (fun sl => sl)
    (slicesOf (ceilSqrt (ceilDiv entries.length M))
      (ceilDiv (stableSortBy (fun a b => decide (a.1.minX ≤ b.1.minX)) entries).length
        (ceilSqrt (ceilDiv entries.length M)))
      (stableSortBy (fun a b => decide (a.1.minX ≤ b.1.minX)) entries))
    (by
      intro sl _
      rw [List.map_map]
      have hid : (chunksOf M
          (stableSortBy (fun a b => decide (a.1.minY ≤ b.1.minY)) sl).length
          (stableSortBy (fun a b => decide (a.1.minY ≤ b.1.minY)) sl)).map
            (leafEntries ∘ fun c => RNode.leaf c)
          = chunksOf M
            (stableSortBy (fun a b => decide (a.1.minY ≤ b.1.minY)) sl).length
            (stableSortBy (fun a b => decide (a.1.minY ≤ b.1.minY)) sl) := by
        rw [show (leafEntries ∘ fun c => RNode.leaf c) =
          (fun c : List (BBox × SItem) => c) from rfl]
        exact List.map_id _
      rw [hid, chunksOf_flatten]
      exact stableSortBy_perm _ sl)
  apply hper.trans
  have hfm : (slicesOf (ceilSqrt (ceilDiv entries.length M))
      (ceilDiv (stableSortBy (fun a b => decide (a.1.minX ≤ b.1.minX)) entries).length
        (ceilSqrt (ceilDiv entries.length M)))
      (stableSortBy (fun a b => decide (a.1.minX ≤ b.1.minX)) entries)).flatMap
        (fun sl => sl)
      = (slicesOf (ceilSqrt (ceilDiv entries.length M))
      (ceilDiv (stableSortBy (fun a b => decide (a.1.minX ≤ b.1.minX)) entries).length
        (ceilSqrt (ceilDiv entries.length M)))
      (stableSortBy (fun a b => decide (a.1.minX ≤ b.1.minX)) entries)).flatten := by
    rw [← List.flatMap_id]
    rfl
  rw [hfm, hflat]
  exact hsort

theorem bulkLevelUp_entries_perm (M : ℕ) (hM : 2 ≤ M) (ns : List RNode)
    (hne : 1 ≤ ns.length) :
    (((bulkLevelUp M ns).map leafEntries).flatten).Perm
      ((ns.map leafEntries).flatten) := by
  rw [bulkLevelUp]
  have hsort := stableSortBy_perm
    (fun a b => decide ((computeBBox a).minX ≤ (computeBBox b).minX)) ns
  have hS : 1 ≤ ceilSqrt (ceilDiv ns.length M) :=
    ceilSqrt_pos _ (ceilDiv_pos _ _ hne (by omega))
  have hflat : (slicesOf (ceilSqrt (ceilDiv ns.length M))
      (ceilDiv (stableSortBy
        (fun a b => decide ((computeBBox a).minX ≤ (computeBBox b).minX)) ns).length
        (ceilSqrt (ceilDiv ns.length M)))
      (stableSortBy
        (fun a b => decide ((computeBBox a).minX ≤ (computeBBox b).minX)) ns)).flatten
      = stableSortBy
        (fun a b => decide ((computeBBox a).minX ≤ (computeBBox b).minX)) ns := by
    apply slicesOf_flatten_all
    exact le_mul_ceilDiv _ _ hS
  have hper := flatMap_entries_perm
    (fun sl => (chunksOf M
      (stableSortBy (fun a b => decide ((computeBBox a).minY ≤ (computeBBox b).minY)) sl).length
      (stableSortBy (fun a b => decide ((computeBBox a).minY ≤ (computeBBox b).minY)) sl)).map
        (fun grp => RNode.inner (grp.map (fun c => (computeBBox c, c)))))
    (fun sl => (sl.map leafEntries).flatten)
    (slicesOf (ceilSqrt (ceilDiv ns.length M))
      (ceilDiv (stableSortBy
        (fun a b => decide ((computeBBox a).minX ≤ (computeBBox b).minX)) ns).length
        (ceilSqrt (ceilDiv ns.length M)))
      (stableSortBy
        (fun a b => decide ((computeBBox a).minX ≤ (computeBBox b).minX)) ns))
    (by
      intro sl _
      rw [List.map_map]
      have hmap2 : (chunksOf M
          (stableSortBy (fun a b => decide ((computeBBox a).minY ≤ (computeBBox b).minY)) sl).length
          (stableSortBy (fun a b => decide ((computeBBox a).minY ≤ (computeBBox b).minY)) sl)).map
            (leafEntries ∘ fun grp => RNode.inner (grp.map (fun c => (computeBBox c, c))))
          = (chunksOf M
          (stableSortBy (fun a b => decide ((computeBBox a).minY ≤ (computeBBox b).minY)) sl).length
          (stableSortBy (fun a b => decide ((computeBBox a).minY ≤ (computeBBox b).minY)) sl)).map
            (fun grp => ((grp.map leafEntries).flatten)) := by
        apply List.map_congr_left
        intro grp _
        simp only [Function.comp]
        exact leafEntries_inner_boxes grp
      rw [hmap2, flatten_map_flatten, chunksOf_flatten]
      exact ((stableSortBy_perm _ sl).map leafEntries).flatten)
  apply hper.trans
  have hfm : ∀ (ll : List (List RNode)),
      ll.flatMap (fun sl => (sl.map leafEntries).flatten)
      = ((ll.map (fun sl => ((sl.map leafEntries).flatten))).flatten) := by
    intro ll
    rw [List.flatMap_def]
  rw [hfm, flatten_map_flatten, hflat]
  exact (hsort.map leafEntries).flatten

theorem chunksOf_length_le {α : Type} (M : ℕ) (hM : 2 ≤ M) :
    ∀ (fuel : ℕ) (l : List α), (chunksOf M fuel l).length ≤ (l.length + 1) / 2 := by
  intro fuel
  induction fuel with
  | zero =>
    intro l
    cases l with
    | nil => simp [chunksOf]
    | cons x xs =>
      rw [chunksOf]
      · rw [List.length_singleton, List.length_cons]
        omega
      · simp
  | succ fuel ih =>
    intro l
    cases l with
    | nil => simp [chunksOf]
    | cons x xs =>
      rw [chunksOf]
      · rw [List.length_cons]
        have h1 := ih ((x :: xs).drop M)
        rw [List.length_drop, List.length_cons] at h1
        rw [List.length_cons]
        omega
      · simp

theorem sum_halves_le : ∀ l : List ℕ,
    (l.map (fun a => (a + 1) / 2)).sum ≤ (l.sum + l.length) / 2 := by
  intro l
  induction l with
  | nil => simp
  | cons a rest ih =>
    simp only [List.map_cons, List.sum_cons, List.length_cons]
    omega

theorem bulkLevelUp_length (M : ℕ) (hM : 2 ≤ M) (ns : List RNode)
    (hn : 2 ≤ ns.length) : (bulkLevelUp M ns).length < ns.length := by
  rw [bulkLevelUp]
  have hsort := stableSortBy_perm
    (fun a b => decide ((computeBBox a).minX ≤ (computeBBox b).minX)) ns
  have hS1 : 1 ≤ ceilSqrt (ceilDiv ns.length M) :=
    ceilSqrt_pos _ (ceilDiv_pos _ _ (by omega) (by omega))
  have hSn : ceilSqrt (ceilDiv ns.length M) ≤ ns.length - 1 := by
    have h1 := ceilSqrt_le (ceilDiv ns.length M)
    have h2 := ceilDiv_le_half ns.length M hM (by omega)
    omega
  rw [List.length_flatMap]
  have hbound : ((slicesOf (ceilSqrt (ceilDiv ns.length M))
      (ceilDiv (stableSortBy
        (fun a b => decide ((computeBBox a).minX ≤ (computeBBox b).minX)) ns).length
        (ceilSqrt (ceilDiv ns.length M)))
      (stableSortBy
        (fun a b => decide ((computeBBox a).minX ≤ (computeBBox b).minX)) ns)).map
      (fun sl => ((chunksOf M
        (stableSortBy (fun a b => decide ((computeBBox a).minY ≤ (computeBBox b).minY)) sl).length
        (stableSortBy (fun a b => decide ((computeBBox a).minY ≤ (computeBBox b).minY)) sl)).map
          (fun grp => RNode.inner (grp.map (fun c => (computeBBox c, c))))).length)).sum
      ≤ ((slicesOf (ceilSqrt (ceilDiv ns.length M))
      (ceilDiv (stableSortBy
        (fun a b => decide ((computeBBox a).minX ≤ (computeBBox b).minX)) ns).length
        (ceilSqrt (ceilDiv ns.length M)))
      (stableSortBy
        (fun a b => decide ((computeBBox a).minX ≤ (computeBBox b).minX)) ns)).map
      (fun sl => (sl.length + 1) / 2)).sum := by
    apply List.sum_le_sum
    intro sl _
    rw [List.length_map]
    have h1 := chunksOf_length_le M hM
      (stableSortBy (fun a b => decide ((computeBBox a).minY ≤ (computeBBox b).minY)) sl).length
      (stableSortBy (fun a b => decide ((computeBBox a).minY ≤ (computeBBox b).minY)) sl)
    have h2 : (stableSortBy
        (fun a b => decide ((computeBBox a).minY ≤ (computeBBox b).minY)) sl).length
        = sl.length := (stableSortBy_perm _ sl).length_eq
    omega
  apply Nat.lt_of_le_of_lt hbound
  have hsum2 := sum_halves_le ((slicesOf (ceilSqrt (ceilDiv ns.length M))
      (ceilDiv (stableSortBy
        (fun a b => decide ((computeBBox a).minX ≤ (computeBBox b).minX)) ns).length
        (ceilSqrt (ceilDiv ns.length M)))
      (stableSortBy
        (fun a b => decide ((computeBBox a).minX ≤ (computeBBox b).minX)) ns)).map
      List.length)
  rw [List.map_map] at hsum2
  have he1 : ((fun a => (a + 1) / 2) ∘ List.length) =
      (fun sl : List RNode => (sl.length + 1) / 2) := rfl
  rw [he1] at hsum2
  apply Nat.lt_of_le_of_lt hsum2
  have hsumlen : ((slicesOf (ceilSqrt (ceilDiv ns.length M))
      (ceilDiv (stableSortBy
        (fun a b => decide ((computeBBox a).minX ≤ (computeBBox b).minX)) ns).length
        (ceilSqrt (ceilDiv ns.length M)))
      (stableSortBy
        (fun a b => decide ((computeBBox a).minX ≤ (computeBBox b).minX)) ns)).map
      List.length).sum ≤ ns.length := by
    rw [← List.length_flatten]
    rw [slicesOf_flatten]
    rw [List.length_take]
    have hl2 := hsort.length_eq
    omega
  have hscount : (slicesOf (ceilSqrt (ceilDiv ns.length M))
      (ceilDiv (stableSortBy
        (fun a b => decide ((computeBBox a).minX ≤ (computeBBox b).minX)) ns).length
        (ceilSqrt (ceilDiv ns.length M)))
      (stableSortBy
        (fun a b => decide ((computeBBox a).minX ≤ (computeBBox b).minX)) ns)).length
      = ceilSqrt (ceilDiv ns.length M) := by
    rw [slicesOf, List.length_map, List.length_range]
  rw [List.length_map, hscount]
  omega

theorem buildLevels_entries_perm (M : ℕ) (hM : 2 ≤ M) :
    ∀ (fuel : ℕ) (ns : List RNode), ns.length ≤ fuel →
      (leafEntries (buildLevels M fuel ns)).Perm ((ns.map leafEntries).flatten) := by
  intro fuel
  induction fuel with
  | zero =>
    intro ns h
    have hnil : ns = [] := List.length_eq_zero.mp (by omega)
    subst hnil
    exact List.Perm.refl _
  | succ fuel ih =>
    intro ns h
    cases ns with
    | nil => exact List.Perm.refl _
    | cons n1 rest =>
      cases rest with
      | nil =>
        rw [buildLevels]
        simp
      | cons n2 rest2 =>
        rw [buildLevels]
        · have hlt := bulkLevelUp_length M hM (n1 :: n2 :: rest2) (by
            rw [List.length_cons, List.length_cons]
            omega)
          have hfuel : (bulkLevelUp M (n1 :: n2 :: rest2)).length ≤ fuel := by
            rw [List.length_cons, List.length_cons] at h hlt
            omega
          exact (ih _ hfuel).trans (bulkLevelUp_entries_perm M hM _ (by
            rw [List.length_cons, List.length_cons]
            omega))
        · simp
        · simp

theorem bulkLoadT_perm (t : RTreeSt) (items : List SItem) (hM : 2 ≤ t.maxEntries) :
    (leafEntries (bulkLoadT t items).root).Perm
      (items.map (fun x => (itemInsertBBox x, x))) := by
  cases items with
  | nil => exact List.Perm.refl _
  | cons x xs =>
    rw [bulkLoadT]
    · dsimp only
      apply (buildLevels_entries_perm t.maxEntries hM _ _ le_rfl).trans
      apply bulkLeafNodes_entries_perm t.maxEntries hM
      rw [List.length_map, List.length_cons]
      omega
    · simp

/-- C10.  The box stored in the index for an item is
`item.geometry?.getBoundingBox() || item.getBoundingBox()`: the geometry
box whenever a geometry is attached (the item accessor is then ignored),
the item accessor only as a fallback — and both `insert` and `bulkLoad`
store exactly that box with the item, neither dropping nor duplicating
entries. -/
theorem claim_insert_box_source (t : RTreeSt) (x : SItem) (b : BBox)
    (items : List SItem) (ht : treeOK t = true) :
    (x.geomBBox = some b → itemInsertBBox x = b) ∧
    (x.geomBBox = none → itemInsertBBox x = x.ownBBox) ∧
    (leafEntries (insertT t x).root).Perm
      ((itemInsertBBox x, x) :: leafEntries t.root) ∧
    (leafEntries (bulkLoadT t items).root).Perm
      (items.map (fun y => (itemInsertBBox y, y))) := by
  have hM : 2 ≤ t.maxEntries := by
    rw [treeOK] at ht
    simp only [Bool.and_eq_true, decide_eq_true_eq] at ht
    exact ht.1
  refine ⟨?_, ?_, insertT_perm t x ht, bulkLoadT_perm t items hM⟩
  · intro h
    rw [itemInsertBBox, h]
    rfl
  · intro h
    rw [itemInsertBBox, h]
    rfl

/-- Closed instance of C10 obtained from `claim_insert_box_source`. -/
theorem claim_insert_box_source_witness :
    itemInsertBBox ⟨5, some ⟨1, 1, 2, 2⟩, ⟨0, 0, 9, 9⟩⟩ = ⟨1, 1, 2, 2⟩ ∧
    (leafEntries (insertT (emptyTree 4) ⟨5, some ⟨1, 1, 2, 2⟩, ⟨0, 0, 9, 9⟩⟩).root).Perm
      ((itemInsertBBox ⟨5, some ⟨1, 1, 2, 2⟩, ⟨0, 0, 9, 9⟩⟩,
          (⟨5, some ⟨1, 1, 2, 2⟩, ⟨0, 0, 9, 9⟩⟩ : SItem)) ::
        leafEntries (emptyTree 4).root) :=
  have h := claim_insert_box_source (emptyTree 4) ⟨5, some ⟨1, 1, 2, 2⟩, ⟨0, 0, 9, 9⟩⟩
    ⟨1, 1, 2, 2⟩ [] (by decide)
  ⟨h.1 rfl, h.2.2.1⟩

/-!  ### Bulk load builds a well-formed tree; covering search (C5) -/

theorem chunksOf_mem_sub {α : Type} (M fuel : ℕ) (l : List α) {c : List α}
    (hc : c ∈ chunksOf M fuel l) : ∀ x ∈ c, x ∈ l := by
  intro x hx
  have hm : x ∈ (chunksOf M fuel l).flatten := List.mem_flatten.mpr ⟨c, hc, hx⟩
  rw [chunksOf_flatten] at hm
  exact hm

theorem chunksOf_mem_ne_nil {α : Type} (M : ℕ) (hM : 1 ≤ M) :
    ∀ (fuel : ℕ) (l : List α), ∀ c ∈ chunksOf M fuel l, c ≠ [] := by
  intro fuel
  induction fuel with
  | zero =>
    intro l c hc
    cases l with
    | nil => simp [chunksOf] at hc
    | cons x xs =>
      rw [chunksOf] at hc
      · rw [List.mem_singleton] at hc
        subst hc
        simp
      · simp
  | succ fuel ih =>
    intro l c hc
    cases l with
    | nil => simp [chunksOf] at hc
    | cons x xs =>
      rw [chunksOf] at hc
      · rcases List.mem_cons.mp hc with h1 | h1
        · subst h1
          intro hcon
          have hlen : (List.take M (x :: xs)).length = 0 := by
            rw [hcon]
            rfl
          rw [List.length_take, List.length_cons] at hlen
          omega
        · exact ih _ c h1
      · simp

theorem slicesOf_mem_sub {α : Type} (S size : ℕ) (l : List α) {sl : List α}
    (hsl : sl ∈ slicesOf S size l) : ∀ x ∈ sl, x ∈ l := by
  intro x hx
  rw [slicesOf] at hsl
  obtain ⟨i, _, hi⟩ := List.mem_map.mp hsl
  subst hi
  exact List.drop_subset _ _ (List.take_subset _ _ hx)

theorem entriesOK_of_forall :
    ∀ grp : List RNode,
      (∀ c ∈ grp, nodeOK c = true ∧ nodeNonempty c = true) →
      entriesOK (grp.map (fun c => (computeBBox c, c))) = true := by
  intro grp
  induction grp with
  | nil => intro _; rfl
  | cons c rest ih =>
    intro h
    rw [List.map_cons, entriesOK]
    obtain ⟨hok, hne⟩ := h c (List.mem_cons_self _ _)
    simp only [Bool.and_eq_true]
    refine ⟨⟨⟨⟨computeBBox_wf hok hne, ?_⟩, hne⟩, hok⟩,
      ih (fun c2 hc2 => h c2 (List.mem_cons_of_mem _ hc2))⟩
    rw [List.all_eq_true]
    intro bb hbb
    exact computeBBox_covers c bb hbb

theorem bulkLeafNodes_ok (M : ℕ) (hM : 2 ≤ M) (entries : List (BBox × SItem))
    (hprop : ∀ e ∈ entries, e.1 = itemInsertBBox e.2 ∧ wfBBox e.1 = true) :
    ∀ n ∈ bulkLeafNodes M entries, nodeOK n = true ∧ nodeNonempty n = true := by
  intro n hn
  rw [bulkLeafNodes] at hn
  rw [List.mem_flatMap] at hn
  obtain ⟨sl, hsl, hn2⟩ := hn
  rw [List.mem_map] at hn2
  obtain ⟨c, hc, hcn⟩ := hn2
  subst hcn
  have hcsub : ∀ x ∈ c, x ∈ entries := by
    intro x hx
    have h1 := chunksOf_mem_sub _ _ _ hc x hx
    have h2 := (stableSortBy_perm (fun a b => decide (a.1.minY ≤ b.1.minY)) sl).mem_iff.mp h1
    have h3 := slicesOf_mem_sub _ _ _ hsl x h2
    exact (stableSortBy_perm (fun a b => decide (a.1.minX ≤ b.1.minX)) entries).mem_iff.mp h3
  have hcne := chunksOf_mem_ne_nil M (by omega) _ _ c hc
  constructor
  · rw [nodeOK, List.all_eq_true]
    intro e he
    have hp := hprop e (hcsub e he)
    simp only [Bool.and_eq_true, beq_iff_eq]
    exact hp
  · rw [nodeNonempty]
    simp only [Bool.not_eq_true']
    cases c with
    | nil => exact absurd rfl hcne
    | cons a as => rfl

theorem bulkLevelUp_ok (M : ℕ) (hM : 2 ≤ M) (ns : List RNode)
    (hok : ∀ n ∈ ns, nodeOK n = true ∧ nodeNonempty n = true) :
    ∀ n ∈ bulkLevelUp M ns, nodeOK n = true ∧ nodeNonempty n = true := by
  intro n hn
  rw [bulkLevelUp] at hn
  rw [List.mem_flatMap] at hn
  obtain ⟨sl, hsl, hn2⟩ := hn
  rw [List.mem_map] at hn2
  obtain ⟨grp, hgrp, hgn⟩ := hn2
  subst hgn
  have hgsub : ∀ c ∈ grp, c ∈ ns := by
    intro c hx
    have h1 := chunksOf_mem_sub _ _ _ hgrp c hx
    have h2 := (stableSortBy_perm
      (fun a b => decide ((computeBBox a).minY ≤ (computeBBox b).minY)) sl).mem_iff.mp h1
    have h3 := slicesOf_mem_sub _ _ _ hsl c h2
    exact (stableSortBy_perm
      (fun a b => decide ((computeBBox a).minX ≤ (computeBBox b).minX)) ns).mem_iff.mp h3
  have hgne := chunksOf_mem_ne_nil M (by omega) _ _ grp hgrp
  constructor
  · rw [nodeOK]
    simp only [Bool.and_eq_true, Bool.not_eq_true']
    constructor
    · cases grp with
      | nil => exact absurd rfl hgne
      | cons a as => rfl
    · exact entriesOK_of_forall grp (fun c hc => hok c (hgsub c hc))
  · rw [nodeNonempty]
    simp only [Bool.not_eq_true']
    cases grp with
    | nil => exact absurd rfl hgne
    | cons a as => rfl

theorem buildLevels_ok (M : ℕ) (hM : 2 ≤ M) :
    ∀ (fuel : ℕ) (ns : List RNode), ns.length ≤ fuel →
      (∀ n ∈ ns, nodeOK n = true ∧ nodeNonempty n = true) →
      nodeOK (buildLevels M fuel ns) = true := by
  intro fuel
  induction fuel with
  | zero =>
    intro ns h hok
    have hnil : ns = [] := List.length_eq_zero.mp (by omega)
    subst hnil
    rfl
  | succ fuel ih =>
    intro ns h hok
    cases ns with
    | nil => rfl
    | cons n1 rest =>
      cases rest with
      | nil =>
        rw [buildLevels]
        exact (hok n1 (List.mem_cons_self _ _)).1
      | cons n2 rest2 =>
        rw [buildLevels]
        · apply ih
          · have hlt := bulkLevelUp_length M hM (n1 :: n2 :: rest2) (by
              rw [List.length_cons, List.length_cons]
              omega)
            have h2 : (n1 :: n2 :: rest2).length ≤ fuel + 1 := h
            rw [List.length_cons, List.length_cons] at h2
            omega
          · exact bulkLevelUp_ok M hM _ hok
        · simp
        · simp

theorem bulkLoadT_ok (t : RTreeSt) (items : List SItem) (hM : 2 ≤ t.maxEntries)
    (hwf : ∀ x ∈ items, wfBBox (itemInsertBBox x) = true) :
    treeOK (bulkLoadT t items) = true := by
  cases items with
  | nil =>
    rw [treeOK]
    simp only [Bool.and_eq_true, decide_eq_true_eq]
    exact ⟨hM, rfl⟩
  | cons x xs =>
    rw [treeOK]
    simp only [Bool.and_eq_true, decide_eq_true_eq]
    rw [bulkLoadT]
    · dsimp only
      refine ⟨hM, ?_⟩
      apply buildLevels_ok t.maxEntries hM _ _ le_rfl
      apply bulkLeafNodes_ok t.maxEntries hM
      intro e he
      rw [List.mem_map] at he
      obtain ⟨y, hy, hye⟩ := he
      rw [← hye]
      exact ⟨rfl, hwf y hy⟩
    · simp

theorem searchEntries_covering (q : BBox) :
    ∀ es : List (BBox × RNode), entriesOK es = true →
      (∀ p ∈ es, ∀ e ∈ leafEntries (Prod.snd p), bboxIntersects e.1 q = true) →
      (∀ p ∈ es, searchNode q (Prod.snd p) = itemsOf (Prod.snd p)) →
      searchEntries q es = (leafEntriesL es).map Prod.snd := by
  intro es
  induction es with
  | nil => intro _ _ _; rfl
  | cons p rest ihl =>
    obtain ⟨b, c⟩ := p
    intro hE hcov hsearch
    rw [entriesOK] at hE
    simp only [Bool.and_eq_true] at hE
    obtain ⟨⟨⟨⟨hwfb, hallsub⟩, hcne⟩, hcok⟩, hrest⟩ := hE
    rw [searchEntries, leafEntriesL, List.map_append]
    have hnonnil := leafEntries_ne_nil c hcok hcne
    obtain ⟨e0, he0⟩ : ∃ e0, e0 ∈ leafEntries c := by
      cases hl : leafEntries c with
      | nil => exact absurd hl hnonnil
      | cons a as => exact ⟨a, List.mem_cons_self _ _⟩
    obtain ⟨bb, hbb, hsub0⟩ := leafEntries_boxes_sub c hcok e0 he0
    rw [List.all_eq_true] at hallsub
    have hsubb : bboxSub e0.1 b = true := bboxSub_trans hsub0 (hallsub bb hbb)
    have hint : bboxIntersects b q = true :=
      bboxIntersects_mono hsubb (hcov (b, c) (List.mem_cons_self _ _) e0 he0)
    rw [hint]
    simp only [if_true]
    congr 1
    · rw [hsearch (b, c) (List.mem_cons_self _ _)]
      rfl
    · exact ihl hrest (fun p2 hp => hcov p2 (List.mem_cons_of_mem _ hp))
        (fun p2 hp => hsearch p2 (List.mem_cons_of_mem _ hp))

theorem searchNode_covering (q : BBox) :
    ∀ n : RNode, nodeOK n = true →
      (∀ e ∈ leafEntries n, bboxIntersects e.1 q = true) →
      searchNode q n = itemsOf n := by
  apply RNode.indOn
  · intro es hok hcov
    rw [searchNode, itemsOf, leafEntries]
    congr 1
    rw [List.filter_eq_self]
    intro e he
    exact hcov e he
  · intro es ih hok hcov
    rw [searchNode, itemsOf, leafEntries]
    rw [nodeOK] at hok
    simp only [Bool.and_eq_true] at hok
    apply searchEntries_covering q es hok.2
    · intro p hp e he
      apply hcov
      rw [leafEntries, leafEntriesL_eq_flatten, List.mem_flatten]
      exact ⟨leafEntries p.2, List.mem_map_of_mem _ hp, he⟩
    · intro p hp
      obtain ⟨pb, pc⟩ := p
      apply ih pb pc hp (entriesOK_mem hok.2 hp).2.2.2
      intro e he
      apply hcov
      rw [leafEntries, leafEntriesL_eq_flatten, List.mem_flatten]
      exact ⟨leafEntries pc, List.mem_map_of_mem _ hp, he⟩

/-- C5.  `bulkLoad(S)` followed by a search whose box covers the boxes of
all items of `S` (each item box well-formed) returns exactly the items of
`S`, as a permutation; `bulkLoad([])` then any search returns `[]`, and
`clear()` after any sequence of inserts leaves a tree on which every
search returns `[]`. -/
theorem claim_bulkload_search (t : RTreeSt) (items : List SItem) (q : BBox)
    (hM : 2 ≤ t.maxEntries)
    (hwf : ∀ x ∈ items, wfBBox (itemInsertBBox x) = true)
    (hcov : ∀ x ∈ items, bboxSub (itemInsertBBox x) q = true) :
    (searchT (bulkLoadT t items) q).Perm items ∧
    (∀ (t2 : RTreeSt) (q2 : BBox), searchT (bulkLoadT t2 []) q2 = []) ∧
    (∀ (t3 : RTreeSt) (q3 : BBox) (its : List SItem),
      searchT (clearT (its.foldl insertT t3)) q3 = []) := by
  refine ⟨?_, fun t2 q2 => rfl, fun t3 q3 its => rfl⟩
  have htok := bulkLoadT_ok t items hM hwf
  rw [treeOK] at htok
  simp only [Bool.and_eq_true, decide_eq_true_eq] at htok
  have hperm := bulkLoadT_perm t items hM
  have hsearch : searchT (bulkLoadT t items) q = itemsOf (bulkLoadT t items).root := by
    rw [searchT]
    apply searchNode_covering q _ htok.2
    intro e he
    have hmem := hperm.mem_iff.mp he
    rw [List.mem_map] at hmem
    obtain ⟨y, hy, hye⟩ := hmem
    rw [← hye]
    exact bboxIntersects_of_sub_wf (hcov y hy) (hwf y hy)
  rw [hsearch, itemsOf]
  have hmap := hperm.map Prod.snd
  rw [List.map_map] at hmap
  have hid : items.map (Prod.snd ∘ fun x => (itemInsertBBox x, x)) = items := by
    rw [show (Prod.snd ∘ fun x : SItem => (itemInsertBBox x, x)) = id from rfl,
      List.map_id]
  rw [hid] at hmap
  exact hmap

/-- Closed instance of C5 obtained from `claim_bulkload_search` on nine
bulk-loaded items. -/
theorem claim_bulkload_search_witness :
    (searchT (bulkLoadT (emptyTree 4)
        ((List.range 9).map (fun i => ⟨i, some ⟨(i : ℚ), i, i, i⟩, ⟨(i : ℚ), i, i, i⟩⟩)))
      ⟨0, 0, 20, 20⟩).Perm
      ((List.range 9).map (fun i => ⟨i, some ⟨(i : ℚ), i, i, i⟩, ⟨(i : ℚ), i, i, i⟩⟩)) ∧
    searchT (bulkLoadT (emptyTree 9) []) ⟨0, 0, 1, 1⟩ = [] :=
  have h := claim_bulkload_search (emptyTree 4)
    ((List.range 9).map (fun i => ⟨i, some ⟨(i : ℚ), i, i, i⟩, ⟨(i : ℚ), i, i, i⟩⟩))
    ⟨0, 0, 20, 20⟩ (by decide) (by decide) (by decide)
  ⟨h.1, h.2.1 (emptyTree 9) ⟨0, 0, 1, 1⟩⟩

/-!  ### The priority queue is a verified binary heap (C2) -/

theorem set_perm {α : Type} {l : List α} {k : ℕ} {b : α}
    (hk : l.get? k = some b) (a : α) :
    (l.set k a).Perm (a :: l.eraseIdx k) := by
  have hklen : k < l.length := (List.get?_eq_some.mp hk).1
  rw [List.set_eq_take_append_cons_drop, if_pos hklen, List.eraseIdx_eq_take_drop_succ]
  exact List.perm_middle

theorem swap_perm {α : Type} {l : List α} {n s : ℕ} {a b : α}
    (hns : n < s) (hs : s < l.length)
    (ha : l.get? n = some a) (hb : l.get? s = some b) :
    ((l.set n b).set s a).Perm l := by
  have hn : n < l.length := by omega
  have hsetdec : l.set n b = l.take n ++ b :: l.drop (n + 1) := by
    rw [List.set_eq_take_append_cons_drop, if_pos hn]
  have hdec : l = l.take n ++ a :: l.drop (n + 1) := by
    conv_lhs => rw [← List.take_append_drop n l]
    congr 1
    rw [List.drop_eq_getElem_cons hn]
    congr 1
    have hg := List.get?_eq_get hn
    rw [ha] at hg
    exact (Option.some.inj hg).symm
  have hlen_take : (l.take n ++ [b]).length = n + 1 := by
    rw [List.length_append, List.length_take, List.length_singleton]
    omega
  have hDk : (l.drop (n + 1)).get? (s - n - 1) = some b := by
    rw [List.get?_drop]
    have : n + 1 + (s - n - 1) = s := by omega
    rw [this]
    exact hb
  have hsplit : (l.set n b).set s a =
      (l.take n ++ [b]) ++ (l.drop (n + 1)).set (s - n - 1) a := by
    rw [hsetdec]
    have he : l.take n ++ b :: l.drop (n + 1) =
        (l.take n ++ [b]) ++ l.drop (n + 1) := by
      rw [List.append_assoc]
      rfl
    rw [he, List.set_append_right _ _ (by omega : (l.take n ++ [b]).length ≤ s)]
    congr 2
    rw [hlen_take]
    omega
  rw [hsplit]
  have h1 : ((l.drop (n + 1)).set (s - n - 1) a).Perm
      (a :: (l.drop (n + 1)).eraseIdx (s - n - 1)) := set_perm hDk a
  have h2 : (l.drop (n + 1)).Perm (b :: (l.drop (n + 1)).eraseIdx (s - n - 1)) :=
    perm_cons_eraseIdx hDk
  have hL : ((l.take n ++ [b]) ++ (l.drop (n + 1)).set (s - n - 1) a).Perm
      (l.take n ++ (a :: b :: (l.drop (n + 1)).eraseIdx (s - n - 1))) := by
    have e1 : (l.take n ++ [b]) ++ (l.drop (n + 1)).set (s - n - 1) a =
        l.take n ++ (b :: (l.drop (n + 1)).set (s - n - 1) a) := by
      rw [List.append_assoc]
      rfl
    rw [e1]
    apply List.Perm.append_left
    exact (h1.cons b).trans (List.Perm.swap a b _)
  have hR : l.Perm (l.take n ++ (a :: b :: (l.drop (n + 1)).eraseIdx (s - n - 1))) := by
    conv_lhs => rw [hdec]
    apply List.Perm.append_left
    exact h2.cons a
  exact hL.trans hR.symm

theorem heapGetP_of_get? {α : Type} {l : List (ℚ × α)} {i : ℕ} {e : ℚ × α}
    (h : l.get? i = some e) : heapGetP l i = e.1 := by
  rw [heapGetP, h]
  rfl

theorem heapGetP_set {α : Type} (l : List (ℚ × α)) (i j : ℕ) (a : ℚ × α)
    (hi : i < l.length) :
    heapGetP (l.set i a) j = if j = i then a.1 else heapGetP l j := by
  by_cases h : j = i
  · subst h
    rw [if_pos rfl, heapGetP, List.get?_set_eq_of_lt a hi]
    rfl
  · rw [if_neg h, heapGetP, heapGetP, List.get?_set_ne a l (fun hc => h hc.symm)]

theorem heapGetP_append {α : Type} (l l2 : List (ℚ × α)) (j : ℕ)
    (h : j < l.length) : heapGetP (l ++ l2) j = heapGetP l j := by
  rw [heapGetP, heapGetP, List.get?_append h]

theorem bubbleUp_perm {α : Type} :
    ∀ (fuel : ℕ) (l : List (ℚ × α)) (j : ℕ), (bubbleUp fuel l j).Perm l := by
  intro fuel
  induction fuel with
  | zero =>
    intro l j
    cases j with
    | zero => rw [bubbleUp]
    | succ n => rw [bubbleUp]
  | succ fuel ih =>
    intro l j
    cases j with
    | zero => rw [bubbleUp]
    | succ n =>
      rw [bubbleUp]
      by_cases hn1 : n + 1 < l.length
      · have he : l.get? (n + 1) = some (l.get ⟨n + 1, hn1⟩) := List.get?_eq_get hn1
        have hpnlt : (n + 2) / 2 - 1 < l.length := by omega
        have hp : l.get? ((n + 2) / 2 - 1) =
            some (l.get ⟨(n + 2) / 2 - 1, hpnlt⟩) := List.get?_eq_get hpnlt
        rw [he, hp]
        dsimp only
        by_cases hge : (l.get ⟨n + 1, hn1⟩).1 ≥ (l.get ⟨(n + 2) / 2 - 1, hpnlt⟩).1
        · rw [if_pos hge]
        · rw [if_neg hge]
          refine (ih _ _).trans ?_
          exact swap_perm (by omega) hn1 hp he
      · have he : l.get? (n + 1) = none := List.get?_eq_none.mpr (by omega)
        rw [he]

theorem hpush_perm {α : Type} (l : List (ℚ × α)) (x : α) (pr : ℚ) :
    (hpush l x pr).Perm ((pr, x) :: l) := by
  rw [hpush]
  exact (bubbleUp_perm _ _ _).trans (List.perm_append_singleton _ _)

theorem sinkDown_perm {α : Type} :
    ∀ (fuel : ℕ) (l : List (ℚ × α)) (n : ℕ), (sinkDown fuel l n).Perm l := by
  intro fuel
  induction fuel with
  | zero => intro l n; rw [sinkDown]
  | succ fuel ih =>
    intro l n
    rw [sinkDown]
    by_cases hn : n < l.length
    · have he : l.get? n = some (l.get ⟨n, hn⟩) := List.get?_eq_get hn
      rw [he]
      dsimp only
      by_cases hc1 : (n + 1) * 2 - 1 < l.length
      · rw [if_pos hc1]
        by_cases hp1 : heapGetP l ((n + 1) * 2 - 1) < (l.get ⟨n, hn⟩).1
        · rw [if_pos hp1]
          by_cases hc2 : (n + 1) * 2 < l.length
          · rw [if_pos hc2]
            by_cases hpc : heapGetP l ((n + 1) * 2) < heapGetP l ((n + 1) * 2 - 1)
            · rw [if_pos hpc]
              dsimp only
              refine (ih _ _).trans ?_
              have hs : l.get? ((n + 1) * 2) =
                  some (l.get ⟨(n + 1) * 2, hc2⟩) := List.get?_eq_get hc2
              have hval : (l.get? ((n + 1) * 2)).getD (l.get ⟨n, hn⟩) =
                  l.get ⟨(n + 1) * 2, hc2⟩ := by rw [hs]; rfl
              rw [hval]
              exact swap_perm (by omega) hc2 he hs
            · rw [if_neg hpc]
              dsimp only
              refine (ih _ _).trans ?_
              have hs : l.get? ((n + 1) * 2 - 1) =
                  some (l.get ⟨(n + 1) * 2 - 1, hc1⟩) := List.get?_eq_get hc1
              have hval : (l.get? ((n + 1) * 2 - 1)).getD (l.get ⟨n, hn⟩) =
                  l.get ⟨(n + 1) * 2 - 1, hc1⟩ := by rw [hs]; rfl
              rw [hval]
              exact swap_perm (by omega) hc1 he hs
          · rw [if_neg hc2]
            dsimp only
            refine (ih _ _).trans ?_
            have hs : l.get? ((n + 1) * 2 - 1) =
                some (l.get ⟨(n + 1) * 2 - 1, hc1⟩) := List.get?_eq_get hc1
            have hval : (l.get? ((n + 1) * 2 - 1)).getD (l.get ⟨n, hn⟩) =
                l.get ⟨(n + 1) * 2 - 1, hc1⟩ := by rw [hs]; rfl
            rw [hval]
            exact swap_perm (by omega) hc1 he hs
        · rw [if_neg hp1]
          by_cases hc2 : (n + 1) * 2 < l.length
          · rw [if_pos hc2]
            by_cases hp2 : heapGetP l ((n + 1) * 2) < (l.get ⟨n, hn⟩).1
            · rw [if_pos hp2]
              dsimp only
              refine (ih _ _).trans ?_
              have hs : l.get? ((n + 1) * 2) =
                  some (l.get ⟨(n + 1) * 2, hc2⟩) := List.get?_eq_get hc2
              have hval : (l.get? ((n + 1) * 2)).getD (l.get ⟨n, hn⟩) =
                  l.get ⟨(n + 1) * 2, hc2⟩ := by rw [hs]; rfl
              rw [hval]
              exact swap_perm (by omega) hc2 he hs
            · rw [if_neg hp2]
          · rw [if_neg hc2]
      · rw [if_neg hc1]
        by_cases hc2 : (n + 1) * 2 < l.length
        · exact absurd hc2 (by omega)
        · rw [if_neg hc2]
    · have he : l.get? n = none := List.get?_eq_none.mpr (by omega)
      rw [he]

theorem hpop_perm {α : Type} (l : List (ℚ × α)) (top : ℚ × α)
    (rest : List (ℚ × α)) (h : hpop l = some (top, rest)) :
    l.Perm (top :: rest) := by
  cases l with
  | nil => cases h
  | cons t tl =>
    cases tl with
    | nil =>
      rw [hpop] at h
      rw [show ([t] : List (ℚ × α)).dropLast = [] from rfl] at h
      dsimp only at h
      rw [Option.some.injEq, Prod.mk.injEq] at h
      rw [← h.1, ← h.2]
    | cons t2 tl2 =>
      rw [hpop] at h
      rw [show (t :: t2 :: tl2).dropLast = t :: (t2 :: tl2).dropLast from rfl] at h
      dsimp only at h
      rw [Option.some.injEq, Prod.mk.injEq] at h
      obtain ⟨ht, hr⟩ := h
      subst ht
      rw [← hr]
      have hperm1 := sinkDown_perm ((t :: (t2 :: tl2).dropLast).length)
        ((t :: (t2 :: tl2).dropLast).set 0
          ((t :: t2 :: tl2).getLast (by simp))) 0
      have hset : (t :: (t2 :: tl2).dropLast).set 0
          ((t :: t2 :: tl2).getLast (by simp)) =
          (t :: t2 :: tl2).getLast (by simp) :: (t2 :: tl2).dropLast := rfl
      rw [hset] at hperm1
      apply List.Perm.trans ?_ ((hperm1.cons t).symm)
      have hdl : (t :: t2 :: tl2).dropLast ++ [(t :: t2 :: tl2).getLast (by simp)] =
          t :: t2 :: tl2 := List.dropLast_append_getLast (by simp)
      conv_lhs => rw [← hdl]
      rw [show (t :: t2 :: tl2).dropLast = t :: (t2 :: tl2).dropLast from rfl]
      rw [List.cons_append]
      apply List.Perm.cons
      exact List.perm_append_singleton _ _

theorem almostHeapUp_step {α : Type} (l : List (ℚ × α)) (n : ℕ)
    (hn1 : n + 1 < l.length) (hpnlt : (n + 2) / 2 - 1 < l.length)
    (hA : almostHeapUp l (n + 1))
    (hlt : (l.get ⟨n + 1, hn1⟩).1 < (l.get ⟨(n + 2) / 2 - 1, hpnlt⟩).1) :
    almostHeapUp ((l.set ((n + 2) / 2 - 1) (l.get ⟨n + 1, hn1⟩)).set (n + 1)
      (l.get ⟨(n + 2) / 2 - 1, hpnlt⟩)) ((n + 2) / 2 - 1) := by
  have hpn_lt : (n + 2) / 2 - 1 < n + 1 := by omega
  have hpar : parentIdx (n + 1) = (n + 2) / 2 - 1 := by rw [parentIdx]
  have heP : heapGetP l (n + 1) = (l.get ⟨n + 1, hn1⟩).1 :=
    heapGetP_of_get? (List.get?_eq_get hn1)
  have hpP : heapGetP l ((n + 2) / 2 - 1) = (l.get ⟨(n + 2) / 2 - 1, hpnlt⟩).1 :=
    heapGetP_of_get? (List.get?_eq_get hpnlt)
  have hlen1 : (l.set ((n + 2) / 2 - 1) (l.get ⟨n + 1, hn1⟩)).length = l.length := by
    rw [List.length_set]
  have hgA : heapGetP ((l.set ((n + 2) / 2 - 1) (l.get ⟨n + 1, hn1⟩)).set (n + 1)
      (l.get ⟨(n + 2) / 2 - 1, hpnlt⟩)) (n + 1) = (l.get ⟨(n + 2) / 2 - 1, hpnlt⟩).1 := by
    rw [heapGetP_set _ _ _ _ (by rw [hlen1]; exact hn1), if_pos rfl]
  have hgB : heapGetP ((l.set ((n + 2) / 2 - 1) (l.get ⟨n + 1, hn1⟩)).set (n + 1)
      (l.get ⟨(n + 2) / 2 - 1, hpnlt⟩)) ((n + 2) / 2 - 1) = (l.get ⟨n + 1, hn1⟩).1 := by
    rw [heapGetP_set _ _ _ _ (by rw [hlen1]; exact hn1), if_neg (by omega),
      heapGetP_set _ _ _ _ hpnlt, if_pos rfl]
  have hgC : ∀ j, j ≠ n + 1 → j ≠ (n + 2) / 2 - 1 →
      heapGetP ((l.set ((n + 2) / 2 - 1) (l.get ⟨n + 1, hn1⟩)).set (n + 1)
        (l.get ⟨(n + 2) / 2 - 1, hpnlt⟩)) j = heapGetP l j := by
    intro j h1 h2
    rw [heapGetP_set _ _ _ _ (by rw [hlen1]; exact hn1), if_neg h1,
      heapGetP_set _ _ _ _ hpnlt, if_neg h2]
  have hlen2 : ((l.set ((n + 2) / 2 - 1) (l.get ⟨n + 1, hn1⟩)).set (n + 1)
      (l.get ⟨(n + 2) / 2 - 1, hpnlt⟩)).length = l.length := by
    rw [List.length_set, hlen1]
  constructor
  · intro i h1i h2i hne
    rw [hlen2] at h2i
    by_cases hi1 : i = n + 1
    · subst hi1
      rw [hpar, hgA, hgB]
      exact le_of_lt hlt
    · by_cases hpi1 : parentIdx i = n + 1
      · rw [hpi1, hgA, hgC i hi1 hne]
        have h2 := hA.2 (by omega) i h2i hpi1
        rw [hpar, hpP] at h2
        exact h2
      · by_cases hpi2 : parentIdx i = (n + 2) / 2 - 1
        · rw [hpi2, hgB, hgC i hi1 hne]
          have h2 := hA.1 i h1i h2i hi1
          rw [hpi2, hpP] at h2
          have := hlt.trans_le h2
          exact le_of_lt this
        · rw [hgC (parentIdx i) hpi1 hpi2, hgC i hi1 hne]
          exact hA.1 i h1i h2i hi1
  · intro hpn1 c hc hpc
    rw [hlen2] at hc
    have hplt : parentIdx ((n + 2) / 2 - 1) < (n + 2) / 2 - 1 := by
      rw [parentIdx]
      omega
    have hpcn := hpc
    rw [parentIdx] at hpcn
    have hc0 : 1 ≤ c := by omega
    have hcgt : (n + 2) / 2 - 1 < c := by omega
    rw [hgC (parentIdx ((n + 2) / 2 - 1)) (by omega) (by omega)]
    by_cases hc1 : c = n + 1
    · subst hc1
      rw [hgA]
      have h2 := hA.1 ((n + 2) / 2 - 1) hpn1 (by omega) (by omega)
      rw [hpP] at h2
      exact h2
    · rw [hgC c hc1 (by omega)]
      have h2 := hA.1 ((n + 2) / 2 - 1) hpn1 (by omega) (by omega)
      rw [hpP] at h2
      have h3 := hA.1 c hc0 hc hc1
      rw [hpc, hpP] at h3
      exact h2.trans h3

theorem bubbleUp_heap {α : Type} :
    ∀ (fuel : ℕ) (l : List (ℚ × α)) (j : ℕ), j ≤ fuel →
      almostHeapUp l j → heapProp (bubbleUp fuel l j) := by
  intro fuel
  induction fuel with
  | zero =>
    intro l j hj hA
    have hj0 : j = 0 := by omega
    subst hj0
    rw [bubbleUp]
    intro i h1 h2
    exact hA.1 i h1 h2 (by omega)
  | succ fuel ih =>
    intro l j hj hA
    cases j with
    | zero =>
      rw [bubbleUp]
      intro i h1 h2
      exact hA.1 i h1 h2 (by omega)
    | succ n =>
      rw [bubbleUp]
      by_cases hn1 : n + 1 < l.length
      · have he : l.get? (n + 1) = some (l.get ⟨n + 1, hn1⟩) := List.get?_eq_get hn1
        have hpnlt : (n + 2) / 2 - 1 < l.length := by omega
        have hp : l.get? ((n + 2) / 2 - 1) =
            some (l.get ⟨(n + 2) / 2 - 1, hpnlt⟩) := List.get?_eq_get hpnlt
        rw [he, hp]
        dsimp only
        by_cases hge : (l.get ⟨n + 1, hn1⟩).1 ≥ (l.get ⟨(n + 2) / 2 - 1, hpnlt⟩).1
        · rw [if_pos hge]
          intro i h1 h2
          by_cases hi : i = n + 1
          · subst hi
            have hpar : parentIdx (n + 1) = (n + 2) / 2 - 1 := by rw [parentIdx]
            rw [hpar, heapGetP_of_get? hp, heapGetP_of_get? he]
            exact hge
          · exact hA.1 i h1 h2 hi
        · rw [if_neg hge]
          exact ih _ _ (by omega)
            (almostHeapUp_step l n hn1 hpnlt hA (not_le.mp hge))
      · have he : l.get? (n + 1) = none := List.get?_eq_none.mpr (by omega)
        rw [he]
        show heapProp l
        intro i h1 h2
        exact hA.1 i h1 h2 (by omega)

theorem hpush_heap {α : Type} (l : List (ℚ × α)) (x : α) (pr : ℚ)
    (h : heapProp l) : heapProp (hpush l x pr) := by
  rw [hpush]
  apply bubbleUp_heap _ _ _ le_rfl
  constructor
  · intro i h1 h2 hne
    rw [List.length_append, List.length_singleton] at h2
    have hi : i < l.length := by omega
    have hpar : parentIdx i < i := by rw [parentIdx]; omega
    rw [heapGetP_append _ _ _ hi, heapGetP_append _ _ _ (by omega)]
    exact h i h1 hi
  · intro h1 c hc hpc
    exfalso
    rw [parentIdx] at hpc
    rw [List.length_append, List.length_singleton] at hc
    omega

theorem almostHeapDown_swap {α : Type} (l : List (ℚ × α)) (n s : ℕ)
    (element : ℚ × α) (hel : l.get? n = some element)
    (hs : s < l.length) (hsn : parentIdx s = n) (hns : n < s)
    (hlt : heapGetP l s < element.1)
    (hother : ∀ c, c < l.length → parentIdx c = n → c ≠ s → c ≠ n →
      heapGetP l s ≤ heapGetP l c)
    (hA : almostHeapDown l n) :
    almostHeapDown ((l.set n ((l.get? s).getD element)).set s element) s := by
  have hn : n < l.length := (List.get?_eq_some.mp hel).1
  have hels : heapGetP l n = element.1 := heapGetP_of_get? hel
  have hsv : l.get? s = some (l.get ⟨s, hs⟩) := List.get?_eq_get hs
  have hvalS : (l.get? s).getD element = l.get ⟨s, hs⟩ := by rw [hsv]; rfl
  have hsP : heapGetP l s = (l.get ⟨s, hs⟩).1 := heapGetP_of_get? hsv
  have hlen1 : (l.set n ((l.get? s).getD element)).length = l.length := by
    rw [List.length_set]
  have hgS : heapGetP ((l.set n ((l.get? s).getD element)).set s element) s
      = element.1 := by
    rw [heapGetP_set _ _ _ _ (by rw [hlen1]; exact hs), if_pos rfl]
  have hgN : heapGetP ((l.set n ((l.get? s).getD element)).set s element) n
      = heapGetP l s := by
    rw [heapGetP_set _ _ _ _ (by rw [hlen1]; exact hs), if_neg (by omega),
      heapGetP_set _ _ _ _ hn, if_pos rfl, hvalS, hsP]
  have hgO : ∀ j, j ≠ n → j ≠ s →
      heapGetP ((l.set n ((l.get? s).getD element)).set s element) j
        = heapGetP l j := by
    intro j hjn hjs
    rw [heapGetP_set _ _ _ _ (by rw [hlen1]; exact hs), if_neg hjs,
      heapGetP_set _ _ _ _ hn, if_neg hjn]
  have hlen2 : ((l.set n ((l.get? s).getD element)).set s element).length
      = l.length := by
    rw [List.length_set, hlen1]
  constructor
  · intro i h1i h2i hpi
    rw [hlen2] at h2i
    by_cases hieq : i = s
    · subst hieq
      rw [hsn, hgS, hgN]
      exact le_of_lt hlt
    · by_cases hin : i = n
      · subst hin
        have hplt : parentIdx i < i := by rw [parentIdx]; omega
        rw [hgO (parentIdx i) (by omega) (by omega), hgN]
        exact hA.2 h1i s hs hsn
      · by_cases hpin : parentIdx i = n
        · rw [hpin, hgN, hgO i hin hieq]
          exact hother i h2i hpin hieq hin
        · rw [hgO (parentIdx i) hpin hpi, hgO i hin hieq]
          exact hA.1 i h1i h2i hpin
  · intro hs1 c hc hpc
    rw [hlen2] at hc
    have hpcn := hpc
    rw [parentIdx] at hpcn
    have hc0 : 1 ≤ c := by omega
    have hcgt : s < c := by omega
    rw [hsn, hgN, hgO c (by omega) (by omega)]
    have h2 := hA.1 c hc0 hc (by rw [hpc]; omega)
    rw [hpc] at h2
    exact h2

theorem sinkDown_heap {α : Type} :
    ∀ (fuel : ℕ) (l : List (ℚ × α)) (n : ℕ), l.length ≤ fuel + n →
      almostHeapDown l n → heapProp (sinkDown fuel l n) := by
  intro fuel
  induction fuel with
  | zero =>
    intro l n hlen hA
    rw [sinkDown]
    intro i h1 h2
    apply hA.1 i h1 h2
    have hpar : parentIdx i < i := by rw [parentIdx]; omega
    omega
  | succ fuel ih =>
    intro l n hlen hA
    rw [sinkDown]
    by_cases hn : n < l.length
    · have he : l.get? n = some (l.get ⟨n, hn⟩) := List.get?_eq_get hn
      rw [he]
      dsimp only
      by_cases hc1 : (n + 1) * 2 - 1 < l.length
      · rw [if_pos hc1]
        by_cases hp1 : heapGetP l ((n + 1) * 2 - 1) < (l.get ⟨n, hn⟩).1
        · rw [if_pos hp1]
          by_cases hc2 : (n + 1) * 2 < l.length
          · rw [if_pos hc2]
            by_cases hpc : heapGetP l ((n + 1) * 2) < heapGetP l ((n + 1) * 2 - 1)
            · rw [if_pos hpc]
              dsimp only
              apply ih _ _ (by rw [List.length_set, List.length_set]; omega)
              apply almostHeapDown_swap l n ((n + 1) * 2) (l.get ⟨n, hn⟩) he hc2
                (by rw [parentIdx]; omega) (by omega)
                (hpc.trans hp1)
                (by
                  intro c hcl hpcc hcne hcnn
                  have hpcn := hpcc
                  rw [parentIdx] at hpcn
                  have hcc : c = (n + 1) * 2 - 1 := by omega
                  rw [hcc]
                  exact le_of_lt hpc)
                hA
            · rw [if_neg hpc]
              dsimp only
              apply ih _ _ (by rw [List.length_set, List.length_set]; omega)
              apply almostHeapDown_swap l n ((n + 1) * 2 - 1) (l.get ⟨n, hn⟩) he hc1
                (by rw [parentIdx]; omega) (by omega)
                hp1
                (by
                  intro c hcl hpcc hcne hcnn
                  have hpcn := hpcc
                  rw [parentIdx] at hpcn
                  have hcc : c = (n + 1) * 2 := by omega
                  rw [hcc]
                  exact not_lt.mp hpc)
                hA
          · rw [if_neg hc2]
            dsimp only
            apply ih _ _ (by rw [List.length_set, List.length_set]; omega)
            apply almostHeapDown_swap l n ((n + 1) * 2 - 1) (l.get ⟨n, hn⟩) he hc1
              (by rw [parentIdx]; omega) (by omega)
              hp1
              (by
                intro c hcl hpcc hcne hcnn
                exfalso
                have hpcn := hpcc
                rw [parentIdx] at hpcn
                omega)
              hA
        · rw [if_neg hp1]
          by_cases hc2 : (n + 1) * 2 < l.length
          · rw [if_pos hc2]
            by_cases hp2 : heapGetP l ((n + 1) * 2) < (l.get ⟨n, hn⟩).1
            · rw [if_pos hp2]
              dsimp only
              apply ih _ _ (by rw [List.length_set, List.length_set]; omega)
              apply almostHeapDown_swap l n ((n + 1) * 2) (l.get ⟨n, hn⟩) he hc2
                (by rw [parentIdx]; omega) (by omega)
                hp2
                (by
                  intro c hcl hpcc hcne hcnn
                  have hpcn := hpcc
                  rw [parentIdx] at hpcn
                  have hcc : c = (n + 1) * 2 - 1 := by omega
                  rw [hcc]
                  exact le_of_lt (lt_of_lt_of_le hp2 (not_lt.mp hp1)))
                hA
            · rw [if_neg hp2]
              show heapProp l
              intro i h1 h2
              by_cases hpi : parentIdx i = n
              · have hpcn := hpi
                rw [parentIdx] at hpcn
                rw [hpi, heapGetP_of_get? he]
                have hii : i = (n + 1) * 2 - 1 ∨ i = (n + 1) * 2 := by omega
                rcases hii with hii | hii
                · rw [hii]
                  exact not_lt.mp hp1
                · rw [hii]
                  exact not_lt.mp hp2
              · exact hA.1 i h1 h2 hpi
          · rw [if_neg hc2]
            show heapProp l
            intro i h1 h2
            by_cases hpi : parentIdx i = n
            · have hpcn := hpi
              rw [parentIdx] at hpcn
              rw [hpi, heapGetP_of_get? he]
              have hii : i = (n + 1) * 2 - 1 := by omega
              rw [hii]
              exact not_lt.mp hp1
            · exact hA.1 i h1 h2 hpi
      · rw [if_neg hc1]
        by_cases hc2 : (n + 1) * 2 < l.length
        · exact absurd hc2 (by omega)
        · rw [if_neg hc2]
          show heapProp l
          intro i h1 h2
          by_cases hpi : parentIdx i = n
          · exfalso
            have hpcn := hpi
            rw [parentIdx] at hpcn
            omega
          · exact hA.1 i h1 h2 hpi
    · have he : l.get? n = none := List.get?_eq_none.mpr (by omega)
      rw [he]
      show heapProp l
      intro i h1 h2
      apply hA.1 i h1 h2
      have hpar : parentIdx i < i := by rw [parentIdx]; omega
      omega

theorem heap_min {α : Type} (l : List (ℚ × α)) (h : heapProp l) :
    ∀ i, i < l.length → heapGetP l 0 ≤ heapGetP l i := by
  intro i
  induction i using Nat.strong_induction_on with
  | _ i ih =>
    intro hi
    rcases Nat.eq_zero_or_pos i with h0 | h1
    · subst h0
      exact le_refl _
    · have hp : parentIdx i < i := by rw [parentIdx]; omega
      exact le_trans (ih (parentIdx i) hp (by omega)) (h i h1 hi)

theorem heap_min_mem {α : Type} {l : List (ℚ × α)} (hp : heapProp l)
    {en : ℚ × α} (hm : en ∈ l) : heapGetP l 0 ≤ en.1 := by
  obtain ⟨i, hi⟩ := List.mem_iff_get.mp hm
  have hg : l.get? i.1 = some en := by
    rw [← hi]
    exact List.get?_eq_get i.2
  have h2 := heap_min l hp i.1 i.2
  rw [heapGetP_of_get? hg] at h2
  exact h2

theorem hpop_head {α : Type} {l : List (ℚ × α)} {top : ℚ × α}
    {rest : List (ℚ × α)} (h : hpop l = some (top, rest)) :
    l.get? 0 = some top := by
  cases l with
  | nil => cases h
  | cons t tl =>
    cases tl with
    | nil =>
      rw [hpop] at h
      rw [show ([t] : List (ℚ × α)).dropLast = [] from rfl] at h
      dsimp only at h
      rw [Option.some.injEq, Prod.mk.injEq] at h
      rw [List.get?_cons_zero, h.1]
    | cons t2 tl2 =>
      rw [hpop] at h
      rw [show (t :: t2 :: tl2).dropLast = t :: (t2 :: tl2).dropLast from rfl] at h
      dsimp only at h
      rw [Option.some.injEq, Prod.mk.injEq] at h
      rw [List.get?_cons_zero, h.1]

theorem hpop_min {α : Type} {l : List (ℚ × α)} {top : ℚ × α}
    {rest : List (ℚ × α)} (hp : heapProp l) (h : hpop l = some (top, rest)) :
    ∀ en ∈ rest, top.1 ≤ en.1 := by
  intro en hen
  have hperm := hpop_perm l top rest h
  have hmem : en ∈ l := hperm.mem_iff.mpr (List.mem_cons_of_mem _ hen)
  have h2 := heap_min_mem hp hmem
  rw [heapGetP_of_get? (hpop_head h)] at h2
  exact h2

theorem hpop_heap {α : Type} {l : List (ℚ × α)} {top : ℚ × α}
    {rest : List (ℚ × α)} (hp : heapProp l) (h : hpop l = some (top, rest)) :
    heapProp rest := by
  cases l with
  | nil => cases h
  | cons t tl =>
    cases tl with
    | nil =>
      rw [hpop] at h
      rw [show ([t] : List (ℚ × α)).dropLast = [] from rfl] at h
      dsimp only at h
      rw [Option.some.injEq, Prod.mk.injEq] at h
      rw [← h.2]
      intro i h1 h2
      simp at h2
    | cons t2 tl2 =>
      rw [hpop] at h
      rw [show (t :: t2 :: tl2).dropLast = t :: (t2 :: tl2).dropLast from rfl] at h
      dsimp only at h
      rw [Option.some.injEq, Prod.mk.injEq] at h
      obtain ⟨ht, hr⟩ := h
      rw [← hr]
      apply sinkDown_heap _ _ 0 (by rw [List.length_set]; omega)
      constructor
      · intro i h1i h2i hpi
        rw [List.length_set] at h2i
        have hgi : heapGetP ((t :: (t2 :: tl2).dropLast).set 0
            ((t :: t2 :: tl2).getLast (by simp))) i =
            heapGetP (t :: (t2 :: tl2).dropLast) i := by
          rw [heapGetP_set _ _ _ _ (by simp), if_neg (by omega)]
        have hgp : heapGetP ((t :: (t2 :: tl2).dropLast).set 0
            ((t :: t2 :: tl2).getLast (by simp))) (parentIdx i) =
            heapGetP (t :: (t2 :: tl2).dropLast) (parentIdx i) := by
          rw [heapGetP_set _ _ _ _ (by simp), if_neg hpi]
        rw [hgi, hgp]
        have hsub : ∀ j, j < (t :: (t2 :: tl2).dropLast).length →
            heapGetP (t :: (t2 :: tl2).dropLast) j = heapGetP (t :: t2 :: tl2) j := by
          intro j hj
          rw [heapGetP, heapGetP]
          have hdl : (t :: (t2 :: tl2).dropLast) = (t :: t2 :: tl2).dropLast := rfl
          rw [hdl, List.dropLast_eq_take, List.get?_take (by
            rw [hdl, List.length_dropLast] at hj
            omega)]
        have hpar : parentIdx i < i := by rw [parentIdx]; omega
        rw [hsub i h2i, hsub (parentIdx i) (by omega)]
        apply hp i h1i
        have : (t :: (t2 :: tl2).dropLast).length = (t :: t2 :: tl2).length - 1 := by
          rw [show (t :: (t2 :: tl2).dropLast) = (t :: t2 :: tl2).dropLast from rfl,
            List.length_dropLast]
        rw [this] at h2i
        omega
      · intro h0
        exact absurd h0 (by omega)

theorem distToBoxSq_nonneg (p : Pt) (b : BBox) : 0 ≤ distToBoxSq p b := by
  rw [distToBoxSq]
  exact add_nonneg (mul_self_nonneg _) (mul_self_nonneg _)

theorem distToBoxSq_anti (p : Pt) {a b : BBox} (hwa : wfBBox a = true)
    (h : bboxSub a b = true) :
    distToBoxSq p b ≤ distToBoxSq p a := by
  simp only [bboxSub, Bool.and_eq_true, decide_eq_true_eq] at h
  simp only [wfBBox, Bool.and_eq_true, decide_eq_true_eq] at hwa
  obtain ⟨h5, h6⟩ := hwa
  obtain ⟨⟨⟨h1, h2⟩, h3⟩, h4⟩ := h
  rw [distToBoxSq, distToBoxSq]
  have hx0 : 0 ≤ (if p.x < b.minX then b.minX - p.x
      else if p.x > b.maxX then p.x - b.maxX else 0) := by
    split_ifs <;> linarith
  have hy0 : 0 ≤ (if p.y < b.minY then b.minY - p.y
      else if p.y > b.maxY then p.y - b.maxY else 0) := by
    split_ifs <;> linarith
  have hx : (if p.x < b.minX then b.minX - p.x
      else if p.x > b.maxX then p.x - b.maxX else 0) ≤
      (if p.x < a.minX then a.minX - p.x else if p.x > a.maxX then p.x - a.maxX
        else 0) := by
    split_ifs <;> linarith
  have hy : (if p.y < b.minY then b.minY - p.y
      else if p.y > b.maxY then p.y - b.maxY else 0) ≤
      (if p.y < a.minY then a.minY - p.y else if p.y > a.maxY then p.y - a.maxY
        else 0) := by
    split_ifs <;> linarith
  exact add_le_add (mul_le_mul hx hx hx0 (le_trans hx0 hx))
    (mul_le_mul hy hy hy0 (le_trans hy0 hy))

theorem pointToBBoxDistance_eq (msqrt : ℚ → ℚ) (p : Pt) (b : BBox) :
    pointToBBoxDistance msqrt p b = msqrt (distToBoxSq p b) := rfl

theorem pqeWeight_pos (e : PQE) : 1 ≤ pqeWeight e := by
  cases e with
  | node n _ => exact nodeWeight_pos n
  | item _ _ _ => exact le_refl 1

theorem heapWeight_nil_of_zero {pq : List (ℚ × PQE)} (h : heapWeight pq = 0) :
    pq = [] := by
  cases pq with
  | nil => rfl
  | cons e rest =>
    exfalso
    rw [heapWeight, List.map_cons, List.sum_cons] at h
    have := pqeWeight_pos e.2
    omega

theorem heapWeight_perm {pq1 pq2 : List (ℚ × PQE)} (h : pq1.Perm pq2) :
    heapWeight pq1 = heapWeight pq2 := (h.map _).sum_eq

theorem qItems_perm {pq1 pq2 : List (ℚ × PQE)} (h : pq1.Perm pq2) :
    qItems pq1 = qItems pq2 := (h.map _).sum_eq

theorem heapWeight_append (a b : List (ℚ × PQE)) :
    heapWeight (a ++ b) = heapWeight a + heapWeight b := by
  rw [heapWeight, heapWeight, heapWeight, List.map_append, List.sum_append]

theorem qItems_append (a b : List (ℚ × PQE)) :
    qItems (a ++ b) = qItems a + qItems b := by
  rw [qItems, qItems, qItems, List.map_append, List.sum_append]

theorem heapWeight_cons (e : ℚ × PQE) (rest : List (ℚ × PQE)) :
    heapWeight (e :: rest) = pqeWeight e.2 + heapWeight rest := by
  rw [heapWeight, heapWeight, List.map_cons, List.sum_cons]

theorem qItems_cons (e : ℚ × PQE) (rest : List (ℚ × PQE)) :
    qItems (e :: rest) = pqeItems e.2 + qItems rest := by
  rw [qItems, qItems, List.map_cons, List.sum_cons]

theorem countItems_eq_leafLen (n : RNode) :
    countItems n = (leafEntries n).length := by
  rw [countItems, itemsOf, List.length_map]

theorem foldl_push_item_perm (msqrt : ℚ → ℚ) (p : Pt) :
    ∀ (es : List (BBox × SItem)) (pq : List (ℚ × PQE)),
      (es.foldl (fun acc e =>
        let d := pointToBBoxDistance msqrt p e.1
        hpush acc (PQE.item e.2 e.1 d) d) pq).Perm
        (es.map (fun e => (pointToBBoxDistance msqrt p e.1,
          PQE.item e.2 e.1 (pointToBBoxDistance msqrt p e.1))) ++ pq) := by
  intro es
  induction es with
  | nil =>
    intro pq
    rw [List.foldl_nil, List.map_nil, List.nil_append]
  | cons e rest ih =>
    intro pq
    rw [List.foldl_cons, List.map_cons]
    refine (ih _).trans ?_
    have h1 : (hpush pq (PQE.item e.2 e.1 (pointToBBoxDistance msqrt p e.1))
        (pointToBBoxDistance msqrt p e.1)).Perm
        ((pointToBBoxDistance msqrt p e.1,
          PQE.item e.2 e.1 (pointToBBoxDistance msqrt p e.1)) :: pq) :=
      hpush_perm _ _ _
    exact ((List.Perm.append_left _ h1).trans List.perm_middle).trans
      (by rw [List.cons_append])

theorem foldl_push_node_perm (msqrt : ℚ → ℚ) (p : Pt) :
    ∀ (es : List (BBox × RNode)) (pq : List (ℚ × PQE)),
      (es.foldl (fun acc e =>
        let d := pointToBBoxDistance msqrt p e.1
        hpush acc (PQE.node e.2 d) d) pq).Perm
        (es.map (fun e => (pointToBBoxDistance msqrt p e.1,
          PQE.node e.2 (pointToBBoxDistance msqrt p e.1))) ++ pq) := by
  intro es
  induction es with
  | nil =>
    intro pq
    rw [List.foldl_nil, List.map_nil, List.nil_append]
  | cons e rest ih =>
    intro pq
    rw [List.foldl_cons, List.map_cons]
    refine (ih _).trans ?_
    have h1 : (hpush pq (PQE.node e.2 (pointToBBoxDistance msqrt p e.1))
        (pointToBBoxDistance msqrt p e.1)).Perm
        ((pointToBBoxDistance msqrt p e.1,
          PQE.node e.2 (pointToBBoxDistance msqrt p e.1)) :: pq) :=
      hpush_perm _ _ _
    exact ((List.Perm.append_left _ h1).trans List.perm_middle).trans
      (by rw [List.cons_append])

theorem foldl_push_item_heap (msqrt : ℚ → ℚ) (p : Pt) :
    ∀ (es : List (BBox × SItem)) (pq : List (ℚ × PQE)), heapProp pq →
      heapProp (es.foldl (fun acc e =>
        let d := pointToBBoxDistance msqrt p e.1
        hpush acc (PQE.item e.2 e.1 d) d) pq) := by
  intro es
  induction es with
  | nil => intro pq h; exact h
  | cons e rest ih =>
    intro pq h
    rw [List.foldl_cons]
    exact ih _ (hpush_heap _ _ _ h)

theorem foldl_push_node_heap (msqrt : ℚ → ℚ) (p : Pt) :
    ∀ (es : List (BBox × RNode)) (pq : List (ℚ × PQE)), heapProp pq →
      heapProp (es.foldl (fun acc e =>
        let d := pointToBBoxDistance msqrt p e.1
        hpush acc (PQE.node e.2 d) d) pq) := by
  intro es
  induction es with
  | nil => intro pq h; exact h
  | cons e rest ih =>
    intro pq h
    rw [List.foldl_cons]
    exact ih _ (hpush_heap _ _ _ h)

theorem pushEntries_perm (msqrt : ℚ → ℚ) (p : Pt) (pq : List (ℚ × PQE)) :
    ∀ n : RNode,
      (pushEntries msqrt p pq n).Perm
        ((match n with
          | .leaf es => es.map (fun e => (pointToBBoxDistance msqrt p e.1,
              PQE.item e.2 e.1 (pointToBBoxDistance msqrt p e.1)))
          | .inner es => es.map (fun e => (pointToBBoxDistance msqrt p e.1,
              PQE.node e.2 (pointToBBoxDistance msqrt p e.1)))) ++ pq) := by
  intro n
  cases n with
  | leaf es =>
    rw [pushEntries]
    exact foldl_push_item_perm msqrt p es pq
  | inner es =>
    rw [pushEntries]
    exact foldl_push_node_perm msqrt p es pq

theorem pushEntries_heap (msqrt : ℚ → ℚ) (p : Pt) (pq : List (ℚ × PQE))
    (n : RNode) (h : heapProp pq) : heapProp (pushEntries msqrt p pq n) := by
  cases n with
  | leaf es =>
    rw [pushEntries]
    exact foldl_push_item_heap msqrt p es pq h
  | inner es =>
    rw [pushEntries]
    exact foldl_push_node_heap msqrt p es pq h

theorem sum_pqeWeight_leaf (msqrt : ℚ → ℚ) (p : Pt)
    (es : List (BBox × SItem)) :
    heapWeight (es.map (fun e => (pointToBBoxDistance msqrt p e.1,
      PQE.item e.2 e.1 (pointToBBoxDistance msqrt p e.1)))) = es.length := by
  induction es with
  | nil => rfl
  | cons e rest ih =>
    rw [List.map_cons, heapWeight_cons, ih]
    show 1 + rest.length = (e :: rest).length
    rw [List.length_cons]
    omega

theorem sum_pqeWeight_inner (msqrt : ℚ → ℚ) (p : Pt)
    (es : List (BBox × RNode)) :
    heapWeight (es.map (fun e => (pointToBBoxDistance msqrt p e.1,
      PQE.node e.2 (pointToBBoxDistance msqrt p e.1)))) = nodeWeightL es := by
  induction es with
  | nil => rfl
  | cons e rest ih =>
    obtain ⟨b, c⟩ := e
    rw [List.map_cons, heapWeight_cons, ih, nodeWeightL]
    rfl

theorem sum_pqeItems_leaf (msqrt : ℚ → ℚ) (p : Pt)
    (es : List (BBox × SItem)) :
    qItems (es.map (fun e => (pointToBBoxDistance msqrt p e.1,
      PQE.item e.2 e.1 (pointToBBoxDistance msqrt p e.1)))) = es.length := by
  induction es with
  | nil => rfl
  | cons e rest ih =>
    rw [List.map_cons, qItems_cons, ih]
    show 1 + rest.length = (e :: rest).length
    rw [List.length_cons]
    omega

theorem sum_pqeItems_inner (msqrt : ℚ → ℚ) (p : Pt)
    (es : List (BBox × RNode)) :
    qItems (es.map (fun e => (pointToBBoxDistance msqrt p e.1,
      PQE.node e.2 (pointToBBoxDistance msqrt p e.1)))) =
      (leafEntriesL es).length := by
  induction es with
  | nil => rfl
  | cons e rest ih =>
    obtain ⟨b, c⟩ := e
    rw [List.map_cons, qItems_cons, ih, leafEntriesL, List.length_append]
    show countItems c + (leafEntriesL rest).length =
      (leafEntries c).length + (leafEntriesL rest).length
    rw [countItems_eq_leafLen]

theorem pushEntries_weight (msqrt : ℚ → ℚ) (p : Pt) (pq : List (ℚ × PQE))
    (n : RNode) :
    heapWeight (pushEntries msqrt p pq n) + 1 = heapWeight pq + nodeWeight n := by
  have hperm := heapWeight_perm (pushEntries_perm msqrt p pq n)
  cases n with
  | leaf es =>
    rw [hperm, heapWeight_append, sum_pqeWeight_leaf, nodeWeight]
    omega
  | inner es =>
    rw [hperm, heapWeight_append, sum_pqeWeight_inner, nodeWeight]
    omega

theorem pushEntries_items (msqrt : ℚ → ℚ) (p : Pt) (pq : List (ℚ × PQE))
    (n : RNode) :
    qItems (pushEntries msqrt p pq n) = qItems pq + countItems n := by
  have hperm := qItems_perm (pushEntries_perm msqrt p pq n)
  cases n with
  | leaf es =>
    rw [hperm, qItems_append, sum_pqeItems_leaf, countItems_eq_leafLen]
    rw [show leafEntries (RNode.leaf es) = es from rfl]
    omega
  | inner es =>
    rw [hperm, qItems_append, sum_pqeItems_inner, countItems_eq_leafLen]
    rw [show leafEntries (RNode.inner es) = leafEntriesL es from rfl]
    omega

theorem pushEntries_ok (msqrt : ℚ → ℚ) (p : Pt)
    (hmono : ∀ a b : ℚ, 0 ≤ a → a ≤ b → msqrt a ≤ msqrt b)
    (pq : List (ℚ × PQE)) (n : RNode) (d : ℚ)
    (hok : nodeOK n = true)
    (hbound : ∀ bb ∈ nodeEntryBoxes n, d ≤ pointToBBoxDistance msqrt p bb) :
    ∀ en ∈ pushEntries msqrt p pq n,
      en ∈ pq ∨ (pqeOK msqrt p en ∧ d ≤ en.1) := by
  intro en hen
  have hmem := (pushEntries_perm msqrt p pq n).mem_iff.mp hen
  rcases List.mem_append.mp hmem with hm | hm
  · right
    cases n with
    | leaf es =>
      obtain ⟨e, he, hee⟩ := List.mem_map.mp hm
      rw [← hee]
      have hprop := nodeOK_leaf_entries (.leaf es) hok e (by
        rw [show leafEntries (RNode.leaf es) = es from rfl]
        exact he)
      constructor
      · exact ⟨rfl, by rw [hprop.1], hprop.1.symm ▸ rfl⟩
      · apply hbound
        rw [show nodeEntryBoxes (RNode.leaf es) = es.map Prod.fst from rfl]
        exact List.mem_map_of_mem _ he
    | inner es =>
      obtain ⟨e, he, hee⟩ := List.mem_map.mp hm
      obtain ⟨eb, ec⟩ := e
      rw [← hee]
      have hok2 := hok
      rw [nodeOK] at hok2
      simp only [Bool.and_eq_true] at hok2
      obtain ⟨hwfb, hsubb, hcne, hcok⟩ := entriesOK_mem hok2.2 he
      constructor
      · refine ⟨rfl, hcok, ?_⟩
        intro bb hbb
        rw [pointToBBoxDistance_eq, pointToBBoxDistance_eq]
        exact hmono _ _ (distToBoxSq_nonneg _ _)
          (distToBoxSq_anti p (nodeOK_boxes_wf ec hcok bb hbb) (hsubb bb hbb))
      · apply hbound
        rw [show nodeEntryBoxes (RNode.inner es) = es.map Prod.fst from rfl]
        exact List.mem_map_of_mem _ he
  · exact Or.inl hm

theorem hpop_none {pq : List (ℚ × PQE)} (h : hpop pq = none) : pq = [] := by
  cases pq with
  | nil => rfl
  | cons t tl =>
    exfalso
    cases tl with
    | nil =>
      rw [hpop] at h
      rw [show ([t] : List (ℚ × PQE)).dropLast = [] from rfl] at h
      dsimp only at h
      cases h
    | cons t2 tl2 =>
      rw [hpop] at h
      rw [show (t :: t2 :: tl2).dropLast = t :: (t2 :: tl2).dropLast from rfl] at h
      dsimp only at h
      cases h

theorem nearestLoop_invariant (msqrt : ℚ → ℚ) (p : Pt) (k : ℕ)
    (hmono : ∀ a b : ℚ, 0 ≤ a → a ≤ b → msqrt a ≤ msqrt b) :
    ∀ (fuel : ℕ) (pq : List (ℚ × PQE)) (result : List SItem),
      heapWeight pq ≤ fuel →
      heapProp pq →
      (∀ en ∈ pq, pqeOK msqrt p en) →
      (∀ r ∈ result, ∀ en ∈ pq,
        pointToBBoxDistance msqrt p (itemInsertBBox r) ≤ en.1) →
      result.Pairwise (fun r1 r2 =>
        pointToBBoxDistance msqrt p (itemInsertBBox r1) ≤
          pointToBBoxDistance msqrt p (itemInsertBBox r2)) →
      result.length ≤ k →
      (nearestLoop msqrt p k fuel pq result).length =
        min k (result.length + qItems pq) ∧
      (nearestLoop msqrt p k fuel pq result).Pairwise (fun r1 r2 =>
        pointToBBoxDistance msqrt p (itemInsertBBox r1) ≤
          pointToBBoxDistance msqrt p (itemInsertBBox r2)) := by
  intro fuel
  induction fuel with
  | zero =>
    intro pq result hw hp hok hbd hpw hk
    have hpq : pq = [] := heapWeight_nil_of_zero (Nat.le_zero.mp hw)
    subst hpq
    rw [nearestLoop]
    refine ⟨?_, hpw⟩
    rw [show qItems [] = 0 from rfl]
    omega
  | succ fuel ih =>
    intro pq result hw hp hok hbd hpw hk
    rw [nearestLoop]
    by_cases hlen : result.length ≥ k
    · rw [if_pos hlen]
      refine ⟨?_, hpw⟩
      omega
    · rw [if_neg hlen]
      cases hpo : hpop pq with
      | none =>
        have hpq : pq = [] := hpop_none hpo
        subst hpq
        dsimp only
        refine ⟨?_, hpw⟩
        rw [show qItems [] = 0 from rfl]
        omega
      | some pr =>
        obtain ⟨⟨tp, te⟩, pq2⟩ := pr
        have hperm := hpop_perm pq (tp, te) pq2 hpo
        have htopmem : (tp, te) ∈ pq := hperm.mem_iff.mpr (List.mem_cons_self _ _)
        have htopok := hok _ htopmem
        cases te with
        | node n d =>
          dsimp only
          obtain ⟨hprd, hnok, hnbd⟩ := htopok
          have he1 : heapWeight pq = nodeWeight n + heapWeight pq2 := by
            rw [heapWeight_perm hperm, heapWeight_cons]
            rfl
          have he2 := pushEntries_weight msqrt p pq2 n
          have hw2 : heapWeight (pushEntries msqrt p pq2 n) ≤ fuel := by omega
          have hp2 : heapProp (pushEntries msqrt p pq2 n) :=
            pushEntries_heap msqrt p pq2 n (hpop_heap hp hpo)
          have hok2 : ∀ en ∈ pushEntries msqrt p pq2 n, pqeOK msqrt p en := by
            intro en hen
            rcases pushEntries_ok msqrt p hmono pq2 n d hnok hnbd en hen with
              hm | hm
            · exact hok en (hperm.mem_iff.mpr (List.mem_cons_of_mem _ hm))
            · exact hm.1
          have hbd2 : ∀ r ∈ result, ∀ en ∈ pushEntries msqrt p pq2 n,
              pointToBBoxDistance msqrt p (itemInsertBBox r) ≤ en.1 := by
            intro r hr en hen
            rcases pushEntries_ok msqrt p hmono pq2 n d hnok hnbd en hen with
              hm | hm
            · exact hbd r hr en (hperm.mem_iff.mpr (List.mem_cons_of_mem _ hm))
            · have h1 := hbd r hr (tp, PQE.node n d) htopmem
              have h3 : tp ≤ en.1 := by
                rw [hprd]
                exact hm.2
              exact le_trans h1 h3
          have hq1 : qItems pq = countItems n + qItems pq2 := by
            rw [qItems_perm hperm, qItems_cons]
            rfl
          have hq2 := pushEntries_items msqrt p pq2 n
          obtain ⟨hlen2, hpw2⟩ :=
            ih (pushEntries msqrt p pq2 n) result hw2 hp2 hok2 hbd2 hpw hk
          refine ⟨?_, hpw2⟩
          rw [hlen2]
          omega
        | item x bbox d =>
          dsimp only
          obtain ⟨hprd, hd, hbx⟩ := htopok
          have hdx : pointToBBoxDistance msqrt p (itemInsertBBox x) = tp := by
            rw [← hbx, ← hd, hprd]
          have he1 : heapWeight pq = 1 + heapWeight pq2 := by
            rw [heapWeight_perm hperm, heapWeight_cons]
            rfl
          have hw2 : heapWeight pq2 ≤ fuel := by omega
          have hp2 : heapProp pq2 := hpop_heap hp hpo
          have hok2 : ∀ en ∈ pq2, pqeOK msqrt p en := by
            intro en hen
            exact hok en (hperm.mem_iff.mpr (List.mem_cons_of_mem _ hen))
          have hbd2 : ∀ r ∈ result ++ [x], ∀ en ∈ pq2,
              pointToBBoxDistance msqrt p (itemInsertBBox r) ≤ en.1 := by
            intro r hr en hen
            rcases List.mem_append.mp hr with hr2 | hr2
            · exact hbd r hr2 en (hperm.mem_iff.mpr (List.mem_cons_of_mem _ hen))
            · have hrx : r = x := List.mem_singleton.mp hr2
              subst hrx
              rw [hdx]
              exact hpop_min hp hpo en hen
          have hpw2 : (result ++ [x]).Pairwise (fun r1 r2 =>
              pointToBBoxDistance msqrt p (itemInsertBBox r1) ≤
                pointToBBoxDistance msqrt p (itemInsertBBox r2)) := by
            rw [List.pairwise_append]
            refine ⟨hpw, List.pairwise_singleton _ _, ?_⟩
            intro r hr y hy
            have hyx : y = x := List.mem_singleton.mp hy
            rw [hyx, hdx]
            exact hbd r hr (tp, PQE.item x bbox d) htopmem
          have hlapp : (result ++ [x]).length = result.length + 1 := by
            rw [List.length_append, List.length_singleton]
          have hk2 : (result ++ [x]).length ≤ k := by omega
          have hq1 : qItems pq = 1 + qItems pq2 := by
            rw [qItems_perm hperm, qItems_cons]
            rfl
          obtain ⟨hlen2, hpw3⟩ :=
            ih pq2 (result ++ [x]) hw2 hp2 hok2 hbd2 hpw2 hk2
          refine ⟨?_, hpw3⟩
          rw [hlen2]
          omega

/-- C2.  `nearest(p, k)` (geometry.ts 1677-1722) returns exactly
`min k |S|` results, in non-decreasing true distance from `p`, where the
true distance of a result is the exact (squared-scale) MINDIST from `p`
to the bounding box the tree stores for the item — the quantity the
source computes as `pointToBBoxDistance` and uses both as the queue key
and as the pop order.  The claim holds for every well-formed tree and
every monotone strictly-increasing square-root routine (which
`Math.sqrt` is on the reals): the best-first pop order is justified by
the spec's MINDIST argument, proved here as the loop invariant
`nearestLoop_invariant`. -/
theorem claim_nearest_order (msqrt : ℚ → ℚ) (t : RTreeSt) (p : Pt) (k : ℕ)
    (ht : treeOK t = true)
    (hmono : ∀ a b : ℚ, 0 ≤ a → a ≤ b → msqrt a ≤ msqrt b)
    (hstrict : ∀ a b : ℚ, 0 ≤ a → a < b → msqrt a < msqrt b) :
    (nearestT msqrt t p k).length = min k (countItems t.root) ∧
    (nearestT msqrt t p k).Pairwise (fun r1 r2 =>
      distToBoxSq p (itemInsertBBox r1) ≤ distToBoxSq p (itemInsertBBox r2)) := by
  have hnok : nodeOK t.root = true := by
    rw [treeOK] at ht
    simp only [Bool.and_eq_true] at ht
    exact ht.2
  have hp0 : heapProp (hpush ([] : List (ℚ × PQE))
      (PQE.node t.root (pointToBBoxDistance msqrt p (computeBBox t.root)))
      (pointToBBoxDistance msqrt p (computeBBox t.root))) := by
    apply hpush_heap
    intro i hi1 hi2
    rw [List.length_nil] at hi2
    omega
  have hok0 : ∀ en ∈ (hpush ([] : List (ℚ × PQE))
      (PQE.node t.root (pointToBBoxDistance msqrt p (computeBBox t.root)))
      (pointToBBoxDistance msqrt p (computeBBox t.root))), pqeOK msqrt p en := by
    intro en hen
    have hm := (hpush_perm _ _ _).mem_iff.mp hen
    rcases List.mem_cons.mp hm with hm2 | hm2
    · subst hm2
      refine ⟨rfl, hnok, ?_⟩
      intro bb hbb
      rw [pointToBBoxDistance_eq, pointToBBoxDistance_eq]
      exact hmono _ _ (distToBoxSq_nonneg _ _)
        (distToBoxSq_anti p (nodeOK_boxes_wf t.root hnok bb hbb)
          (computeBBox_covers t.root bb hbb))
    · cases hm2
  have hinv := nearestLoop_invariant msqrt p k hmono
    (heapWeight (hpush ([] : List (ℚ × PQE))
      (PQE.node t.root (pointToBBoxDistance msqrt p (computeBBox t.root)))
      (pointToBBoxDistance msqrt p (computeBBox t.root))))
    (hpush ([] : List (ℚ × PQE))
      (PQE.node t.root (pointToBBoxDistance msqrt p (computeBBox t.root)))
      (pointToBBoxDistance msqrt p (computeBBox t.root)))
    [] le_rfl hp0 hok0
    (by intro r hr en hen; exact absurd hr (List.not_mem_nil r))
    List.Pairwise.nil (Nat.zero_le k)
  obtain ⟨h1, h2⟩ := hinv
  have hq0 : qItems (hpush ([] : List (ℚ × PQE))
      (PQE.node t.root (pointToBBoxDistance msqrt p (computeBBox t.root)))
      (pointToBBoxDistance msqrt p (computeBBox t.root))) = countItems t.root := by
    rw [qItems_perm (hpush_perm _ _ _), qItems_cons]
    rfl
  rw [List.length_nil, hq0] at h1
  constructor
  · rw [nearestT]
    rw [h1]
    omega
  · rw [nearestT]
    refine List.Pairwise.imp ?_ h2
    intro r1 r2 hle
    by_contra hgt
    push_neg at hgt
    have hlt := hstrict _ _ (distToBoxSq_nonneg _ _) hgt
    rw [pointToBBoxDistance_eq, pointToBBoxDistance_eq] at hle
    exact absurd hle (not_le.mpr hlt)

/-- Witness for C2 at a concrete input: the nine-item bulk-loaded tree
`bl9`, query point `(0, 0)`, `k = 3`, with the identity as the (monotone,
strictly increasing on this run) square-root stand-in. -/
theorem claim_nearest_order_witness :
    (nearestT id bl9 ⟨0, 0⟩ 3).length = min 3 (countItems bl9.root) ∧
    (nearestT id bl9 ⟨0, 0⟩ 3).Pairwise (fun r1 r2 =>
      distToBoxSq ⟨0, 0⟩ (itemInsertBBox r1) ≤
        distToBoxSq ⟨0, 0⟩ (itemInsertBBox r2)) :=
  claim_nearest_order id bl9 ⟨0, 0⟩ 3 (by decide)
    (fun a b h1 h2 => h2) (fun a b h1 h2 => h2)

end Geospace
